import Mathlib

/-!
Verification development for the ilattice3-wfc repository (overlapping
Wave Function Collapse).  The Rust sources are shallowly embedded:

* `offset.rs`   → `OffsetGroup` (offset lists, `opposite`, `offset_id`)
* `pattern.rs`  → `PatternConstraints`, `PatternSet`, pattern extraction
* `wave.rs`     → namespace `Wv` (support-counter wave, removal stack)
* `generate.rs` → namespace `Gn` (arc-consistency generator and its
                  private wave with `remaining_pattern_count`)

Machine integers are modelled by `Nat`/`Int` (with explicit wrap-around
where the claims depend on it), `f32` by the four-constructor type `F32`
(NaN / ±infinity / finite rationals, with `log2` on positive finite
values kept as an abstract parameter `l2`), and panics by `Option` /
`Except`.
-/

set_option maxHeartbeats 1000000

set_option maxRecDepth 2000

/-- Integer lattice point, `ilattice3::Point`. -/
structure Point where
  x : Int
  y : Int
  z : Int
deriving DecidableEq, Repr

instance : Add Point := ⟨fun p q => ⟨p.x + q.x, p.y + q.y, p.z + q.z⟩⟩

instance : Neg Point := ⟨fun p => ⟨-p.x, -p.y, -p.z⟩⟩

instance : Mul Point := ⟨fun p q => ⟨p.x * q.x, p.y * q.y, p.z * q.z⟩⟩

instance : OfNat Point 0 := ⟨⟨0, 0, 0⟩⟩

/-- An axis-aligned extent with minimum `(0,0,0)` and local supremum `sup`.
Every lattice built by this codebase (`from_min_and_world_supremum` /
`from_min_and_local_supremum` with minimum `[0,0,0]`) has minimum zero, so
only the size is stored. -/
structure Extent where
  sup : Point
deriving DecidableEq, Repr

/-- Bounds check, `Extent::contains_world` for a minimum-zero extent. -/
def Extent.contains (e : Extent) (p : Point) : Bool :=
  0 ≤ p.x && p.x < e.sup.x && 0 ≤ p.y && p.y < e.sup.y && 0 ≤ p.z && p.z < e.sup.z

/-- Number of cells, `Extent::volume`. -/
def Extent.volume (e : Extent) : Nat :=
  e.sup.x.toNat * e.sup.z.toNat * e.sup.y.toNat

/-- Row-major linear index of a point (y slowest, then z, then x: the
"Y-levels" layout described in the spec for `PeriodicYLevelsIndexer`),
`index_from_local_point`. -/
def Extent.encode (e : Extent) (p : Point) : Nat :=
  ((p.y * e.sup.z + p.z) * e.sup.x + p.x).toNat

/-- Inverse of `encode`, `local_point_from_index`. -/
def Extent.decode (e : Extent) (i : Nat) : Point :=
  ⟨(i % e.sup.x.toNat : Nat), (i / e.sup.x.toNat / e.sup.z.toNat : Nat),
    (i / e.sup.x.toNat % e.sup.z.toNat : Nat)⟩

/-- The points of an extent in iteration order. -/
def Extent.pointList (e : Extent) : List Point :=
  (List.range e.volume).map e.decode

/-! ### A structural model of `f32`

Finite values are exact rationals; the special values NaN and ±infinity are
explicit constructors.  `log2` of a positive finite value is an abstract
parameter `l2 : ℚ → ℚ` threaded through the definitions (its exact values
never matter for the claims below; only finiteness and determinism do). -/

inductive F32 where
  | nan : F32
  | inf : F32
  | ninf : F32
  | fin : ℚ → F32
deriving DecidableEq, Repr

namespace F32

/-- Floating-point addition restricted to the value classes. -/
def fadd : F32 → F32 → F32
  | nan, _ => nan
  | _, nan => nan
  | inf, ninf => nan
  | ninf, inf => nan
  | inf, _ => inf
  | _, inf => inf
  | ninf, _ => ninf
  | _, ninf => ninf
  | fin a, fin b => fin (a + b)

/-- Floating-point subtraction. -/
def fsub : F32 → F32 → F32
  | nan, _ => nan
  | _, nan => nan
  | inf, inf => nan
  | ninf, ninf => nan
  | inf, _ => inf
  | ninf, _ => ninf
  | _, inf => ninf
  | _, ninf => inf
  | fin a, fin b => fin (a - b)

/-- Floating-point multiplication (signs of infinite products follow IEEE). -/
def fmul : F32 → F32 → F32
  | nan, _ => nan
  | _, nan => nan
  | inf, inf => inf
  | inf, ninf => ninf
  | ninf, inf => ninf
  | ninf, ninf => inf
  | inf, fin b => if b = 0 then nan else if 0 < b then inf else ninf
  | fin a, inf => if a = 0 then nan else if 0 < a then inf else ninf
  | ninf, fin b => if b = 0 then nan else if 0 < b then ninf else inf
  | fin a, ninf => if a = 0 then nan else if 0 < a then ninf else inf
  | fin a, fin b => fin (a * b)

/-- Floating-point division. -/
def fdiv : F32 → F32 → F32
  | nan, _ => nan
  | _, nan => nan
  | inf, inf => nan
  | inf, ninf => nan
  | ninf, inf => nan
  | ninf, ninf => nan
  | inf, fin b => if 0 ≤ b then inf else ninf
  | ninf, fin b => if 0 ≤ b then ninf else inf
  | fin _, inf => fin 0
  | fin _, ninf => fin 0
  | fin a, fin b =>
      if b = 0 then (if a = 0 then nan else if 0 < a then inf else ninf) else fin (a / b)

/-- `f32::log2`, with the abstract parameter `l2` on positive finite inputs. -/
def flog2 (l2 : ℚ → ℚ) : F32 → F32
  | nan => nan
  | inf => inf
  | ninf => nan
  | fin a => if 0 < a then fin (l2 a) else if a = 0 then ninf else nan

/-- `PartialOrd::partial_cmp` on the value classes; `none` exactly when one
side is NaN (the code then panics through `.expect`). -/
def fcmp : F32 → F32 → Option Ordering
  | nan, _ => none
  | _, nan => none
  | inf, inf => some .eq
  | inf, _ => some .gt
  | _, inf => some .lt
  | ninf, ninf => some .eq
  | ninf, _ => some .lt
  | _, ninf => some .gt
  | fin a, fin b => some (compare a b)

end F32

/-! ### PatternSet (`pattern.rs`)

A bitset (`Finset ℕ`) plus a separately tracked `u16` size counter; `remove`
decrements the counter unconditionally with `u16` wrap-around semantics
(`self.size -= 1`, which underflows when the counter is zero). -/

structure PatternSet where
  bits : Finset ℕ
  size : ℕ
deriving DecidableEq

namespace PatternSet

/-- `PatternSet::all`. -/
def all (num_patterns : ℕ) : PatternSet :=
  { bits := Finset.range num_patterns, size := num_patterns }

/-- `PatternSet::len`. -/
def len (s : PatternSet) : ℕ := s.size

/-- `PatternSet::remove`: the bit is cleared (even if absent) and the `u16`
size counter is decremented with wrap-around (a zero counter wraps to
`u16::MAX = 65535`, the debug-build underflow panic). -/
def remove (s : PatternSet) (pattern : ℕ) : PatternSet :=
  { bits := s.bits.erase pattern, size := if s.size = 0 then 65535 else s.size - 1 }

/-- `PatternSet::is_empty`. -/
def is_empty (s : PatternSet) : Bool := s.len == 0

end PatternSet

/-- Ascending iteration order of a bitset (`hibitset`/`BitSet` iterators
yield indices in increasing order): the members of the set, smallest
first. -/
def ascList (S : Finset ℕ) : List ℕ :=
  (List.range (S.sup id + 1)).filter (fun x => decide (x ∈ S))

/-! ### OffsetGroup (`offset.rs`) -/

/-- `OffsetGroup`: the ordered list of offsets; `OffsetId`s are positions. -/
structure OffsetGroup where
  offsets : List Point
deriving DecidableEq

namespace OffsetGroup

/-- `OffsetGroup::num_offsets`. -/
def num_offsets (g : OffsetGroup) : ℕ := g.offsets.length

/-- The offset point with a given id (`offsets.get`). -/
def offsetAt (g : OffsetGroup) (k : ℕ) : Point := g.offsets.getD k ⟨0, 0, 0⟩

/-- `OffsetGroup::offset_id`: position of a point in the list (the code
panics when the point is absent; the model then returns the list length,
which is never a valid id). -/
def offset_id (g : OffsetGroup) (p : Point) : ℕ :=
  g.offsets.findIdx (fun o => decide (o = p))

/-- `OffsetGroup::opposite`: mirror index `num_offsets - 1 - id`. -/
def opposite (g : OffsetGroup) (k : ℕ) : ℕ := g.num_offsets - 1 - k

/-- The ordering constraint of `offset.rs` ("Must be ordered so opposites
have mirror indices"): the offset at the mirror index is the negation. -/
def mirrored (g : OffsetGroup) : Bool :=
  (List.range g.num_offsets).all fun k =>
    decide (g.offsetAt (g.num_offsets - 1 - k) = -(g.offsetAt k))

end OffsetGroup

/-- `EDGE_2D_OFFSETS` from `offset.rs`. -/
def edge_2d_offsets : List Point :=
  [⟨-1, 0, 0⟩, ⟨0, -1, 0⟩, ⟨0, 1, 0⟩, ⟨1, 0, 0⟩]

/-- `FACE_3D_OFFSETS` from `offset.rs`. -/
def face_3d_offsets : List Point :=
  [⟨-1, 0, 0⟩, ⟨0, -1, 0⟩, ⟨0, 0, -1⟩, ⟨0, 0, 1⟩, ⟨0, 1, 0⟩, ⟨1, 0, 0⟩]

/-! ### PatternConstraints (`pattern.rs`)

The per-pattern, per-offset rows of compatible patterns.  `StaticVec`
indexing is modelled by a total function; rows that the Rust code never
creates are the empty set. -/

structure PatternConstraints where
  rel : ℕ → ℕ → Finset ℕ
  offset_group : OffsetGroup
  num_patterns : ℕ

namespace PatternConstraints

/-- `PatternConstraints::new`. -/
def new (g : OffsetGroup) : PatternConstraints :=
  { rel := fun _ _ => ∅, offset_group := g, num_patterns := 0 }

/-- `PatternConstraints::add_pattern` (a fresh empty row). -/
def add_pattern (c : PatternConstraints) : PatternConstraints :=
  { c with num_patterns := c.num_patterns + 1 }

/-- `PatternConstraints::are_compatible`. -/
def are_compatible (c : PatternConstraints) (pattern offset_pattern : ℕ) (offset : ℕ) : Bool :=
  decide (offset_pattern ∈ c.rel pattern offset)

/-- `PatternConstraints::iter_compatible` (bitset iteration is ascending). -/
def iter_compatible (c : PatternConstraints) (pattern : ℕ) (offset : ℕ) : List ℕ :=
  ascList (c.rel pattern offset)

/-- `PatternConstraints::num_compatible`. -/
def num_compatible (c : PatternConstraints) (pattern : ℕ) (offset : ℕ) : ℕ :=
  (c.rel pattern offset).card

/-- `PatternConstraints::add_compatible_patterns`: record `offset_pattern ∈
C[pattern][o]` and symmetrically `pattern ∈ C[offset_pattern][-o]`, both
offset ids resolved through `offset_id`. -/
def add_compatible_patterns (c : PatternConstraints) (offset : Point)
    (pattern offset_pattern : ℕ) : PatternConstraints :=
  let offset_id := c.offset_group.offset_id offset
  let opposite_id := c.offset_group.offset_id (-offset)
  { c with
    rel := fun a j =>
      let s := c.rel a j
      let s := if a = pattern ∧ j = offset_id then insert offset_pattern s else s
      if a = offset_pattern ∧ j = opposite_id then insert pattern s else s }

/-- `PatternConstraints::get_initial_support` as a function: the count for
`(p, o)` is `num_compatible(p, opposite(o))`; entries outside the allotted
ranges were never allocated and are zero. -/
def get_initial_support (c : PatternConstraints) : ℕ → ℕ → ℤ := fun p o =>
  if p < c.num_patterns ∧ o < c.offset_group.num_offsets then
    (c.num_compatible p (c.offset_group.opposite o) : ℤ)
  else 0

end PatternConstraints

/-! ### Lattices

`Lattice<T>` over a minimum-zero extent, with the cell storage as a total
function from points (out-of-extent reads never occur on the paths the
claims exercise; the Rust code would panic there). -/

structure LatGrid (T : Type) where
  ext : Extent
  f : Point → T

namespace LatGrid

/-- `Lattice::fill`. -/
def fill (e : Extent) (v : T) : LatGrid T := ⟨e, fun _ => v⟩

/-- `get_world` / `get_local` (minimum-zero extents make them agree). -/
def get (L : LatGrid T) (p : Point) : T := L.f p

end LatGrid

/-- Point update of a plain function store. -/
def updFn (f : Point → T) (p : Point) (v : T) : Point → T :=
  fun q => if q = p then v else f q

/-! ### RNG

`StdRng` is modelled as a deterministic stream of rationals plus a cursor:
`from_seed` turns the seed into the stream (abstractly), `gen` reads the
next element, and a `WeightedIndex` sample consumes one element and maps it
to an index by prefix sums. -/

structure Rng where
  stream : ℕ → ℚ
  pos : ℕ

/-- `rng.gen()`: next raw value and advanced state. -/
def Rng.next (r : Rng) : ℚ × Rng :=
  (r.stream r.pos, { r with pos := r.pos + 1 })

/-- `WeightedIndex::sample` index selection by prefix sums of the weights
(the resulting index is always in range for a non-empty weight list). -/
def weightedChoice : List ℕ → ℚ → ℕ
  | [], _ => 0
  | w :: rest, x =>
      if rest = [] then 0
      else if x < (w : ℚ) then 0 else 1 + weightedChoice rest (x - w)

/-! ### Shared entropy cache (`SlotEntropyCache` in both `generate.rs` and
`wave.rs`) and the entropy formula -/

structure SlotEntropyCache where
  sum_weights : F32
  sum_weights_log_weights : F32
  entropy : F32
deriving DecidableEq, Repr

/-- The cache value for a collapsed slot (`set_max_entropy` / the
one-possibility branch of `slot_entropy`). -/
def maxEntropyCache : SlotEntropyCache := ⟨F32.inf, F32.inf, F32.inf⟩

/-- `entropy(sum_weights, sum_weights_log_weights)`. -/
def entropyF (l2 : ℚ → ℚ) (sum_weights sum_weights_log_weights : F32) : F32 :=
  F32.fsub (F32.flog2 l2 sum_weights) (F32.fdiv sum_weights_log_weights sum_weights)

/-- The accumulation loop of `slot_entropy`: running `(sum_weights,
sum_weights_log_weights)` over the patterns in ascending bitset order. -/
def accumEntropy (l2 : ℚ → ℚ) (weights : ℕ → ℕ) (pats : List ℕ) : F32 × F32 :=
  pats.foldl
    (fun acc p =>
      let w : F32 := .fin (weights p)
      (F32.fadd acc.1 w, F32.fadd acc.2 (F32.fmul w (F32.flog2 l2 w))))
    (.fin 0, .fin 0)

/-- `slot_entropy`: infinite for a collapsed (single-possibility) slot,
otherwise the accumulated sums and the entropy formula.  (The Rust code
first asserts the set is non-empty; an empty set never reaches this
function on the modelled paths.) -/
def slot_entropy (l2 : ℚ → ℚ) (weights : ℕ → ℕ) (possible : Finset ℕ) : SlotEntropyCache :=
  if possible.card = 1 then maxEntropyCache
  else
    let acc := accumEntropy l2 weights (ascList possible)
    ⟨acc.1, acc.2, entropyF l2 acc.1 acc.2⟩

/-! ### The generator (`generate.rs`)

`generate.rs` carries its own private `Wave` (bitset slots, entropy cache
and a wave-wide `remaining_pattern_count`), and a `Generator` that drives
observation and arc-consistency propagation over a `BTreeSet` work list. -/

/-- `PatternGroup` as consumed by `generate.rs`: the prior weights together
with the compatibility constraints.  (The type itself lives outside the
`src/` snapshot; its two capabilities used here are exactly
`PatternSampler::get_weight` and `PatternConstraints`.) -/
structure PatternGroup where
  weights : ℕ → ℕ
  constraints : PatternConstraints

namespace PatternGroup

/-- `PatternGroup::num_patterns`. -/
def num_patterns (G : PatternGroup) : ℕ := G.constraints.num_patterns

/-- `PatternGroup::get_weight`. -/
def get_weight (G : PatternGroup) (p : ℕ) : ℕ := G.weights p

/-- `constraints.compatible(offset_id, visit_pattern, offset_pattern)`. -/
def compatible (G : PatternGroup) (offset : ℕ) (pattern offset_pattern : ℕ) : Bool :=
  G.constraints.are_compatible pattern offset_pattern offset

/-- `PatternSampler::sample_pattern`: collect the possible patterns (bitset
order) and their weights, build a `WeightedIndex` (which fails on an empty
or all-zero weight list — the code `unwrap`s, so the model returns `none`
there) and draw one sample. -/
def sample_pattern (G : PatternGroup) (possible : Finset ℕ) (r : Rng) : Option (ℕ × Rng) :=
  let pats := ascList possible
  let ws := pats.map G.weights
  if pats = [] ∨ ws.sum = 0 then none
  else
    let (x, r') := r.next
    some (pats.getD (weightedChoice ws x) 0, r')

end PatternGroup

/-- Lexicographic comparison of points in `[i32; 3]` array order, the
`Ord` instance backing the `BTreeSet<[i32; 3]>` work list. -/
def ptLtB (p q : Point) : Bool :=
  p.x < q.x || (p.x = q.x && (p.y < q.y || (p.y = q.y && p.z < q.z)))

/-- `BTreeSet::insert`: ordered insertion without duplicates. -/
def wlInsert (p : Point) : List Point → List Point
  | [] => [p]
  | q :: rest =>
      if p = q then q :: rest
      else if ptLtB p q then p :: q :: rest
      else q :: wlInsert p rest

namespace Gn

/-- The private `Wave` of `generate.rs`. -/
structure Wave where
  slots : LatGrid (Finset ℕ)
  entropy_cache : LatGrid SlotEntropyCache
  remaining_pattern_count : ℕ

/-- `UpdateResult`. -/
inductive UpdateResult where
  | Success : UpdateResult
  | Continue : UpdateResult
  | Failure : UpdateResult
deriving DecidableEq, Repr

/-- `Wave::new` (`generate.rs`): every slot starts with all patterns
possible, `remaining_pattern_count = volume * num_patterns`, and every
cached entropy is the full-set entropy. -/
def Wave.new (l2 : ℚ → ℚ) (G : PatternGroup) (output_size : Point) : Wave :=
  let all_possible : Finset ℕ := Finset.range G.num_patterns
  let ext : Extent := ⟨output_size⟩
  { slots := LatGrid.fill ext all_possible,
    entropy_cache := LatGrid.fill ext (slot_entropy l2 G.weights all_possible),
    remaining_pattern_count := ext.volume * G.num_patterns }

/-- `Wave::determined` (`generate.rs`): the remaining pattern count equals
the number of slots. -/
def Wave.determined (w : Wave) : Bool :=
  w.remaining_pattern_count == w.slots.ext.volume

/-- The noisy-entropy scan of `choose_lowest_entropy_slot`: one RNG draw
per slot, pairing each point with `cache.entropy + 0.001 * noise`. -/
def scanEntropies (w : Wave) (r : Rng) : List (Point × F32) × Rng :=
  w.entropy_cache.ext.pointList.foldl
    (fun acc s =>
      let (x, r') := acc.2.next
      let cache := w.entropy_cache.f s
      (acc.1 ++ [(s, F32.fadd cache.entropy (F32.fmul (.fin (1 / 1000)) (.fin x)))], r'))
    ([], r)

/-- The fold inside `Iterator::min_by` (first minimum kept; `none` when the
comparator hits a NaN and panics through `.expect`). -/
def minByGo (best : Point × F32) : List (Point × F32) → Option (Point × F32)
  | [] => some best
  | c :: rest =>
      match F32.fcmp best.2 c.2 with
      | none => none
      | some .gt => minByGo c rest
      | some _ => minByGo best rest

/-- `Iterator::min_by` over the candidate list. -/
def minByF : List (Point × F32) → Option (Point × F32)
  | [] => none
  | c :: rest => minByGo c rest

/-- `Wave::choose_lowest_entropy_slot`: `none` models the panics
(`expect("Unexpected NaN")`, or `unwrap` on an empty extent). -/
def choose_lowest_entropy_slot (w : Wave) (r : Rng) : Option ((Point × F32) × Rng) :=
  let sc := scanEntropies w r
  match minByF sc.1 with
  | none => none
  | some be => some (be, sc.2)

/-- `Wave::lower_entropy` (`generate.rs`), with `f32` operation structure. -/
def lower_entropy (l2 : ℚ → ℚ) (G : PatternGroup) (cache : SlotEntropyCache)
    (remove_pattern : ℕ) : SlotEntropyCache :=
  let w : F32 := .fin (G.get_weight remove_pattern)
  let sw := F32.fsub cache.sum_weights w
  let sl := F32.fsub cache.sum_weights_log_weights (F32.fmul w (F32.flog2 l2 w))
  ⟨sw, sl, entropyF l2 sw sl⟩

/-- `Wave::remove_pattern` (`generate.rs`): erase the pattern, set the
entropy cache to infinity when exactly one pattern remains (else lower it),
and decrement `remaining_pattern_count`. -/
def remove_pattern (l2 : ℚ → ℚ) (G : PatternGroup) (w : Wave) (slot : Point)
    (pattern : ℕ) : Wave :=
  let s' := (w.slots.f slot).erase pattern
  let cache' :=
    if s'.card = 1 then maxEntropyCache
    else lower_entropy l2 G (w.entropy_cache.f slot) pattern
  { slots := ⟨w.slots.ext, updFn w.slots.f slot s'⟩,
    entropy_cache := ⟨w.entropy_cache.ext, updFn w.entropy_cache.f slot cache'⟩,
    remaining_pattern_count := w.remaining_pattern_count - 1 }

/-- `Wave::collapse_slot` (`generate.rs`): remove every possible pattern
other than the assigned one (collected first, bitset order). -/
def collapse_slot (l2 : ℚ → ℚ) (G : PatternGroup) (w : Wave) (slot : Point)
    (assign_pattern : ℕ) : Wave :=
  let remove_patterns := (ascList (w.slots.f slot)).filter (fun p => p ≠ assign_pattern)
  remove_patterns.foldl (fun w p => remove_pattern l2 G w slot p) w

/-- `Generator::remove_impossible_patterns`: at `offset_slot`, collect the
patterns with no compatible possibility at `visit_slot`, remove them, and
report `(new wave, any possible left, anything changed)`. -/
def remove_impossible_patterns (l2 : ℚ → ℚ) (G : PatternGroup) (w : Wave)
    (visit_slot offset_slot : Point) (offset_id : ℕ) : Wave × Bool × Bool :=
  let imp := (ascList (w.slots.f offset_slot)).filter
    (fun q => !decide (∃ p ∈ w.slots.f visit_slot, G.compatible offset_id p q = true))
  let w' := imp.foldl (fun w q => remove_pattern l2 G w offset_slot q) w
  (w', decide (w'.slots.f offset_slot).Nonempty, decide (imp ≠ []))

/-- The per-offset body of the propagation loop: filter each in-extent
neighbor of the visited slot, fail on an emptied slot, and enqueue
neighbors whose possibilities changed. -/
def visitOffsets (l2 : ℚ → ℚ) (G : PatternGroup) :
    List ℕ → Wave → List Point → Point → Bool × Wave × List Point
  | [], w, wl, _ => (true, w, wl)
  | k :: ks, w, wl, visit_slot =>
    let offset_slot := visit_slot + G.constraints.offset_group.offsetAt k
    if w.slots.ext.contains offset_slot then
      let r := remove_impossible_patterns l2 G w visit_slot offset_slot k
      if r.2.1 then
        visitOffsets l2 G ks r.1 (if r.2.2 then wlInsert offset_slot wl else wl) visit_slot
      else (false, r.1, wl)
    else visitOffsets l2 G ks w wl visit_slot

/-- `Generator::propagate_constraints`: worklist loop, popping the maximal
point (`BTreeSet::pop_last`) and visiting all offsets.  Fuel-indexed; the
result is `none` when the fuel runs out before quiescence. -/
def propagate_constraints (l2 : ℚ → ℚ) (G : PatternGroup) :
    ℕ → Wave → List Point → Option (Bool × Wave)
  | 0, _, _ => none
  | fuel + 1, w, wl =>
    match wl.getLast? with
    | none => some (true, w)
    | some visit_slot =>
      let st := visitOffsets l2 G (List.range G.constraints.offset_group.num_offsets)
        w wl.dropLast visit_slot
      if st.1 then propagate_constraints l2 G fuel st.2.1 st.2.2 else some (false, st.2.1)

/-- `Generator` (`generate.rs`): RNG state plus the wave. -/
structure Generator where
  rng : Rng
  wave : Wave

/-- `Generator::new`: seed the RNG (the seed is modelled by the stream it
deterministically produces) and build a fresh wave. -/
def Generator.new (stream : ℕ → ℚ) (l2 : ℚ → ℚ) (G : PatternGroup)
    (output_size : Point) : Generator :=
  { rng := ⟨stream, 0⟩, wave := Wave.new l2 G output_size }

/-- `Generator::result`: map each slot to its first remaining pattern
(ascending bitset iteration); `none` models the `unwrap` panic on a slot
with no remaining patterns. -/
def Generator.result (g : Generator) : Option (LatGrid ℕ) :=
  if g.wave.slots.ext.pointList.all (fun p => decide (g.wave.slots.f p).Nonempty) then
    some ⟨g.wave.slots.ext, fun p => (ascList (g.wave.slots.f p)).headD 0⟩
  else none

/-- `Generator::update`: choose the lowest-entropy slot, observe it
(sample, collapse, propagate), and classify the outcome.  `none` models a
panic or exhausted propagation fuel. -/
def update (l2 : ℚ → ℚ) (G : PatternGroup) (fuel : ℕ) (g : Generator) :
    Option (UpdateResult × Generator) :=
  match choose_lowest_entropy_slot g.wave g.rng with
  | none => none
  | some ((slot, _e), r1) =>
    match G.sample_pattern (g.wave.slots.f slot) r1 with
    | none => none
    | some (pattern, r2) =>
      let w1 := collapse_slot l2 G g.wave slot pattern
      match propagate_constraints l2 G fuel w1 [slot] with
      | none => none
      | some (ok, w2) =>
        let g' : Generator := ⟨r2, w2⟩
        some (if !ok then (.Failure, g')
          else if w2.determined then (.Success, g') else (.Continue, g'))

/-- The driver loop of `cli.rs::generate`: call `update` until a terminal
result, counting the steps.  The first argument bounds the number of
outer iterations. -/
def runLoop (l2 : ℚ → ℚ) (G : PatternGroup) :
    ℕ → ℕ → Generator → Option (ℕ × UpdateResult × Generator)
  | 0, _, _ => none
  | n + 1, fuel, g =>
    match update l2 G fuel g with
    | none => none
    | some (.Continue, g') =>
      match runLoop l2 G n fuel g' with
      | none => none
      | some (k, r, g2) => some (k + 1, r, g2)
    | some (r, g') => some (1, r, g')

/-- The number of collapsed cells: slots whose possible set has at most one
element (the "collapsed-cell count" of the termination claim). -/
def collapsedCells (w : Wave) : ℕ :=
  w.slots.ext.pointList.countP (fun c => decide ((w.slots.f c).card ≤ 1))

end Gn

/-- `PatternConstraints::assignment_is_valid`: every point, at every offset
with an in-extent neighbor, carries compatible patterns. -/
def PatternConstraints.assignment_is_valid (c : PatternConstraints) (A : LatGrid ℕ) : Bool :=
  A.ext.pointList.all fun p =>
    (List.range c.offset_group.num_offsets).all fun k =>
      let q := p + c.offset_group.offsetAt k
      !(A.ext.contains q) || c.are_compatible (A.f p) (A.f q) k

/-! ### The support-counter wave (`wave.rs`)

This `Wave` tracks per-slot `PatternSet`s (bitset plus size counter), the
entropy cache, per-slot support counters and the removal stack of
`(linear index, pattern)` pairs.  The extra `pushLog` field is a ghost
history (never read by any operation) recording every push ever made to
the removal stack, so that "each pair is pushed at most once during a run"
is expressible. -/

namespace Wv

structure Wave where
  collapsed_count : ℕ
  slots : LatGrid PatternSet
  entropy_cache : LatGrid SlotEntropyCache
  pattern_supports : LatGrid (ℕ → ℕ → ℤ)
  removal_stack : List (ℕ × ℕ)
  pushLog : List (ℕ × ℕ)

/-- `slot_entropy` (`wave.rs`): branches on the `len()` counter. -/
def slot_entropy (l2 : ℚ → ℚ) (weights : ℕ → ℕ) (ps : PatternSet) : SlotEntropyCache :=
  if ps.len = 1 then maxEntropyCache
  else
    let acc := accumEntropy l2 weights (ascList ps.bits)
    ⟨acc.1, acc.2, entropyF l2 acc.1 acc.2⟩

/-- `Wave::new` (`wave.rs`): all patterns possible everywhere,
`collapsed_count = 0`, initial support copied to every slot, empty removal
stack. -/
def Wave.new (l2 : ℚ → ℚ) (weights : ℕ → ℕ) (C : PatternConstraints)
    (output_size : Point) : Wave :=
  let all_possible := PatternSet.all C.num_patterns
  let ext : Extent := ⟨output_size⟩
  { collapsed_count := 0,
    slots := LatGrid.fill ext all_possible,
    entropy_cache := LatGrid.fill ext (slot_entropy l2 weights all_possible),
    pattern_supports := LatGrid.fill ext C.get_initial_support,
    removal_stack := [],
    pushLog := [] }

/-- `Wave::num_slots`. -/
def Wave.num_slots (w : Wave) : ℕ := w.slots.ext.volume

/-- `Wave::num_collapsed`. -/
def Wave.num_collapsed (w : Wave) : ℕ := w.collapsed_count

/-- `Wave::determined` (`wave.rs`). -/
def Wave.determined (w : Wave) : Bool := w.collapsed_count == w.num_slots

/-- `Wave::reduce_entropy` (`wave.rs`), `f32` operation structure. -/
def reduce_entropy (l2 : ℚ → ℚ) (weights : ℕ → ℕ) (cache : SlotEntropyCache)
    (remove_pattern : ℕ) : SlotEntropyCache :=
  let w : F32 := .fin (weights remove_pattern)
  let sw := F32.fsub cache.sum_weights w
  let sl := F32.fsub cache.sum_weights_log_weights (F32.fmul w (F32.flog2 l2 w))
  ⟨sw, sl, entropyF l2 sw sl⟩

/-- `Wave::remove_pattern` (`wave.rs`).  Returns `true` iff the slot is
empty after removal (then nothing further is mutated); otherwise updates
the entropy cache and `collapsed_count`, zeroes the removed pattern's
support row, and pushes `(linear index, pattern)` onto the removal stack
(and, in the model, onto the ghost `pushLog`). -/
def remove_pattern (l2 : ℚ → ℚ) (weights : ℕ → ℕ) (w : Wave) (slot : Point)
    (pattern : ℕ) : Bool × Wave :=
  let ps' := (w.slots.f slot).remove pattern
  let w1 : Wave := { w with slots := ⟨w.slots.ext, updFn w.slots.f slot ps'⟩ }
  if ps'.len = 0 then (true, w1)
  else
    let w2 : Wave :=
      if ps'.len = 1 then
        { w1 with
          entropy_cache := ⟨w1.entropy_cache.ext, updFn w1.entropy_cache.f slot maxEntropyCache⟩,
          collapsed_count := w1.collapsed_count + 1 }
      else
        { w1 with
          entropy_cache := ⟨w1.entropy_cache.ext,
            updFn w1.entropy_cache.f slot
              (reduce_entropy l2 weights (w1.entropy_cache.f slot) pattern)⟩ }
    let oldSup := w2.pattern_supports.f slot
    let w3 : Wave := { w2 with
      pattern_supports := ⟨w2.pattern_supports.ext,
        updFn w2.pattern_supports.f slot (fun p o => if p = pattern then 0 else oldSup p o)⟩ }
    (false,
      { w3 with
        removal_stack := w3.removal_stack ++ [(w3.slots.ext.encode slot, pattern)],
        pushLog := w3.pushLog ++ [(w3.slots.ext.encode slot, pattern)] })

/-- `Wave::collapse_slot` (`wave.rs`): remove every other possible pattern,
discarding the emptiness flags (the assigned pattern always remains). -/
def collapse_slot (l2 : ℚ → ℚ) (weights : ℕ → ℕ) (w : Wave) (slot : Point)
    (assign_pattern : ℕ) : Wave :=
  let remove_patterns := (ascList (w.slots.f slot).bits).filter
    (fun p => p ≠ assign_pattern)
  remove_patterns.foldl (fun w p => (remove_pattern l2 weights w slot p).2) w

/-- `Wave::remove_support` / `PatternSupport::remove`: decrement the
counter for `(pattern, offset)` at `slot` and report whether it reached
exactly zero. -/
def remove_support (w : Wave) (slot : Point) (pattern offset : ℕ) : Bool × Wave :=
  let cnt := w.pattern_supports.f slot pattern offset - 1
  let oldSup := w.pattern_supports.f slot
  (decide (cnt = 0),
    { w with
      pattern_supports := ⟨w.pattern_supports.ext,
        updFn w.pattern_supports.f slot
          (fun p o => if p = pattern ∧ o = offset then cnt else oldSup p o)⟩ })

/-- The inner loop of propagation over `iter_compatible(popped pattern,
offset)`: remove support at each compatible pattern, and on a zeroed
counter remove the pattern, failing if the slot empties. -/
def processPats (l2 : ℚ → ℚ) (weights : ℕ → ℕ) :
    List ℕ → Wave → Point → ℕ → Bool × Wave
  | [], w, _, _ => (true, w)
  | q :: qs, w, offset_slot, offset_id =>
    let r1 := remove_support w offset_slot q offset_id
    if r1.1 then
      let r2 := remove_pattern l2 weights r1.2 offset_slot q
      if r2.1 then (false, r2.2)
      else processPats l2 weights qs r2.2 offset_slot offset_id
    else processPats l2 weights qs r1.2 offset_slot offset_id

/-- The per-offset loop of propagation around the popped slot. -/
def processOffsets (l2 : ℚ → ℚ) (weights : ℕ → ℕ) (C : PatternConstraints) :
    List ℕ → Wave → ℕ → Point → Bool × Wave
  | [], w, _, _ => (true, w)
  | k :: ks, w, pattern, visit_slot =>
    let offset_slot := visit_slot + C.offset_group.offsetAt k
    if w.slots.ext.contains offset_slot then
      let r := processPats l2 weights (C.iter_compatible pattern k) w offset_slot k
      if r.1 then processOffsets l2 weights C ks r.2 pattern visit_slot
      else (false, r.2)
    else processOffsets l2 weights C ks w pattern visit_slot

/-- `Wave::propagate_constraints` (`wave.rs`): pop `(slot, pattern)` pairs
from the removal stack until it is empty, failing as soon as some slot has
no possible patterns.  Fuel-indexed. -/
def propagate_constraints (l2 : ℚ → ℚ) (weights : ℕ → ℕ) (C : PatternConstraints) :
    ℕ → Wave → Option (Bool × Wave)
  | 0, _ => none
  | fuel + 1, w =>
    match w.removal_stack.getLast? with
    | none => some (true, w)
    | some vp =>
      let w0 : Wave := { w with removal_stack := w.removal_stack.dropLast }
      let visit_slot := w0.slots.ext.decode vp.1
      let r := processOffsets l2 weights C (List.range C.offset_group.num_offsets)
        w0 vp.2 visit_slot
      if r.1 then propagate_constraints l2 weights C fuel r.2 else some (false, r.2)

/-- Reachable wave states: the fresh wave, then any number of
`observe_slot` steps (a sampled pattern `q` possible at an in-extent slot,
collapse, then a completed propagation).  The boolean is the propagation
flag of the last step; further steps only continue from successful
states, matching the driver, which stops on `Failure`. -/
inductive Reach (l2 : ℚ → ℚ) (weights : ℕ → ℕ) (C : PatternConstraints)
    (output_size : Point) : Wave → Bool → Prop where
  | init : Reach l2 weights C output_size (Wave.new l2 weights C output_size) true
  | step : ∀ w slot q fuel b w', Reach l2 weights C output_size w true →
      w.slots.ext.contains slot = true →
      q ∈ (w.slots.f slot).bits →
      propagate_constraints l2 weights C fuel
        (collapse_slot l2 weights w slot q) = some (b, w') →
      Reach l2 weights C output_size w' b

/-- The number of cells whose possible-pattern set has size at most one. -/
def countCollapsed (w : Wave) : ℕ :=
  w.slots.ext.pointList.countP (fun c => decide ((w.slots.f c).bits.card ≤ 1))

end Wv

/-! ### Pattern extraction (`process_patterns_in_lattice`, `pattern.rs`) -/

/-- Toroidal wrap of a point into a minimum-zero extent: the
`PeriodicYLevelsIndexer` read used during extraction (the spec requires the
input to wrap on each axis). -/
def wrapP (p : Point) (size : Point) : Point :=
  ⟨p.x % size.x, p.y % size.y, p.z % size.z⟩

/-- `div_ceil` on one axis (sizes are positive in every call). -/
def divCeilN (a b : Int) : ℕ := (a.toNat + b.toNat - 1) / b.toNat

/-- Componentwise `Point::div_ceil`. -/
def Point.divCeil (a b : Point) : Point :=
  ⟨(divCeilN a.x b.x : ℕ), (divCeilN a.y b.y : ℕ), (divCeilN a.z b.z : ℕ)⟩

/-- `Tile::get_from_lattice` on the pattern extent anchored at
`pattern_point * tile_size`: the serialized cell values, read toroidally,
in canonical iteration order. -/
def tileAt [DecidableEq T] (input : LatGrid T) (tile_size pattern_size : Point)
    (pattern_point : Point) : List T :=
  (Extent.mk pattern_size).pointList.map fun q =>
    input.f (wrapP (pattern_point * tile_size + q) input.ext.sup)

/-- State of the pattern-indexing pass: the tile-to-id map (insertion
order), the number of patterns so far, and the `pattern_lattice` being
filled (initially `EMPTY_PATTERN_ID = u16::MAX`). -/
structure IndexState (T : Type) where
  assoc : List (List T × ℕ)
  num_patterns : ℕ
  pattern_lattice : Point → ℕ

/-- One step of the indexing pass at `pattern_point`; `Except.error`
models the "Too many patterns" panic (raised when the running count would
exceed `MAX_PATTERNS = 32767`). -/
def indexPatternsStep [DecidableEq T] (input : LatGrid T) (tile_size pattern_size : Point)
    (st : IndexState T) (pattern_point : Point) : Except Unit (IndexState T) :=
  let pattern := tileAt input tile_size pattern_size pattern_point
  match st.assoc.find? (fun e => decide (e.1 = pattern)) with
  | some e => .ok { st with pattern_lattice := updFn st.pattern_lattice pattern_point e.2 }
  | none =>
      if st.num_patterns + 1 > 32767 then .error ()
      else .ok
        { assoc := st.assoc ++ [(pattern, st.num_patterns)],
          num_patterns := st.num_patterns + 1,
          pattern_lattice := updFn st.pattern_lattice pattern_point st.num_patterns }

/-- The full indexing pass over the pattern-lattice points. -/
def indexPatterns [DecidableEq T] (input : LatGrid T) (tile_size pattern_size : Point)
    (pts : List Point) : Except Unit (IndexState T) :=
  pts.foldlM (indexPatternsStep input tile_size pattern_size) ⟨[], 0, fun _ => 65535⟩

/-- The constraint pass: for each pattern point and each offset of the
group, record the adjacent pattern pair (toroidal read of the pattern
lattice); `add_compatible_patterns` inserts both directions. -/
def constraintsPass (g : OffsetGroup) (n : ℕ) (patFn : Point → ℕ)
    (plExt : Extent) : PatternConstraints :=
  plExt.pointList.foldl
    (fun C pp =>
      g.offsets.foldl
        (fun C off =>
          C.add_compatible_patterns off (patFn pp) (patFn (wrapP (pp + off) plExt.sup)))
        C)
    { rel := fun _ _ => ∅, offset_group := g, num_patterns := n }

/-- The weight pass: occurrences of each pattern id. -/
def weightsPass (patFn : Point → ℕ) (plExt : Extent) : ℕ → ℕ :=
  fun p => plExt.pointList.countP (fun pp => patFn pp == p)

/-- `process_patterns_in_lattice`: index the patterns (`Except.error`
models the too-many-patterns panic), then build weights and constraints.
(The trailing `assert_valid` panic only logs an invariant; failing it is
unreachable for toroidal inputs and is not modelled.) -/
def process_patterns_in_lattice [DecidableEq T] (input : LatGrid T)
    (tile_size shape_size : Point) (g : OffsetGroup) :
    Except Unit (PatternGroup × IndexState T) :=
  let pattern_size := shape_size * tile_size
  let plExt : Extent := ⟨Point.divCeil input.ext.sup tile_size⟩
  match indexPatterns input tile_size pattern_size plExt.pointList with
  | .error e => .error e
  | .ok st =>
      .ok ({ weights := weightsPass st.pattern_lattice plExt,
             constraints := constraintsPass g st.num_patterns st.pattern_lattice plExt }, st)

/-- The end-to-end pipeline of `cli.rs`: extract patterns from the input,
then run the generator loop; `none` models any panic, a run cut short by
fuel, or extraction failure. -/
def wfcRun [DecidableEq T] (input : LatGrid T) (tile_size shape_size : Point)
    (g : OffsetGroup) (output_size : Point) (stream : ℕ → ℚ) (l2 : ℚ → ℚ)
    (steps fuel : ℕ) : Option (ℕ × Gn.UpdateResult × Gn.Generator) :=
  match process_patterns_in_lattice input tile_size shape_size g with
  | .error _ => none
  | .ok Gs =>
      Gn.runLoop l2 Gs.1 steps fuel (Gn.Generator.new stream l2 Gs.1 output_size)

/-- The observable outcome of a finished run: the step count, the terminal
status, and the output grid serialized in iteration order. -/
def observableOut : Option (ℕ × Gn.UpdateResult × Gn.Generator) →
    Option (ℕ × Gn.UpdateResult × Option (List ℕ))
  | none => none
  | some (k, r, g) =>
      some (k, r, (Gn.Generator.result g).map (fun L => L.ext.pointList.map L.f))

/-- A one-cell constant input grid, used for concrete evaluations. -/
def unitInput : LatGrid ℕ := ⟨⟨⟨1, 1, 1⟩⟩, fun _ => 0⟩

/-- The all-ones point. -/
def onesPt : Point := ⟨1, 1, 1⟩

/-- Symmetry of a compatibility relation: `q ∈ C[p][o]` iff
`p ∈ C[q][opposite(o)]`, for every offset id of the group. -/
def PatternConstraints.SymRel (C : PatternConstraints) : Prop :=
  ∀ a b j, j < C.offset_group.num_offsets →
    (b ∈ C.rel a j ↔ a ∈ C.rel b (C.offset_group.opposite j))

/-- The extraction result on the one-cell input (total by construction:
extraction succeeds there), used by concrete evaluations. -/
def processedUnit : PatternGroup × IndexState ℕ :=
  match process_patterns_in_lattice unitInput onesPt onesPt ⟨edge_2d_offsets⟩ with
  | .ok Gs => Gs
  | .error _ => (⟨fun _ => 0, PatternConstraints.new ⟨[]⟩⟩, ⟨[], 0, fun _ => 0⟩)

namespace Wv

/-- Structural invariant of reachable `wave.rs` waves: the extents are the
output extent; the removal stack is a sublist of the (duplicate-free) push
history; every pushed pair is the encoding of an in-extent cell with an
in-range pattern that is no longer possible there; and every slot's size
counter equals its bitset cardinality with all bits in range. -/
def WInvA (C : PatternConstraints) (output_size : Point) (w : Wave) : Prop :=
  w.slots.ext = ⟨output_size⟩ ∧
  w.removal_stack.Sublist w.pushLog ∧
  w.pushLog.Nodup ∧
  (∀ e ∈ w.pushLog, ∃ c, (⟨output_size⟩ : Extent).contains c = true ∧
    e.1 = (⟨output_size⟩ : Extent).encode c ∧ e.2 ∉ (w.slots.f c).bits ∧
    e.2 < C.num_patterns) ∧
  (∀ c, (⟨output_size⟩ : Extent).contains c = true →
    (w.slots.f c).size = (w.slots.f c).bits.card ∧
    (w.slots.f c).bits ⊆ Finset.range C.num_patterns)

/-- Support invariant: a pattern no longer possible at a cell has only
non-positive support counters there (its row was zeroed on removal and
later decrements stay below zero, so it can never trigger again). -/
def WInvK (output_size : Point) (w : Wave) : Prop :=
  ∀ c, (⟨output_size⟩ : Extent).contains c = true →
    ∀ p, p ∉ (w.slots.f c).bits → ∀ o, w.pattern_supports.f c p o ≤ 0

/-- Counter invariant of C5: `collapsed_count` equals the number of cells
whose possible set has size at most one. -/
def CInv (w : Wave) : Prop :=
  w.collapsed_count = countCollapsed w

end Wv

/-- A trivial log2 interpretation, for concrete evaluations. -/
def l2triv : ℚ → ℚ := fun _ => 0

/-- Unit weights, for concrete evaluations. -/
def wOne : ℕ → ℕ := fun _ => 1

/-- A one-pattern constraint set with no offsets. -/
def cOne : PatternConstraints :=
  { rel := fun _ _ => ∅, offset_group := ⟨[]⟩, num_patterns := 1 }

/-- A two-pattern constraint set with no offsets. -/
def cTwo : PatternConstraints :=
  { rel := fun _ _ => ∅, offset_group := ⟨[]⟩, num_patterns := 2 }

namespace Gn

/-- Structural invariant of the `generate.rs` wave: both lattices live on
the output extent; every cell is non-empty, in pattern range, with an
entropy cache equal to the recomputed `slot_entropy` of its possible set;
and `remaining_pattern_count` is the sum of all cell cardinalities. -/
def GInv (l2 : ℚ → ℚ) (G : PatternGroup) (output_size : Point) (w : Wave) : Prop :=
  w.slots.ext = ⟨output_size⟩ ∧
  w.entropy_cache.ext = ⟨output_size⟩ ∧
  (∀ c, (⟨output_size⟩ : Extent).contains c = true →
    (w.slots.f c).Nonempty ∧ w.slots.f c ⊆ Finset.range G.num_patterns ∧
    w.entropy_cache.f c = slot_entropy l2 G.weights (w.slots.f c)) ∧
  w.remaining_pattern_count =
    ((⟨output_size⟩ : Extent).pointList.map (fun c => (w.slots.f c).card)).sum

/-- Arc consistency of one directed edge: every possible pattern at the
neighbor `u + offset(k)` has a compatible supporting pattern at `u`. -/
def EdgeOK (G : PatternGroup) (w : Wave) (u : Point) (k : ℕ) : Prop :=
  ∀ q ∈ w.slots.f (u + G.constraints.offset_group.offsetAt k),
    ∃ p ∈ w.slots.f u, G.compatible k p q = true

/-- AC-3 style worklist invariant of the propagation loop: every in-extent
directed edge is arc consistent unless its source slot is still queued. -/
def ACI (G : PatternGroup) (output_size : Point) (w : Wave) (wl : List Point) : Prop :=
  ∀ u, (⟨output_size⟩ : Extent).contains u = true →
    ∀ k, k < G.constraints.offset_group.num_offsets →
      (⟨output_size⟩ : Extent).contains (u + G.constraints.offset_group.offsetAt k) = true →
      u ∈ wl ∨ EdgeOK G w u k

/-- Full arc consistency: the worklist invariant with an empty worklist. -/
def AC (G : PatternGroup) (output_size : Point) (w : Wave) : Prop :=
  ACI G output_size w []

/-- Pointwise shrinking of the possible-pattern sets. -/
def shrinks (w w' : Wave) : Prop := ∀ c, w'.slots.f c ⊆ w.slots.f c

end Gn

/-- A two-pattern group with unit weights and no offsets. -/
def gTwo : PatternGroup := ⟨wOne, cTwo⟩

/-- The completed one-cell end-to-end run, for concrete evaluations. -/
def unitRun : ℕ × Gn.UpdateResult × Gn.Generator :=
  (wfcRun unitInput onesPt onesPt ⟨edge_2d_offsets⟩ onesPt (fun _ => 0) l2triv 1 2).getD
    (0, .Failure, Gn.Generator.new (fun _ => 0) l2triv processedUnit.1 onesPt)

/-- A completed one-cell generator run over the two-pattern group. -/
def gTwoRun : ℕ × Gn.UpdateResult × Gn.Generator :=
  (Gn.runLoop l2triv gTwo 1 2 (Gn.Generator.new (fun _ => 0) l2triv gTwo onesPt)).getD
    (0, .Failure, Gn.Generator.new (fun _ => 0) l2triv gTwo onesPt)

/-! ## Theorems -/

theorem Point.add_def (p q : Point) : p + q = ⟨p.x + q.x, p.y + q.y, p.z + q.z⟩ := rfl

theorem Point.neg_def (p : Point) : -p = ⟨-p.x, -p.y, -p.z⟩ := rfl

theorem Extent.contains_iff (e : Extent) (p : Point) :
    e.contains p = true ↔
      0 ≤ p.x ∧ p.x < e.sup.x ∧ 0 ≤ p.y ∧ p.y < e.sup.y ∧ 0 ≤ p.z ∧ p.z < e.sup.z := by
  simp [Extent.contains, and_assoc]

theorem Nat.divmod_pack (a b v : Nat) (ha : a < b) :
    (v * b + a) % b = a ∧ (v * b + a) / b = v := by
  constructor
  · rw [Nat.mul_comm, Nat.mul_add_mod]
    exact Nat.mod_eq_of_lt ha
  · rw [Nat.mul_comm, Nat.mul_add_div (by omega), Nat.div_eq_of_lt ha, Nat.add_zero]

theorem Extent.decode_contains (e : Extent) (i : Nat) (hi : i < e.volume) :
    e.contains (e.decode i) = true := by
  rw [Extent.volume] at hi
  have hx : 0 < e.sup.x.toNat := by
    rcases Nat.eq_zero_or_pos e.sup.x.toNat with h | h
    · rw [h, Nat.zero_mul, Nat.zero_mul] at hi
      omega
    · exact h
  have hz : 0 < e.sup.z.toNat := by
    rcases Nat.eq_zero_or_pos e.sup.z.toNat with h | h
    · rw [h, Nat.mul_zero, Nat.zero_mul] at hi
      omega
    · exact h
  have hy : i / e.sup.x.toNat / e.sup.z.toNat < e.sup.y.toNat := by
    rw [Nat.div_div_eq_div_mul]
    exact Nat.div_lt_of_lt_mul hi
  rw [Extent.contains_iff]
  simp only [Extent.decode]
  have m1 : i % e.sup.x.toNat < e.sup.x.toNat := Nat.mod_lt i hx
  have m2 : i / e.sup.x.toNat % e.sup.z.toNat < e.sup.z.toNat := Nat.mod_lt _ hz
  have hy1 : 0 < e.sup.y.toNat := lt_of_le_of_lt (Nat.zero_le _) hy
  have hsx : e.sup.x = (e.sup.x.toNat : Int) := by omega
  have hsy : e.sup.y = (e.sup.y.toNat : Int) := by omega
  have hsz : e.sup.z = (e.sup.z.toNat : Int) := by omega
  refine ⟨Int.ofNat_nonneg _, ?_, Int.ofNat_nonneg _, ?_, Int.ofNat_nonneg _, ?_⟩
  · rw [hsx]
    exact_mod_cast m1
  · rw [hsy]
    exact_mod_cast hy
  · rw [hsz]
    exact_mod_cast m2

theorem Extent.encode_decode (e : Extent) (i : Nat) (hi : i < e.volume) :
    e.encode (e.decode i) = i := by
  rw [Extent.volume] at hi
  have hx : 0 < e.sup.x.toNat := by
    rcases Nat.eq_zero_or_pos e.sup.x.toNat with h | h
    · rw [h, Nat.zero_mul, Nat.zero_mul] at hi
      omega
    · exact h
  have hz : 0 < e.sup.z.toNat := by
    rcases Nat.eq_zero_or_pos e.sup.z.toNat with h | h
    · rw [h, Nat.mul_zero, Nat.zero_mul] at hi
      omega
    · exact h
  rw [Extent.encode, Extent.decode]
  simp only
  set nx := e.sup.x.toNat with hnx
  set nz := e.sup.z.toNat with hnz
  have hsx : e.sup.x = (nx : Int) := by omega
  have hsz : e.sup.z = (nz : Int) := by omega
  rw [hsx, hsz]
  have hpack : (((i / nx / nz : Nat) : Int) * (nz : Int) + ((i / nx % nz : Nat) : Int))
      * (nx : Int) + ((i % nx : Nat) : Int)
      = (((i / nx / nz * nz + i / nx % nz) * nx + i % nx : Nat) : Int) := by
    push_cast
    ring
  rw [hpack, Int.toNat_ofNat]
  have h1 : i / nx / nz * nz + i / nx % nz = i / nx := by
    have h := Nat.div_add_mod (i / nx) nz
    rw [Nat.mul_comm] at h
    exact h
  rw [h1]
  have h2 := Nat.div_add_mod i nx
  rw [Nat.mul_comm] at h2
  exact h2

theorem Extent.encode_lt (e : Extent) (p : Point) (hp : e.contains p = true) :
    e.encode p < e.volume := by
  rw [Extent.contains_iff] at hp
  obtain ⟨hx0, hx1, hy0, hy1, hz0, hz1⟩ := hp
  rw [Extent.encode, Extent.volume]
  set nx := e.sup.x.toNat with hnx
  set nz := e.sup.z.toNat with hnz
  set ny := e.sup.y.toNat with hny
  have hsx : e.sup.x = (nx : Int) := by omega
  have hsz : e.sup.z = (nz : Int) := by omega
  have epk : (p.y * e.sup.z + p.z) * e.sup.x + p.x
      = (((p.y.toNat * nz + p.z.toNat) * nx + p.x.toNat : Nat) : Int) := by
    push_cast
    rw [hsx, hsz]
    have ex : ((p.x.toNat : Nat) : Int) = p.x := by omega
    have ey : ((p.y.toNat : Nat) : Int) = p.y := by omega
    have ez : ((p.z.toNat : Nat) : Int) = p.z := by omega
    rw [ex, ey, ez]
  rw [epk, Int.toNat_ofNat]
  have hyl : p.y.toNat < ny := by omega
  have hzl : p.z.toNat < nz := by omega
  have hxl : p.x.toNat < nx := by omega
  have s1 : p.y.toNat * nz + p.z.toNat < ny * nz := by
    have a1 : p.y.toNat * nz + p.z.toNat < (p.y.toNat + 1) * nz := by
      have : (p.y.toNat + 1) * nz = p.y.toNat * nz + nz := by ring
      omega
    have a2 : (p.y.toNat + 1) * nz ≤ ny * nz := Nat.mul_le_mul_right nz hyl
    omega
  have s2 : (p.y.toNat * nz + p.z.toNat) * nx + p.x.toNat < (ny * nz) * nx := by
    have a1 : (p.y.toNat * nz + p.z.toNat) * nx + p.x.toNat
        < (p.y.toNat * nz + p.z.toNat + 1) * nx := by
      have : (p.y.toNat * nz + p.z.toNat + 1) * nx = (p.y.toNat * nz + p.z.toNat) * nx + nx := by
        ring
      omega
    have a2 : (p.y.toNat * nz + p.z.toNat + 1) * nx ≤ (ny * nz) * nx :=
      Nat.mul_le_mul_right nx s1
    omega
  have : (ny * nz) * nx = nx * nz * ny := by ring
  omega

theorem Extent.decode_encode (e : Extent) (p : Point) (hp : e.contains p = true) :
    e.decode (e.encode p) = p := by
  rw [Extent.contains_iff] at hp
  obtain ⟨hx0, hx1, hy0, hy1, hz0, hz1⟩ := hp
  set nx := e.sup.x.toNat with hnx
  set nz := e.sup.z.toNat with hnz
  have hsx : e.sup.x = (nx : Int) := by omega
  have hsz : e.sup.z = (nz : Int) := by omega
  have hkey : e.encode p = (p.y.toNat * nz + p.z.toNat) * nx + p.x.toNat := by
    rw [Extent.encode]
    have : (p.y * e.sup.z + p.z) * e.sup.x + p.x
        = (((p.y.toNat * nz + p.z.toNat) * nx + p.x.toNat : Nat) : Int) := by
      push_cast
      rw [hsx, hsz]
      have ex : ((p.x.toNat : Nat) : Int) = p.x := by omega
      have ey : ((p.y.toNat : Nat) : Int) = p.y := by omega
      have ez : ((p.z.toNat : Nat) : Int) = p.z := by omega
      rw [ex, ey, ez]
    rw [this, Int.toNat_ofNat]
  rw [hkey, Extent.decode]
  have hxl : p.x.toNat < nx := by omega
  have hzl : p.z.toNat < nz := by omega
  obtain ⟨h1, h2⟩ := Nat.divmod_pack p.x.toNat nx (p.y.toNat * nz + p.z.toNat) hxl
  obtain ⟨h3, h4⟩ := Nat.divmod_pack p.z.toNat nz p.y.toNat hzl
  rw [← hnx, ← hnz, h1, h2, h3, h4]
  have ex : ((p.x.toNat : Nat) : Int) = p.x := by omega
  have ey : ((p.y.toNat : Nat) : Int) = p.y := by omega
  have ez : ((p.z.toNat : Nat) : Int) = p.z := by omega
  cases p
  simp only at ex ey ez ⊢
  rw [ex, ey, ez]

theorem Extent.mem_pointList (e : Extent) (p : Point) :
    p ∈ e.pointList ↔ e.contains p = true := by
  constructor
  · intro hp
    rw [Extent.pointList, List.mem_map] at hp
    obtain ⟨i, hi, rfl⟩ := hp
    exact e.decode_contains i (List.mem_range.mp hi)
  · intro hp
    rw [Extent.pointList, List.mem_map]
    exact ⟨e.encode p, List.mem_range.mpr (e.encode_lt p hp), e.decode_encode p hp⟩

theorem Extent.pointList_nodup (e : Extent) : e.pointList.Nodup := by
  apply List.Nodup.map_on _ (List.nodup_range _)
  intro i hi j hj hij
  have := e.encode_decode i (List.mem_range.mp hi)
  have := e.encode_decode j (List.mem_range.mp hj)
  rw [← this, ← ‹e.encode (e.decode i) = i›, hij]

theorem Extent.length_pointList (e : Extent) : e.pointList.length = e.volume := by
  rw [Extent.pointList, List.length_map, List.length_range]

theorem updFn_same (f : Point → T) (p : Point) (v : T) : updFn f p v p = v := by
  simp [updFn]

theorem updFn_other (f : Point → T) (p q : Point) (v : T) (h : q ≠ p) :
    updFn f p v q = f q := by
  simp [updFn, h]

theorem weightedChoice_lt (ws : List ℕ) (x : ℚ) (h : ws ≠ []) :
    weightedChoice ws x < ws.length := by
  induction ws generalizing x with
  | nil => exact absurd rfl h
  | cons w rest ih =>
    rw [weightedChoice]
    by_cases hr : rest = []
    · simp [hr]
    · by_cases hx : x < (w : ℚ)
      · simp [hr, hx]
      · simp only [hr, hx, if_false, List.length_cons]
        have := ih (x - w) hr
        omega

theorem mem_ascList (S : Finset ℕ) (q : ℕ) : q ∈ ascList S ↔ q ∈ S := by
  rw [ascList, List.mem_filter]
  constructor
  · intro h
    exact of_decide_eq_true h.2
  · intro h
    refine ⟨List.mem_range.mpr ?_, decide_eq_true h⟩
    have : q ≤ S.sup id := @Finset.le_sup ℕ ℕ _ _ S id q h
    omega

theorem ascList_nodup (S : Finset ℕ) : (ascList S).Nodup :=
  (List.nodup_range _).filter _

theorem ascList_perm (S : Finset ℕ) : List.Perm (ascList S) S.toList := by
  apply List.perm_of_nodup_nodup_toFinset_eq (ascList_nodup S) S.nodup_toList
  ext q
  rw [List.mem_toFinset, List.mem_toFinset, mem_ascList, Finset.mem_toList]

theorem ascList_length (S : Finset ℕ) : (ascList S).length = S.card := by
  rw [(ascList_perm S).length_eq, Finset.length_toList]

theorem ascList_singleton (a : ℕ) : ascList {a} = [a] := by
  rw [← List.perm_singleton]
  have := ascList_perm {a}
  rw [Finset.toList_singleton] at this
  exact this

theorem ascList_map_sum (S : Finset ℕ) (f : ℕ → ℚ) :
    ((ascList S).map f).sum = S.sum f := by
  rw [List.Perm.sum_eq ((ascList_perm S).map f), ← Finset.sum_to_list]

/-- C10: `PatternSet::remove` decrements the `u16` size counter by exactly
one regardless of membership (for any in-range non-zero counter); the
counter equals the bitset cardinality only while removals hit members
(a member removal preserves the equality, a non-member removal breaks
it); and a removal at counter zero wraps the `u16` to 65535 (the
underflow that panics in debug builds). -/
theorem c10_pattern_set_remove :
    (∀ (s : PatternSet) (p : ℕ), 1 ≤ s.size → s.size < 65536 →
      (s.remove p).size = s.size - 1) ∧
    (∀ (s : PatternSet) (p : ℕ), s.size = s.bits.card → s.size < 65536 → p ∈ s.bits →
      (s.remove p).size = (s.remove p).bits.card) ∧
    (∀ (s : PatternSet) (p : ℕ), s.size = s.bits.card → 1 ≤ s.size → s.size < 65536 →
      p ∉ s.bits → (s.remove p).size ≠ (s.remove p).bits.card) ∧
    (∀ (s : PatternSet) (p : ℕ), s.size = 0 → (s.remove p).size = 65535) := by
  refine ⟨?_, ?_, ?_, ?_⟩
  · intro s p h1 h2
    show (if s.size = 0 then 65535 else s.size - 1) = s.size - 1
    rw [if_neg (by omega)]
  · intro s p hc hlt hm
    show (if s.size = 0 then 65535 else s.size - 1) = (s.bits.erase p).card
    rw [Finset.card_erase_of_mem hm]
    have h1 : 1 ≤ s.size := by
      rw [hc]
      exact Finset.card_pos.mpr ⟨p, hm⟩
    rw [if_neg (by omega)]
    omega
  · intro s p hc h1 hlt hm
    show (if s.size = 0 then 65535 else s.size - 1) ≠ (s.bits.erase p).card
    rw [Finset.erase_eq_of_not_mem hm, if_neg (by omega)]
    omega
  · intro s p h0
    show (if s.size = 0 then 65535 else s.size - 1) = 65535
    rw [if_pos h0]

/-- C10 witness: the four conjuncts evaluated on concrete sets. -/
theorem c10_pattern_set_remove_witness :
    ((PatternSet.all 3).remove 1).size = 2 ∧
    ((PatternSet.all 3).remove 1).size = ((PatternSet.all 3).remove 1).bits.card ∧
    ((PatternSet.mk {0, 1} 2).remove 5).size ≠ ((PatternSet.mk {0, 1} 2).remove 5).bits.card ∧
    ((PatternSet.mk ∅ 0).remove 0).size = 65535 := by
  refine ⟨?_, ?_, ?_, ?_⟩
  · exact c10_pattern_set_remove.1 (PatternSet.all 3) 1 (by decide) (by decide)
  · exact c10_pattern_set_remove.2.1 (PatternSet.all 3) 1 (by decide) (by decide) (by decide)
  · exact c10_pattern_set_remove.2.2.1 (PatternSet.mk {0, 1} 2) 5 (by decide) (by decide)
      (by decide) (by decide)
  · exact c10_pattern_set_remove.2.2.2 (PatternSet.mk ∅ 0) 0 rfl

/-- C9 counterexample: a freshly built generator (2 patterns, 2-cell
output) is not in a `Success` state (`determined` is false and no `update`
has run), yet `Generator::result` returns a grid normally instead of
panicking. -/
theorem c9_result_counterexample :
    let G : PatternGroup :=
      { weights := fun _ => 1,
        constraints :=
          { rel := fun _ _ => Finset.range 2,
            offset_group := ⟨edge_2d_offsets⟩,
            num_patterns := 2 } }
    let g := Gn.Generator.new (fun _ => 0) (fun _ => 0) G ⟨2, 1, 1⟩
    (Gn.Generator.result g).isSome = true ∧ g.wave.determined = false := by
  constructor
  · rfl
  · rfl

/-- C9 amended: `result()` before `Success` is documented as undefined
behavior rather than an assertion: it panics exactly when some slot has an
empty possible set, and whenever every slot is non-empty (in particular in
fresh, non-`Success` states) it returns the grid of each slot's first
remaining pattern normally. -/
theorem c9_result_amended (g : Gn.Generator) :
    (Gn.Generator.result g).isSome = true ↔
      ∀ p ∈ g.wave.slots.ext.pointList, (g.wave.slots.f p).Nonempty := by
  rw [Gn.Generator.result]
  by_cases h : g.wave.slots.ext.pointList.all (fun p => decide (g.wave.slots.f p).Nonempty) = true
  · rw [if_pos h]
    simp only [Option.isSome_some, true_iff]
    intro p hp
    simpa using List.all_eq_true.mp h p hp
  · rw [if_neg h]
    simp only [Option.isSome_none, Bool.false_eq_true, false_iff]
    intro hall
    exact h (List.all_eq_true.mpr fun p hp => by simpa using hall p hp)

/-- C7: immediately after `Wave::new` (`wave.rs`), the support counter of
every cell, at every in-range pattern and offset id, equals
`num_compatible(p, opposite(o))`. -/
theorem c7_initial_support (l2 : ℚ → ℚ) (weights : ℕ → ℕ) (C : PatternConstraints)
    (output_size : Point) (c : Point) (p o : ℕ)
    (hp : p < C.num_patterns) (ho : o < C.offset_group.num_offsets) :
    (Wv.Wave.new l2 weights C output_size).pattern_supports.f c p o
      = (C.num_compatible p (C.offset_group.opposite o) : ℤ) := by
  show C.get_initial_support p o = _
  rw [PatternConstraints.get_initial_support, if_pos ⟨hp, ho⟩]

/-- C7 witness: a concrete two-pattern constraint set over the 2D edge
group, checked at cell `(0,0,0)`, pattern 1, offset id 2. -/
theorem c7_initial_support_witness :
    (Wv.Wave.new (fun _ => 0) (fun _ => 1)
        { rel := fun p _ => {p}, offset_group := ⟨edge_2d_offsets⟩, num_patterns := 2 }
        ⟨2, 2, 1⟩).pattern_supports.f ⟨0, 0, 0⟩ 1 2
      = (PatternConstraints.num_compatible
          { rel := fun p _ => {p}, offset_group := ⟨edge_2d_offsets⟩, num_patterns := 2 }
          1 (OffsetGroup.opposite ⟨edge_2d_offsets⟩ 2) : ℤ) :=
  c7_initial_support (fun _ => 0) (fun _ => 1)
    { rel := fun p _ => {p}, offset_group := ⟨edge_2d_offsets⟩, num_patterns := 2 }
    ⟨2, 2, 1⟩ ⟨0, 0, 0⟩ 1 2 (by decide) (by decide)

theorem indexPatterns_fold [DecidableEq T] (input : LatGrid T) (ts ps : Point)
    (pts : List Point) (st : IndexState T)
    (hn : st.num_patterns ≤ 32767)
    (hkeys : (st.assoc.map Prod.fst).Nodup)
    (hids : st.assoc.map Prod.snd = List.range st.num_patterns) :
    (32767 < st.num_patterns + (((pts.map (tileAt input ts ps)).toFinset)
        \ (st.assoc.map Prod.fst).toFinset).card →
      pts.foldlM (indexPatternsStep input ts ps) st = .error ()) ∧
    (st.num_patterns + (((pts.map (tileAt input ts ps)).toFinset)
        \ (st.assoc.map Prod.fst).toFinset).card ≤ 32767 →
      ∃ st', pts.foldlM (indexPatternsStep input ts ps) st = .ok st' ∧
        st'.num_patterns = st.num_patterns + (((pts.map (tileAt input ts ps)).toFinset)
          \ (st.assoc.map Prod.fst).toFinset).card ∧
        (st'.assoc.map Prod.snd = List.range st'.num_patterns) ∧
        (∀ pp ∈ pts, st'.pattern_lattice pp < st'.num_patterns) ∧
        (∀ pp, pp ∉ pts → st'.pattern_lattice pp = st.pattern_lattice pp)) := by
  induction pts generalizing st with
  | nil =>
    refine ⟨fun h => ?_, fun _ => ⟨st, rfl, ?_, hids, ?_, fun _ _ => rfl⟩⟩
    · simp at h
      omega
    · simp
    · intro pp hpp
      simp at hpp
  | cons pp rest ih =>
    have hstep : (pp :: rest).foldlM (indexPatternsStep input ts ps) st
        = (indexPatternsStep input ts ps st pp) >>= fun st1 =>
            rest.foldlM (indexPatternsStep input ts ps) st1 := by
      simp [List.foldlM_cons]
    set t := tileAt input ts ps pp with ht
    set A := (rest.map (tileAt input ts ps)).toFinset with hA
    set K := (st.assoc.map Prod.fst).toFinset with hK
    have htf : ((pp :: rest).map (tileAt input ts ps)).toFinset = insert t A := by
      simp [List.map_cons, ht, hA]
    rcases hfind : st.assoc.find? (fun e => decide (e.1 = t)) with _ | e
    · -- new tile
      have htK : t ∉ K := by
        intro hmem
        rw [hK, List.mem_toFinset, List.mem_map] at hmem
        obtain ⟨e, he, he1⟩ := hmem
        have := List.find?_eq_none.mp hfind e he
        simp [he1] at this
      have hdiff : ((insert t A) \ K).card = (A \ insert t K).card + 1 := by
        have h1 : (insert t A) \ K = insert t (A \ K) := by
          ext x
          simp only [Finset.mem_sdiff, Finset.mem_insert]
          constructor
          · rintro ⟨hx | hx, hk⟩
            · exact Or.inl hx
            · exact Or.inr ⟨hx, hk⟩
          · rintro (rfl | ⟨hx, hk⟩)
            · exact ⟨Or.inl rfl, htK⟩
            · exact ⟨Or.inr hx, hk⟩
        have h2 : A \ insert t K = (A \ K).erase t := Finset.sdiff_insert A K t
        rw [h1, h2]
        by_cases hmem : t ∈ A \ K
        · rw [Finset.insert_eq_self.mpr hmem, Finset.card_erase_of_mem hmem]
          have := Finset.card_pos.mpr ⟨t, hmem⟩
          omega
        · rw [Finset.card_insert_of_not_mem hmem, Finset.erase_eq_of_not_mem hmem]
      by_cases hover : st.num_patterns + 1 > 32767
      · -- panic branch
        have hstepval : indexPatternsStep input ts ps st pp = .error () := by
          simp only [indexPatternsStep]
          rw [← ht, hfind]
          simp [hover]
        refine ⟨fun _ => ?_, fun hle => ?_⟩
        · rw [hstep, hstepval]
          rfl
        · exfalso
          rw [htf, hdiff] at hle
          omega
      · -- fresh id assigned
        push_neg at hover
        have hcond : ¬ (st.num_patterns + 1 > 32767) := by omega
        have hstepval : indexPatternsStep input ts ps st pp
            = .ok { assoc := st.assoc ++ [(t, st.num_patterns)],
                    num_patterns := st.num_patterns + 1,
                    pattern_lattice := updFn st.pattern_lattice pp st.num_patterns } := by
          simp only [indexPatternsStep]
          rw [← ht, hfind]
          simp [hcond]
        set st1 : IndexState T :=
          { assoc := st.assoc ++ [(t, st.num_patterns)],
            num_patterns := st.num_patterns + 1,
            pattern_lattice := updFn st.pattern_lattice pp st.num_patterns } with hst1
        have hn1 : st1.num_patterns = st.num_patterns + 1 := rfl
        have hkeys1 : (st1.assoc.map Prod.fst).Nodup := by
          show ((st.assoc ++ [(t, st.num_patterns)]).map Prod.fst).Nodup
          rw [List.map_append]
          rw [List.nodup_append]
          refine ⟨hkeys, List.nodup_singleton _, ?_⟩
          intro a ha hb
          rw [List.map_cons, List.map_nil, List.mem_singleton] at hb
          subst hb
          exact htK (by rw [hK, List.mem_toFinset]; exact ha)
        have hids1 : st1.assoc.map Prod.snd = List.range st1.num_patterns := by
          show (st.assoc ++ [(t, st.num_patterns)]).map Prod.snd = List.range (st.num_patterns + 1)
          rw [List.map_append, hids, List.range_succ]
          rfl
        have hK1 : (st1.assoc.map Prod.fst).toFinset = insert t K := by
          show ((st.assoc ++ [(t, st.num_patterns)]).map Prod.fst).toFinset = insert t K
          rw [List.map_append, List.toFinset_append, hK]
          ext x
          simp [or_comm]
        obtain ⟨ihErr, ihOk⟩ := ih st1 (by omega) hkeys1 hids1
        rw [hK1, hn1] at ihErr ihOk
        refine ⟨fun hgt => ?_, fun hle => ?_⟩
        · rw [hstep, hstepval]
          show rest.foldlM (indexPatternsStep input ts ps) st1 = .error ()
          apply ihErr
          rw [htf, hdiff] at hgt
          omega
        · rw [htf, hdiff] at hle
          obtain ⟨st', hfold, hcount, hids', hlt', huntouched⟩ := ihOk (by omega)
          refine ⟨st', ?_, ?_, hids', ?_, ?_⟩
          · rw [hstep, hstepval]
            exact hfold
          · rw [hcount, htf, hdiff]
            omega
          · intro q hq
            rcases List.mem_cons.mp hq with rfl | hq
            · by_cases hqr : q ∈ rest
              · exact hlt' q hqr
              · rw [huntouched q hqr]
                show updFn st.pattern_lattice q st.num_patterns q < st'.num_patterns
                rw [updFn_same]
                omega
            · exact hlt' q hq
          · intro q hq
            have hq1 : q ∉ rest := fun h => hq (List.mem_cons_of_mem _ h)
            have hq2 : q ≠ pp := fun h => hq (h ▸ List.mem_cons_self _ _)
            rw [huntouched q hq1]
            show updFn st.pattern_lattice pp st.num_patterns q = st.pattern_lattice q
            rw [updFn_other _ _ _ _ hq2]
    · -- existing tile
      have hpred := List.find?_some hfind
      have hmem := List.mem_of_find?_eq_some hfind
      have he1 : e.1 = t := by simpa using hpred
      have htK : t ∈ K := by
        rw [hK, List.mem_toFinset, List.mem_map]
        exact ⟨e, hmem, he1⟩
      have hdiff : (insert t A) \ K = A \ K := by
        ext x
        simp only [Finset.mem_sdiff, Finset.mem_insert]
        constructor
        · rintro ⟨rfl | hx, hk⟩
          · exact absurd htK hk
          · exact ⟨hx, hk⟩
        · rintro ⟨hx, hk⟩
          exact ⟨Or.inr hx, hk⟩
      have hstepval : indexPatternsStep input ts ps st pp
          = .ok { st with pattern_lattice := updFn st.pattern_lattice pp e.2 } := by
        simp only [indexPatternsStep]
        rw [← ht, hfind]
      set st1 : IndexState T := { st with pattern_lattice := updFn st.pattern_lattice pp e.2 }
        with hst1
      have he2 : e.2 < st.num_patterns := by
        have : e.2 ∈ st.assoc.map Prod.snd := List.mem_map.mpr ⟨e, hmem, rfl⟩
        rw [hids, List.mem_range] at this
        exact this
      obtain ⟨ihErr, ihOk⟩ := ih st1 hn hkeys hids
      have hKsame : ((st1.assoc.map Prod.fst).toFinset : Finset (List T)) = K := rfl
      have hnsame : st1.num_patterns = st.num_patterns := rfl
      rw [hKsame, hnsame] at ihErr ihOk
      refine ⟨fun hgt => ?_, fun hle => ?_⟩
      · rw [hstep, hstepval]
        show rest.foldlM (indexPatternsStep input ts ps) st1 = .error ()
        apply ihErr
        rw [htf, hdiff] at hgt
        exact hgt
      · rw [htf, hdiff] at hle
        obtain ⟨st', hfold, hcount, hids', hlt', huntouched⟩ := ihOk hle
        refine ⟨st', ?_, ?_, hids', ?_, ?_⟩
        · rw [hstep, hstepval]
          exact hfold
        · rw [hcount, htf, hdiff]
        · intro q hq
          rcases List.mem_cons.mp hq with rfl | hq
          · by_cases hqr : q ∈ rest
            · exact hlt' q hqr
            · rw [huntouched q hqr]
              show updFn st.pattern_lattice q e.2 q < st'.num_patterns
              rw [updFn_same]
              omega
          · exact hlt' q hq
        · intro q hq
          have hq1 : q ∉ rest := fun h => hq (List.mem_cons_of_mem _ h)
          have hq2 : q ≠ pp := fun h => hq (h ▸ List.mem_cons_self _ _)
          rw [huntouched q hq1]
          show updFn st.pattern_lattice pp e.2 q = st.pattern_lattice q
          rw [updFn_other _ _ _ _ hq2]

theorem foldl_preserves_projs {α : Type} (step : PatternConstraints → α → PatternConstraints)
    (hstep : ∀ C off, (step C off).num_patterns = C.num_patterns ∧
      (step C off).offset_group = C.offset_group) :
    ∀ (l : List α) (C : PatternConstraints),
      (l.foldl step C).num_patterns = C.num_patterns ∧
      (l.foldl step C).offset_group = C.offset_group := by
  intro l
  induction l with
  | nil => intro C; exact ⟨rfl, rfl⟩
  | cons a rest ih =>
    intro C
    obtain ⟨h1, h2⟩ := ih (step C a)
    obtain ⟨h3, h4⟩ := hstep C a
    exact ⟨by rw [List.foldl_cons, h1, h3], by rw [List.foldl_cons, h2, h4]⟩

theorem add_compatible_projs (C : PatternConstraints) (off : Point) (p q : ℕ) :
    (C.add_compatible_patterns off p q).num_patterns = C.num_patterns ∧
    (C.add_compatible_patterns off p q).offset_group = C.offset_group :=
  ⟨rfl, rfl⟩

theorem constraintsPass_projs (g : OffsetGroup) (n : ℕ) (patFn : Point → ℕ) (e : Extent) :
    (constraintsPass g n patFn e).num_patterns = n ∧
    (constraintsPass g n patFn e).offset_group = g := by
  rw [constraintsPass]
  have h := foldl_preserves_projs
    (fun C pp => g.offsets.foldl
      (fun C off => C.add_compatible_patterns off (patFn pp) (patFn (wrapP (pp + off) e.sup))) C)
    (fun C pp => foldl_preserves_projs _ (fun C off => add_compatible_projs C off _ _) g.offsets C)
    e.pointList
    { rel := fun _ _ => ∅, offset_group := g, num_patterns := n }
  exact h

/-- C8: if pattern extraction discovers more than `MAX_PATTERNS = 32767`
distinct patterns, `process_patterns_in_lattice` aborts with the
"Too many patterns" panic; otherwise it succeeds and every assigned
`PatternId` is a dense index below `numPatterns ≤ 32767` (so it fits a
signed 16-bit support counter). -/
theorem c8_max_patterns {T : Type} [DecidableEq T] (input : LatGrid T)
    (tile_size shape_size : Point) (g : OffsetGroup) :
    (32767 < (((Extent.mk (Point.divCeil input.ext.sup tile_size)).pointList.map
          (tileAt input tile_size (shape_size * tile_size))).toFinset).card →
      process_patterns_in_lattice input tile_size shape_size g = .error ()) ∧
    ((((Extent.mk (Point.divCeil input.ext.sup tile_size)).pointList.map
          (tileAt input tile_size (shape_size * tile_size))).toFinset).card ≤ 32767 →
      ∃ G st, process_patterns_in_lattice input tile_size shape_size g = .ok (G, st) ∧
        st.num_patterns = (((Extent.mk (Point.divCeil input.ext.sup tile_size)).pointList.map
          (tileAt input tile_size (shape_size * tile_size))).toFinset).card ∧
        G.constraints.num_patterns = st.num_patterns ∧
        st.num_patterns ≤ 32767 ∧
        (st.assoc.map Prod.snd = List.range st.num_patterns) ∧
        ∀ pp ∈ (Extent.mk (Point.divCeil input.ext.sup tile_size)).pointList,
          st.pattern_lattice pp < st.num_patterns) := by
  obtain ⟨hErr, hOk⟩ := indexPatterns_fold input tile_size (shape_size * tile_size)
    (Extent.mk (Point.divCeil input.ext.sup tile_size)).pointList
    ⟨[], 0, fun _ => 65535⟩ (Nat.zero_le _) (by simp) (by simp)
  simp only [List.map_nil, List.toFinset_nil, Finset.sdiff_empty, Nat.zero_add] at hErr hOk
  constructor
  · intro hgt
    rw [process_patterns_in_lattice]
    simp only [indexPatterns]
    rw [hErr hgt]
  · intro hle
    obtain ⟨st', hfold, hcount, hids, hlt, _⟩ := hOk hle
    have hproc : process_patterns_in_lattice input tile_size shape_size g
        = .ok ({ weights := weightsPass st'.pattern_lattice
                   (Extent.mk (Point.divCeil input.ext.sup tile_size)),
                 constraints := constraintsPass g st'.num_patterns st'.pattern_lattice
                   (Extent.mk (Point.divCeil input.ext.sup tile_size)) }, st') := by
      rw [process_patterns_in_lattice]
      simp only [indexPatterns]
      rw [hfold]
    exact ⟨_, st', hproc, hcount,
      (constraintsPass_projs g st'.num_patterns st'.pattern_lattice _).1,
      by omega, hids, hlt⟩

/-- C8 witness: a one-cell constant input with unit tile and pattern sizes
has one distinct pattern; extraction succeeds with `numPatterns = 1` and a
dense in-range pattern lattice. -/
theorem c8_max_patterns_witness :
    ((((Extent.mk (Point.divCeil unitInput.ext.sup onesPt)).pointList.map
        (tileAt unitInput onesPt (onesPt * onesPt))).toFinset).card ≤ 32767)
    ∧ ∃ G st, process_patterns_in_lattice unitInput onesPt onesPt ⟨edge_2d_offsets⟩
        = .ok (G, st) ∧
        st.num_patterns = (((Extent.mk (Point.divCeil unitInput.ext.sup onesPt)).pointList.map
          (tileAt unitInput onesPt (onesPt * onesPt))).toFinset).card ∧
        G.constraints.num_patterns = st.num_patterns ∧
        st.num_patterns ≤ 32767 ∧
        (st.assoc.map Prod.snd = List.range st.num_patterns) ∧
        ∀ pp ∈ (Extent.mk (Point.divCeil unitInput.ext.sup onesPt)).pointList,
          st.pattern_lattice pp < st.num_patterns := by
  constructor
  · decide
  · exact (c8_max_patterns unitInput onesPt onesPt ⟨edge_2d_offsets⟩).2 (by decide)

theorem findIdx_get_of_nodup {α : Type} [DecidableEq α] (l : List α) (hl : l.Nodup)
    (i : ℕ) (hi : i < l.length) :
    l.findIdx (fun o => decide (o = l.get ⟨i, hi⟩)) = i := by
  induction l generalizing i with
  | nil => exact absurd hi (by simp)
  | cons a rest ih =>
    cases i with
    | zero => simp [List.findIdx_cons]
    | succ j =>
      have hj : j < rest.length := by simpa using hi
      have hmem : rest.get ⟨j, hj⟩ ∈ rest := List.get_mem rest j hj
      have hne : a ≠ rest.get ⟨j, hj⟩ := by
        intro h
        exact (List.nodup_cons.mp hl).1 (h ▸ hmem)
      have hgt : (a :: rest).get ⟨j + 1, hi⟩ = rest.get ⟨j, hj⟩ := rfl
      rw [hgt, List.findIdx_cons]
      have hne' : a ≠ rest[j] := hne
      have hcond : (decide (a = rest.get ⟨j, hj⟩)) = false := by
        simp [hne']
      rw [hcond, cond_false, ih (List.nodup_cons.mp hl).2 j hj]

theorem OffsetGroup.opposite_involutive (g : OffsetGroup) (k : ℕ)
    (hk : k < g.num_offsets) : g.opposite (g.opposite k) = k := by
  rw [OffsetGroup.opposite, OffsetGroup.opposite]
  omega

theorem OffsetGroup.opposite_lt (g : OffsetGroup) (k : ℕ) (hk : k < g.num_offsets) :
    g.opposite k < g.num_offsets := by
  rw [OffsetGroup.opposite]
  omega

theorem OffsetGroup.offset_id_offsetAt (g : OffsetGroup) (hnd : g.offsets.Nodup)
    (k : ℕ) (hk : k < g.num_offsets) : g.offset_id (g.offsetAt k) = k := by
  have hget : g.offsetAt k = g.offsets.get ⟨k, hk⟩ := by
    rw [OffsetGroup.offsetAt, List.getD_eq_getElem?_getD, List.getElem?_eq_getElem hk]
    rfl
  rw [OffsetGroup.offset_id, hget]
  exact findIdx_get_of_nodup g.offsets hnd k hk

theorem OffsetGroup.mirror_offset_id (g : OffsetGroup) (hmir : g.mirrored = true)
    (hnd : g.offsets.Nodup) (k : ℕ) (hk : k < g.num_offsets) :
    g.offset_id (-(g.offsetAt k)) = g.opposite k := by
  have hmk := List.all_eq_true.mp hmir (g.num_offsets - 1 - k)
    (List.mem_range.mpr (by omega))
  have hmk' : g.offsetAt (g.num_offsets - 1 - (g.num_offsets - 1 - k))
      = -(g.offsetAt (g.num_offsets - 1 - k)) := by
    simpa using hmk
  have hkk : g.num_offsets - 1 - (g.num_offsets - 1 - k) = k := by omega
  rw [hkk] at hmk'
  have hneg : -(g.offsetAt k) = g.offsetAt (g.num_offsets - 1 - k) := by
    rw [hmk']
    cases g.offsetAt (g.num_offsets - 1 - k) with
    | mk x y z => simp [Point.neg_def]
  rw [hneg, OffsetGroup.opposite]
  exact g.offset_id_offsetAt hnd _ (by omega)

theorem OffsetGroup.offset_id_lt (g : OffsetGroup) (off : Point)
    (hoff : off ∈ g.offsets) : g.offset_id off < g.num_offsets := by
  rw [OffsetGroup.offset_id, OffsetGroup.num_offsets]
  apply List.findIdx_lt_length_of_exists
  exact ⟨off, hoff, by simp⟩

theorem OffsetGroup.offsetAt_offset_id (g : OffsetGroup) (off : Point)
    (hoff : off ∈ g.offsets) : g.offsetAt (g.offset_id off) = off := by
  have hlt : g.offset_id off < g.offsets.length := g.offset_id_lt off hoff
  have hp := @List.findIdx_getElem _ (fun o => decide (o = off)) g.offsets hlt
  have hval : g.offsets[g.offset_id off] = off := of_decide_eq_true hp
  rw [OffsetGroup.offsetAt, List.getD_eq_getElem?_getD, List.getElem?_eq_getElem hlt,
    Option.getD_some, hval]

theorem mem_add_compatible (C : PatternConstraints) (off : Point) (p q a b : ℕ) (j : ℕ) :
    b ∈ (C.add_compatible_patterns off p q).rel a j ↔
      (a = q ∧ j = C.offset_group.offset_id (-off) ∧ b = p) ∨
      (a = p ∧ j = C.offset_group.offset_id off ∧ b = q) ∨ b ∈ C.rel a j := by
  simp only [PatternConstraints.add_compatible_patterns]
  split_ifs with h1 h2 h2 <;> (try simp only [Finset.mem_insert]) <;> tauto

theorem add_compatible_symm (C : PatternConstraints) (off : Point) (p q : ℕ)
    (hmir : C.offset_group.mirrored = true) (hnd : C.offset_group.offsets.Nodup)
    (hoff : off ∈ C.offset_group.offsets) (hsym : C.SymRel) :
    (C.add_compatible_patterns off p q).SymRel := by
  have hk0 : C.offset_group.offset_id off < C.offset_group.num_offsets :=
    C.offset_group.offset_id_lt off hoff
  have hoffAt : C.offset_group.offsetAt (C.offset_group.offset_id off) = off :=
    C.offset_group.offsetAt_offset_id off hoff
  have hk0' : C.offset_group.offset_id (-off)
      = C.offset_group.opposite (C.offset_group.offset_id off) := by
    have h := C.offset_group.mirror_offset_id hmir hnd (C.offset_group.offset_id off) hk0
    rw [hoffAt] at h
    exact h
  intro a b j hj
  have hj' : j < C.offset_group.num_offsets := hj
  have hgo : (C.add_compatible_patterns off p q).offset_group = C.offset_group := rfl
  rw [hgo]
  rw [mem_add_compatible, mem_add_compatible, hk0']
  have f1 : j = C.offset_group.opposite (C.offset_group.offset_id off) ↔
      C.offset_group.opposite j = C.offset_group.offset_id off := by
    simp only [OffsetGroup.opposite]
    omega
  have f2 : j = C.offset_group.offset_id off ↔
      C.offset_group.opposite j = C.offset_group.opposite (C.offset_group.offset_id off) := by
    simp only [OffsetGroup.opposite]
    omega
  have f4 : b ∈ C.rel a j ↔ a ∈ C.rel b (C.offset_group.opposite j) := hsym a b j hj'
  constructor
  · rintro (⟨h1, h2, h3⟩ | ⟨h1, h2, h3⟩ | hmem)
    · exact Or.inr (Or.inl ⟨h3, f1.mp h2, h1⟩)
    · exact Or.inl ⟨h3, f2.mp h2, h1⟩
    · exact Or.inr (Or.inr (f4.mp hmem))
  · rintro (⟨h1, h2, h3⟩ | ⟨h1, h2, h3⟩ | hmem)
    · exact Or.inr (Or.inl ⟨h3, f2.mpr h2, h1⟩)
    · exact Or.inl ⟨h3, f1.mpr h2, h1⟩
    · exact Or.inr (Or.inr (f4.mpr hmem))

theorem foldl_acp_symm (g : OffsetGroup) (hmir : g.mirrored = true)
    (hnd : g.offsets.Nodup) (pfun qfun : Point → ℕ) :
    ∀ (offs : List Point) (C : PatternConstraints), (∀ o ∈ offs, o ∈ g.offsets) →
      C.offset_group = g → C.SymRel →
      ((offs.foldl (fun C off => C.add_compatible_patterns off (pfun off) (qfun off))
          C).offset_group = g ∧
        (offs.foldl (fun C off => C.add_compatible_patterns off (pfun off) (qfun off))
          C).SymRel) := by
  intro offs
  induction offs with
  | nil => intro C _ h1 h2; exact ⟨h1, h2⟩
  | cons off rest ih =>
    intro C hoffs h1 h2
    rw [List.foldl_cons]
    apply ih
    · intro o ho
      exact hoffs o (List.mem_cons_of_mem _ ho)
    · exact h1
    · apply add_compatible_symm
      · rw [h1]; exact hmir
      · rw [h1]; exact hnd
      · rw [h1]; exact hoffs off (List.mem_cons_self _ _)
      · exact h2

theorem constraintsPass_symmetric (g : OffsetGroup) (hmir : g.mirrored = true)
    (hnd : g.offsets.Nodup) (n : ℕ) (patFn : Point → ℕ) (e : Extent) :
    (constraintsPass g n patFn e).SymRel := by
  rw [constraintsPass]
  have main : ∀ (pts : List Point) (C : PatternConstraints),
      C.offset_group = g → C.SymRel →
      ((pts.foldl (fun C pp => g.offsets.foldl (fun C off =>
          C.add_compatible_patterns off (patFn pp) (patFn (wrapP (pp + off) e.sup))) C)
        C).offset_group = g ∧
       (pts.foldl (fun C pp => g.offsets.foldl (fun C off =>
          C.add_compatible_patterns off (patFn pp) (patFn (wrapP (pp + off) e.sup))) C)
        C).SymRel) := by
    intro pts
    induction pts with
    | nil => intro C h1 h2; exact ⟨h1, h2⟩
    | cons pp rest ih =>
      intro C h1 h2
      rw [List.foldl_cons]
      apply ih
      · exact (foldl_acp_symm g hmir hnd (fun _ => patFn pp)
          (fun off => patFn (wrapP (pp + off) e.sup)) g.offsets C (fun _ ho => ho) h1 h2).1
      · exact (foldl_acp_symm g hmir hnd (fun _ => patFn pp)
          (fun off => patFn (wrapP (pp + off) e.sup)) g.offsets C (fun _ ho => ho) h1 h2).2
  exact (main e.pointList
    { rel := fun _ _ => ∅, offset_group := g, num_patterns := n }
    rfl (fun _ _ _ _ => by simp)).2

/-- C4: for constraints built by pattern extraction from any input over a
mirror-ordered, duplicate-free offset group, the compatibility relation is
symmetric: `are_compatible(p, q, o) = are_compatible(q, p, opposite(o))`
for every offset id `o` of the group and all pattern ids. -/
theorem c4_compatibility_symmetry {T : Type} [DecidableEq T] (input : LatGrid T)
    (tile_size shape_size : Point) (g : OffsetGroup) (G : PatternGroup) (st : IndexState T)
    (hmir : g.mirrored = true) (hnd : g.offsets.Nodup)
    (hok : process_patterns_in_lattice input tile_size shape_size g = .ok (G, st))
    (p q k : ℕ) (hk : k < G.constraints.offset_group.num_offsets) :
    G.constraints.are_compatible p q k
      = G.constraints.are_compatible q p (G.constraints.offset_group.opposite k) := by
  rw [process_patterns_in_lattice] at hok
  simp only [indexPatterns] at hok
  rcases hidx : ((Extent.mk (Point.divCeil input.ext.sup tile_size)).pointList.foldlM
      (indexPatternsStep input tile_size (shape_size * tile_size))
      ⟨[], 0, fun _ => 65535⟩) with e | st0
  · rw [hidx] at hok
    exact absurd hok (by simp)
  · rw [hidx] at hok
    simp only [Except.ok.injEq, Prod.mk.injEq] at hok
    obtain ⟨hG, hst⟩ := hok
    have hCsym : G.constraints.SymRel := by
      rw [← hG]
      exact constraintsPass_symmetric g hmir hnd st0.num_patterns st0.pattern_lattice _
    have hmem := hCsym p q k hk
    rw [PatternConstraints.are_compatible, PatternConstraints.are_compatible]
    exact decide_eq_decide.mpr hmem

/-- C4 witness: the symmetry equation instantiated on the extraction result
for the one-cell input over the 2D edge group, at pattern ids 0 and offset
id 1. -/
theorem c4_compatibility_symmetry_witness :
    processedUnit.1.constraints.are_compatible 0 0 1
      = processedUnit.1.constraints.are_compatible 0 0
          (processedUnit.1.constraints.offset_group.opposite 1) :=
  c4_compatibility_symmetry unitInput onesPt onesPt ⟨edge_2d_offsets⟩
    processedUnit.1 processedUnit.2 (by decide) (by decide) rfl 0 0 1 (by decide)

theorem countP_update_point (l : List Point) (c : Point) (hnd : l.Nodup) (hc : c ∈ l)
    (f g : Point → Bool) (hsame : ∀ x ∈ l, x ≠ c → f x = g x) :
    l.countP g + (if f c = true then 1 else 0)
      = l.countP f + (if g c = true then 1 else 0) := by
  induction l with
  | nil => exact absurd hc (by simp)
  | cons a rest ih =>
    rw [List.countP_cons, List.countP_cons]
    rcases List.mem_cons.mp hc with rfl | hcr
    · have hrest : rest.countP f = rest.countP g := by
        apply List.countP_congr
        intro x hx
        rw [hsame x (List.mem_cons_of_mem _ hx)
          (fun h => (List.nodup_cons.mp hnd).1 (h ▸ hx))]
      rw [hrest]
      by_cases hf : f c = true <;> by_cases hg : g c = true <;>
        simp only [hf, hg, if_true, if_false] <;> omega
    · have ha : a ≠ c := by
        intro h
        exact (List.nodup_cons.mp hnd).1 (h ▸ hcr)
      rw [hsame a (List.mem_cons_self _ _) ha]
      have := ih (List.nodup_cons.mp hnd).2 hcr
        (fun x hx hxc => hsame x (List.mem_cons_of_mem _ hx) hxc)
      omega

theorem Wv.remove_pattern_spec (l2 : ℚ → ℚ) (weights : ℕ → ℕ) (C : PatternConstraints)
    (os : Point) (w : Wv.Wave) (slot : Point) (p : ℕ)
    (hn : C.num_patterns < 65536)
    (hA : Wv.WInvA C os w)
    (hs : (⟨os⟩ : Extent).contains slot = true)
    (hp : p ∈ (w.slots.f slot).bits) :
    (Wv.remove_pattern l2 weights w slot p).2.slots.ext = w.slots.ext ∧
    (Wv.remove_pattern l2 weights w slot p).2.slots.f slot = (w.slots.f slot).remove p ∧
    (∀ c, c ≠ slot → (Wv.remove_pattern l2 weights w slot p).2.slots.f c = w.slots.f c) ∧
    Wv.WInvA C os (Wv.remove_pattern l2 weights w slot p).2 ∧
    ((Wv.remove_pattern l2 weights w slot p).1 = true ↔ (w.slots.f slot).bits.card = 1) ∧
    (Wv.CInv w → Wv.CInv (Wv.remove_pattern l2 weights w slot p).2) ∧
    ((Wv.remove_pattern l2 weights w slot p).1 = true →
      (Wv.remove_pattern l2 weights w slot p).2.pushLog = w.pushLog ∧
      (Wv.remove_pattern l2 weights w slot p).2.removal_stack = w.removal_stack ∧
      (Wv.remove_pattern l2 weights w slot p).2.pattern_supports = w.pattern_supports) ∧
    ((Wv.remove_pattern l2 weights w slot p).1 = false →
      (Wv.remove_pattern l2 weights w slot p).2.pushLog
        = w.pushLog ++ [((⟨os⟩ : Extent).encode slot, p)] ∧
      (Wv.remove_pattern l2 weights w slot p).2.removal_stack
        = w.removal_stack ++ [((⟨os⟩ : Extent).encode slot, p)] ∧
      (Wv.WInvK os w → Wv.WInvK os (Wv.remove_pattern l2 weights w slot p).2)) := by
  obtain ⟨hext, hsub, hnodup, hlog, hsizes⟩ := hA
  obtain ⟨hsize, hrange⟩ := hsizes slot hs
  have hcard1 : 1 ≤ (w.slots.f slot).bits.card := Finset.card_pos.mpr ⟨p, hp⟩
  have hcardn : (w.slots.f slot).bits.card ≤ C.num_patterns := by
    simpa using Finset.card_le_card hrange
  have hplt : p < C.num_patterns := by
    have := hrange hp
    simpa using this
  have hsize' : ((w.slots.f slot).remove p).size = (w.slots.f slot).bits.card - 1 := by
    show (if (w.slots.f slot).size = 0 then 65535 else (w.slots.f slot).size - 1) = _
    rw [if_neg (by omega)]
    omega
  have hbits' : ((w.slots.f slot).remove p).bits = (w.slots.f slot).bits.erase p := rfl
  have hcard' : ((w.slots.f slot).remove p).bits.card = (w.slots.f slot).bits.card - 1 := by
    rw [hbits', Finset.card_erase_of_mem hp]
  -- the updated slot store shared by all branches
  have hptl : slot ∈ w.slots.ext.pointList := by
    rw [hext]
    exact (Extent.mem_pointList _ _).mpr hs
  have hlog' : ∀ (L : LatGrid PatternSet), L.f slot = (w.slots.f slot).remove p →
      (∀ c, c ≠ slot → L.f c = w.slots.f c) →
      ∀ e ∈ w.pushLog, ∃ c, (⟨os⟩ : Extent).contains c = true ∧
        e.1 = (⟨os⟩ : Extent).encode c ∧ e.2 ∉ (L.f c).bits ∧ e.2 < C.num_patterns := by
    intro L hLs hLo e he
    obtain ⟨c, hc1, hc2, hc3, hc4⟩ := hlog e he
    refine ⟨c, hc1, hc2, ?_, hc4⟩
    by_cases hcs : c = slot
    · subst hcs
      rw [hLs, hbits']
      intro hmem
      exact hc3 (Finset.mem_of_mem_erase hmem)
    · rw [hLo c hcs]
      exact hc3
  have hsizes' : ∀ (L : LatGrid PatternSet), L.f slot = (w.slots.f slot).remove p →
      (∀ c, c ≠ slot → L.f c = w.slots.f c) →
      ∀ c, (⟨os⟩ : Extent).contains c = true →
        (L.f c).size = (L.f c).bits.card ∧ (L.f c).bits ⊆ Finset.range C.num_patterns := by
    intro L hLs hLo c hc
    by_cases hcs : c = slot
    · subst hcs
      rw [hLs]
      refine ⟨by rw [hsize', hcard'], ?_⟩
      rw [hbits']
      exact fun x hx => hrange (Finset.mem_of_mem_erase hx)
    · rw [hLo c hcs]
      exact hsizes c hc
  by_cases h0 : ((w.slots.f slot).remove p).len = 0
  · -- slot emptied: early return, only the slots grid changed
    have hr : Wv.remove_pattern l2 weights w slot p
        = (true, { w with slots := ⟨w.slots.ext,
            updFn w.slots.f slot ((w.slots.f slot).remove p)⟩ }) := by
      unfold Wv.remove_pattern
      dsimp only
      rw [if_pos h0]
    rw [hr]
    have hcard_oneA : (w.slots.f slot).bits.card = 1 := by
      have : ((w.slots.f slot).remove p).size = 0 := h0
      omega
    refine ⟨rfl, updFn_same _ _ _, fun c hc => updFn_other _ _ _ _ hc, ?_, ?_, ?_, ?_, ?_⟩
    · refine ⟨hext, hsub, hnodup, ?_, ?_⟩
      · exact hlog' _ (updFn_same _ _ _) (fun c hc => updFn_other _ _ _ _ hc)
      · exact hsizes' _ (updFn_same _ _ _) (fun c hc => updFn_other _ _ _ _ hc)
    · constructor
      · intro _
        exact hcard_oneA
      · intro _
        rfl
    · intro hC
      rw [Wv.CInv, Wv.countCollapsed] at hC ⊢
      simp only
      have := countP_update_point w.slots.ext.pointList slot
        (w.slots.ext.pointList_nodup) hptl
        (fun c => decide ((w.slots.f c).bits.card ≤ 1))
        (fun c => decide (((updFn w.slots.f slot ((w.slots.f slot).remove p)) c).bits.card ≤ 1))
        (fun x _ hx => by
          show decide ((w.slots.f x).bits.card ≤ 1)
            = decide (((updFn w.slots.f slot ((w.slots.f slot).remove p)) x).bits.card ≤ 1)
          rw [updFn_other _ _ _ _ hx])
      simp only [updFn_same] at this
      have hpre : (decide ((w.slots.f slot).bits.card ≤ 1)) = true := by
        rw [hcard_oneA]
        rfl
      have hpost : (decide ((((w.slots.f slot).remove p)).bits.card ≤ 1)) = true := by
        rw [hcard', hcard_oneA]
        rfl
      simp only [hpre, hpost, if_true] at this
      omega
    · intro _
      exact ⟨rfl, rfl, rfl⟩
    · intro hfalse
      exact Bool.noConfusion hfalse
  · -- slot still non-empty: entropy, counter, support and stack updates
    have hcard_not1 : (w.slots.f slot).bits.card ≠ 1 := by
      intro hone
      apply h0
      show ((w.slots.f slot).remove p).size = 0
      omega
    have hge2 : 2 ≤ (w.slots.f slot).bits.card := by omega
    set w1 : Wv.Wave := { w with slots := ⟨w.slots.ext,
        updFn w.slots.f slot ((w.slots.f slot).remove p)⟩ } with hw1
    set w2 : Wv.Wave :=
      (if ((w.slots.f slot).remove p).len = 1 then
        { w1 with
          entropy_cache := ⟨w1.entropy_cache.ext, updFn w1.entropy_cache.f slot maxEntropyCache⟩,
          collapsed_count := w1.collapsed_count + 1 }
      else
        { w1 with
          entropy_cache := ⟨w1.entropy_cache.ext,
            updFn w1.entropy_cache.f slot
              (Wv.reduce_entropy l2 weights (w1.entropy_cache.f slot) p)⟩ }) with hw2
    have hr : Wv.remove_pattern l2 weights w slot p
        = (false,
          { w2 with
            pattern_supports := ⟨w2.pattern_supports.ext,
              updFn w2.pattern_supports.f slot
                (fun q o => if q = p then 0 else w2.pattern_supports.f slot q o)⟩,
            removal_stack := w2.removal_stack ++ [(w2.slots.ext.encode slot, p)],
            pushLog := w2.pushLog ++ [(w2.slots.ext.encode slot, p)] }) := by
      unfold Wv.remove_pattern
      dsimp only
      rw [if_neg h0]
    have hw2slots : w2.slots = w1.slots ∧ w2.collapsed_count
        = (if ((w.slots.f slot).remove p).len = 1 then w.collapsed_count + 1
           else w.collapsed_count) ∧ w2.pushLog = w.pushLog ∧
        w2.removal_stack = w.removal_stack ∧ w2.pattern_supports = w.pattern_supports := by
      rw [hw2]
      by_cases h1 : ((w.slots.f slot).remove p).len = 1 <;> simp [h1, hw1]
    obtain ⟨hw2s, hw2c, hw2l, hw2r, hw2p⟩ := hw2slots
    rw [hr]
    have hencnew : ∀ e ∈ w.pushLog, e ≠ (w2.slots.ext.encode slot, p) := by
      intro e he heq
      obtain ⟨c, hc1, hc2, hc3, _⟩ := hlog e he
      have hceq : c = slot := by
        have henc : (⟨os⟩ : Extent).encode c = (⟨os⟩ : Extent).encode slot := by
          rw [← hc2, heq]
          rw [hw2s, hw1]
          simp only
          rw [hext]
        have := congrArg (fun i => (⟨os⟩ : Extent).decode i) henc
        simpa [Extent.decode_encode _ _ hc1, Extent.decode_encode _ _ hs] using this
      subst hceq
      have : e.2 = p := by rw [heq]
      exact hc3 (this ▸ hp)
    have hslotenc : w2.slots.ext.encode slot = (⟨os⟩ : Extent).encode slot := by
      rw [hw2s, hw1]
      simp only
      rw [hext]
    refine ⟨?_, ?_, ?_, ?_, ?_, ?_, ?_, ?_⟩
    · simp only
      rw [hw2s, hw1]
    · simp only
      rw [hw2s, hw1]
      exact updFn_same _ _ _
    · intro c hc
      simp only
      rw [hw2s, hw1]
      exact updFn_other _ _ _ _ hc
    · refine ⟨?_, ?_, ?_, ?_, ?_⟩
      · simp only
        rw [hw2s, hw1]
        exact hext
      · simp only
        rw [hw2r, hw2l]
        exact hsub.append (List.Sublist.refl _)
      · simp only
        rw [hw2l]
        rw [List.nodup_append]
        refine ⟨hnodup, List.nodup_singleton _, ?_⟩
        intro e he he2
        rw [List.mem_singleton] at he2
        exact hencnew e he (by rw [he2])
      · simp only
        rw [hw2l]
        intro e he
        rcases List.mem_append.mp he with he | he
        · have := hlog' ⟨w.slots.ext, updFn w.slots.f slot ((w.slots.f slot).remove p)⟩
            (updFn_same _ _ _) (fun c hc => updFn_other _ _ _ _ hc) e he
          obtain ⟨c, hc1, hc2, hc3, hc4⟩ := this
          refine ⟨c, hc1, hc2, ?_, hc4⟩
          rw [hw2s, hw1]
          exact hc3
        · rw [List.mem_singleton] at he
          subst he
          refine ⟨slot, hs, ?_, ?_, hplt⟩
          · exact hslotenc
          · simp only
            rw [hw2s, hw1]
            simp only
            rw [updFn_same, hbits']
            exact Finset.not_mem_erase _ _
      · intro c hc
        have := hsizes' ⟨w.slots.ext, updFn w.slots.f slot ((w.slots.f slot).remove p)⟩
          (updFn_same _ _ _) (fun c' hc' => updFn_other _ _ _ _ hc') c hc
        rw [hw2s, hw1]
        exact this
    · constructor
      · intro h
        exact Bool.noConfusion h
      · intro h
        exact absurd h hcard_not1
    · intro hC
      rw [Wv.CInv, Wv.countCollapsed] at hC ⊢
      dsimp only
      have hcnt := countP_update_point w.slots.ext.pointList slot
        (w.slots.ext.pointList_nodup) hptl
        (fun c => decide ((w.slots.f c).bits.card ≤ 1))
        (fun c => decide (((updFn w.slots.f slot ((w.slots.f slot).remove p)) c).bits.card ≤ 1))
        (fun x _ hx => by
          show decide ((w.slots.f x).bits.card ≤ 1)
            = decide (((updFn w.slots.f slot ((w.slots.f slot).remove p)) x).bits.card ≤ 1)
          rw [updFn_other _ _ _ _ hx])
      simp only [updFn_same] at hcnt
      have hexteq : w2.slots.ext = w.slots.ext := by rw [hw2s, hw1]
      have hfeq : w2.slots.f = updFn w.slots.f slot ((w.slots.f slot).remove p) := by
        rw [hw2s, hw1]
      rw [hexteq, hfeq, hw2c]
      by_cases h1 : ((w.slots.f slot).remove p).len = 1
      · have hpre : (decide ((w.slots.f slot).bits.card ≤ 1)) = false := by
          simp only [decide_eq_false_iff_not]
          omega
        have hpost : (decide ((((w.slots.f slot).remove p)).bits.card ≤ 1)) = true := by
          have : ((w.slots.f slot).remove p).size = 1 := h1
          simp only [decide_eq_true_eq, hcard']
          omega
        simp only [hpre, hpost, if_true, if_false, Bool.false_eq_true] at hcnt
        rw [if_pos h1]
        omega
      · have h1c : ¬ ((w.slots.f slot).bits.card - 1 ≤ 1) := by
          have : ((w.slots.f slot).remove p).size ≠ 1 := h1
          have : ((w.slots.f slot).remove p).size ≠ 0 := h0
          omega
        have hpre : (decide ((w.slots.f slot).bits.card ≤ 1)) = false := by
          simp only [decide_eq_false_iff_not]
          omega
        have hpost : (decide ((((w.slots.f slot).remove p)).bits.card ≤ 1)) = false := by
          simp only [decide_eq_false_iff_not, hcard']
          omega
        simp only [hpre, hpost, if_true, if_false, Bool.false_eq_true] at hcnt
        rw [if_neg h1]
        omega
    · intro h
      exact Bool.noConfusion h
    · intro _
      refine ⟨?_, ?_, ?_⟩
      · simp only
        rw [hw2l, hslotenc]
      · simp only
        rw [hw2r, hslotenc]
      · intro hK
        intro c hc q hq o
        simp only at hq ⊢
        rw [hw2s, hw1] at hq
        rw [hw2p]
        simp only at hq
        by_cases hcs : c = slot
        · subst hcs
          rw [updFn_same, hbits'] at hq
          rw [updFn_same]
          by_cases hqp : q = p
          · rw [if_pos hqp]
          · rw [if_neg hqp]
            apply hK c hc q
            intro hmem
            exact hq (Finset.mem_erase.mpr ⟨hqp, hmem⟩)
        · rw [updFn_other _ _ _ _ hcs] at hq
          rw [updFn_other _ _ _ _ hcs]
          exact hK c hc q hq o

theorem Wv.WInvA_of_eq (C : PatternConstraints) (os : Point) (w w' : Wv.Wave)
    (h1 : w'.slots = w.slots) (h2 : w'.removal_stack.Sublist w.removal_stack)
    (h3 : w'.pushLog = w.pushLog) (hA : Wv.WInvA C os w) : Wv.WInvA C os w' := by
  obtain ⟨a1, a2, a3, a4, a5⟩ := hA
  refine ⟨by rw [h1]; exact a1, ?_, by rw [h3]; exact a3, ?_, ?_⟩
  · rw [h3]
    exact h2.trans a2
  · rw [h3, h1]
    exact a4
  · rw [h1]
    exact a5

theorem Wv.CInv_of_eq (w w' : Wv.Wave) (h1 : w'.slots = w.slots)
    (h2 : w'.collapsed_count = w.collapsed_count) (hC : Wv.CInv w) : Wv.CInv w' := by
  rw [Wv.CInv, Wv.countCollapsed, h1, h2]
  exact hC

theorem Wv.remove_support_spec (w : Wv.Wave) (v : Point) (q k : ℕ) :
    (Wv.remove_support w v q k).2.slots = w.slots ∧
    (Wv.remove_support w v q k).2.removal_stack = w.removal_stack ∧
    (Wv.remove_support w v q k).2.pushLog = w.pushLog ∧
    (Wv.remove_support w v q k).2.collapsed_count = w.collapsed_count ∧
    (∀ os, Wv.WInvK os w → Wv.WInvK os (Wv.remove_support w v q k).2) ∧
    ((Wv.remove_support w v q k).1 = true → 0 < w.pattern_supports.f v q k) := by
  refine ⟨rfl, rfl, rfl, rfl, ?_, ?_⟩
  · intro os hK c hc p hp o
    have hp0 : p ∉ (w.slots.f c).bits := hp
    show (updFn w.pattern_supports.f v
      (fun p o => if p = q ∧ o = k then w.pattern_supports.f v q k - 1
        else w.pattern_supports.f v p o)) c p o ≤ 0
    by_cases hcv : c = v
    · rw [hcv, updFn_same]
      by_cases hqk : p = q ∧ o = k
      · rw [if_pos hqk]
        have hq0 : q ∉ (w.slots.f v).bits := by
          rw [← hqk.1, ← hcv]
          exact hp0
        have hh := hK v (by rw [← hcv]; exact hc) q hq0 k
        omega
      · rw [if_neg hqk]
        have hh := hK v (by rw [← hcv]; exact hc) p (by rw [← hcv]; exact hp0) o
        omega
    · rw [updFn_other _ _ _ _ hcv]
      exact hK c hc p hp0 o
  · intro h
    have : w.pattern_supports.f v q k - 1 = 0 := of_decide_eq_true h
    omega

theorem Wv.removeList_spec (l2 : ℚ → ℚ) (weights : ℕ → ℕ) (C : PatternConstraints)
    (os : Point) (hn : C.num_patterns < 65536) :
    ∀ (rp : List ℕ) (w : Wv.Wave) (slot : Point) (assign : ℕ),
      Wv.WInvA C os w →
      (⟨os⟩ : Extent).contains slot = true →
      assign ∈ (w.slots.f slot).bits →
      rp.Nodup →
      (∀ q ∈ rp, q ∈ (w.slots.f slot).bits ∧ q ≠ assign) →
      (Wv.WInvA C os (rp.foldl (fun w p => (Wv.remove_pattern l2 weights w slot p).2) w) ∧
       (Wv.WInvK os w →
         Wv.WInvK os (rp.foldl (fun w p => (Wv.remove_pattern l2 weights w slot p).2) w)) ∧
       (Wv.CInv w →
         Wv.CInv (rp.foldl (fun w p => (Wv.remove_pattern l2 weights w slot p).2) w)) ∧
       assign ∈ ((rp.foldl (fun w p => (Wv.remove_pattern l2 weights w slot p).2) w).slots.f
         slot).bits) := by
  intro rp
  induction rp with
  | nil =>
    intro w slot assign hA _ hassign _ _
    exact ⟨hA, fun h => h, fun h => h, hassign⟩
  | cons q rest ih =>
    intro w slot assign hA hs hassign hnd hmem
    rw [List.foldl_cons]
    obtain ⟨hq, hqa⟩ := hmem q (List.mem_cons_self _ _)
    obtain ⟨sext, sslot, sother, sA, siff, sC, _, sfalse⟩ :=
      Wv.remove_pattern_spec l2 weights C os w slot q hn hA hs hq
    have hb : (Wv.remove_pattern l2 weights w slot q).1 = false := by
      rcases hbool : (Wv.remove_pattern l2 weights w slot q).1 with _ | _
      · rfl
      · exfalso
        have hcard := siff.mp hbool
        have h2le : 2 ≤ (w.slots.f slot).bits.card := by
          have := Finset.one_lt_card.mpr ⟨assign, hassign, q, hq, fun h => hqa h.symm⟩
          omega
        omega
    obtain ⟨_, _, sK⟩ := sfalse hb
    have hassign' : assign ∈
        ((Wv.remove_pattern l2 weights w slot q).2.slots.f slot).bits := by
      rw [sslot]
      show assign ∈ (w.slots.f slot).bits.erase q
      exact Finset.mem_erase.mpr ⟨fun h => hqa h.symm, hassign⟩
    have hmem' : ∀ p ∈ rest,
        p ∈ ((Wv.remove_pattern l2 weights w slot q).2.slots.f slot).bits ∧ p ≠ assign := by
      intro p hp
      obtain ⟨hp1, hp2⟩ := hmem p (List.mem_cons_of_mem _ hp)
      refine ⟨?_, hp2⟩
      rw [sslot]
      show p ∈ (w.slots.f slot).bits.erase q
      refine Finset.mem_erase.mpr ⟨?_, hp1⟩
      intro h
      exact (List.nodup_cons.mp hnd).1 (h ▸ hp)
    have hnd2 : rest.Nodup := (List.nodup_cons.mp hnd).2
    have IH := ih (Wv.remove_pattern l2 weights w slot q).2 slot assign sA hs hassign'
      hnd2 hmem'
    obtain ⟨ihA, ihK, ihC, ihassign⟩ := IH
    exact ⟨ihA, fun hK => ihK (sK hK), fun hC => ihC (sC hC), ihassign⟩

theorem Wv.collapse_slot_spec (l2 : ℚ → ℚ) (weights : ℕ → ℕ) (C : PatternConstraints)
    (os : Point) (w : Wv.Wave) (slot : Point) (assign : ℕ)
    (hn : C.num_patterns < 65536)
    (hA : Wv.WInvA C os w)
    (hs : (⟨os⟩ : Extent).contains slot = true)
    (ha : assign ∈ (w.slots.f slot).bits) :
    Wv.WInvA C os (Wv.collapse_slot l2 weights w slot assign) ∧
    (Wv.WInvK os w → Wv.WInvK os (Wv.collapse_slot l2 weights w slot assign)) ∧
    (Wv.CInv w → Wv.CInv (Wv.collapse_slot l2 weights w slot assign)) := by
  have hnd : ((ascList (w.slots.f slot).bits).filter
      (fun p => p ≠ assign)).Nodup :=
    (ascList_nodup (w.slots.f slot).bits).filter _
  have hmem : ∀ q ∈ (ascList (w.slots.f slot).bits).filter (fun p => p ≠ assign),
      q ∈ (w.slots.f slot).bits ∧ q ≠ assign := by
    intro q hq
    rw [List.mem_filter] at hq
    refine ⟨?_, of_decide_eq_true hq.2⟩
    exact (mem_ascList _ _).mp hq.1
  obtain ⟨a, b, c, _⟩ := Wv.removeList_spec l2 weights C os hn
    ((ascList (w.slots.f slot).bits).filter (fun p => p ≠ assign))
    w slot assign hA hs ha hnd hmem
  exact ⟨a, b, c⟩

theorem Wv.processPats_spec (l2 : ℚ → ℚ) (weights : ℕ → ℕ) (C : PatternConstraints)
    (os : Point) (hn : C.num_patterns < 65536) :
    ∀ (qs : List ℕ) (w : Wv.Wave) (v : Point) (k : ℕ),
      Wv.WInvA C os w → Wv.WInvK os w →
      (⟨os⟩ : Extent).contains v = true →
      (Wv.WInvA C os (Wv.processPats l2 weights qs w v k).2 ∧
       ((Wv.processPats l2 weights qs w v k).1 = true →
         Wv.WInvK os (Wv.processPats l2 weights qs w v k).2) ∧
       (Wv.CInv w → Wv.CInv (Wv.processPats l2 weights qs w v k).2)) := by
  intro qs
  induction qs with
  | nil =>
    intro w v k hA hK _
    exact ⟨hA, fun _ => hK, fun h => h⟩
  | cons q rest ih =>
    intro w v k hA hK hv
    obtain ⟨e1, e2, e3, e4, eK, etrig⟩ := Wv.remove_support_spec w v q k
    have hA1 : Wv.WInvA C os (Wv.remove_support w v q k).2 :=
      Wv.WInvA_of_eq C os w _ e1 (e2 ▸ List.Sublist.refl _) e3 hA
    have hK1 : Wv.WInvK os (Wv.remove_support w v q k).2 := eK os hK
    have hC1 : Wv.CInv w → Wv.CInv (Wv.remove_support w v q k).2 :=
      fun h => Wv.CInv_of_eq w _ e1 e4 h
    rw [Wv.processPats]
    by_cases htrig : (Wv.remove_support w v q k).1 = true
    · rw [if_pos htrig]
      have hqmem : q ∈ ((Wv.remove_support w v q k).2.slots.f v).bits := by
        rw [e1]
        by_contra hq
        have := hK v hv q hq k
        have := etrig htrig
        omega
      obtain ⟨r1, r2, r3, rA, riff, rC, rtrue, rfalse⟩ :=
        Wv.remove_pattern_spec l2 weights C os (Wv.remove_support w v q k).2 v q hn hA1 hv hqmem
      by_cases hempty : (Wv.remove_pattern l2 weights (Wv.remove_support w v q k).2 v q).1 = true
      · rw [if_pos hempty]
        exact ⟨rA, fun h => Bool.noConfusion h, fun h => rC (hC1 h)⟩
      · rw [if_neg hempty]
        have hbf : (Wv.remove_pattern l2 weights (Wv.remove_support w v q k).2 v q).1 = false := by
          rcases hb : (Wv.remove_pattern l2 weights (Wv.remove_support w v q k).2 v q).1
          · rfl
          · exact absurd hb hempty
        obtain ⟨_, _, rK⟩ := rfalse hbf
        obtain ⟨iA, iK, iC⟩ := ih _ v k rA (rK hK1) hv
        exact ⟨iA, iK, fun h => iC (rC (hC1 h))⟩
    · rw [if_neg htrig]
      obtain ⟨iA, iK, iC⟩ := ih _ v k hA1 hK1 hv
      exact ⟨iA, iK, fun h => iC (hC1 h)⟩

theorem Wv.processOffsets_spec (l2 : ℚ → ℚ) (weights : ℕ → ℕ) (C : PatternConstraints)
    (os : Point) (hn : C.num_patterns < 65536) :
    ∀ (ks : List ℕ) (w : Wv.Wave) (pat : ℕ) (visit : Point),
      Wv.WInvA C os w → Wv.WInvK os w →
      (Wv.WInvA C os (Wv.processOffsets l2 weights C ks w pat visit).2 ∧
       ((Wv.processOffsets l2 weights C ks w pat visit).1 = true →
         Wv.WInvK os (Wv.processOffsets l2 weights C ks w pat visit).2) ∧
       (Wv.CInv w → Wv.CInv (Wv.processOffsets l2 weights C ks w pat visit).2)) := by
  intro ks
  induction ks with
  | nil =>
    intro w pat visit hA hK
    exact ⟨hA, fun _ => hK, fun h => h⟩
  | cons k rest ih =>
    intro w pat visit hA hK
    rw [Wv.processOffsets]
    by_cases hin : w.slots.ext.contains (visit + C.offset_group.offsetAt k) = true
    · rw [if_pos hin]
      have hin' : (⟨os⟩ : Extent).contains (visit + C.offset_group.offsetAt k) = true := by
        rw [← hA.1]
        exact hin
      obtain ⟨pA, pK, pC⟩ := Wv.processPats_spec l2 weights C os hn
        (C.iter_compatible pat k) w (visit + C.offset_group.offsetAt k) k hA hK hin'
      by_cases hok : (Wv.processPats l2 weights (C.iter_compatible pat k) w
          (visit + C.offset_group.offsetAt k) k).1 = true
      · rw [if_pos hok]
        obtain ⟨iA, iK, iC⟩ := ih _ pat visit pA (pK hok)
        exact ⟨iA, iK, fun h => iC (pC h)⟩
      · rw [if_neg hok]
        exact ⟨pA, fun h => Bool.noConfusion h, pC⟩
    · rw [if_neg hin]
      exact ih w pat visit hA hK

theorem Wv.propagate_spec (l2 : ℚ → ℚ) (weights : ℕ → ℕ) (C : PatternConstraints)
    (os : Point) (hn : C.num_patterns < 65536) :
    ∀ (fuel : ℕ) (w : Wv.Wave) (b : Bool) (w' : Wv.Wave),
      Wv.WInvA C os w → Wv.WInvK os w →
      Wv.propagate_constraints l2 weights C fuel w = some (b, w') →
      (Wv.WInvA C os w' ∧ (b = true → Wv.WInvK os w') ∧ (Wv.CInv w → Wv.CInv w')) := by
  intro fuel
  induction fuel with
  | zero =>
    intro w b w' _ _ hrun
    exact absurd hrun (by rw [Wv.propagate_constraints]; simp)
  | succ fuel ih =>
    intro w b w' hA hK hrun
    rw [Wv.propagate_constraints] at hrun
    rcases hlast : w.removal_stack.getLast? with _ | vp
    · rw [hlast] at hrun
      simp only [Option.some.injEq, Prod.mk.injEq] at hrun
      obtain ⟨rfl, rfl⟩ := hrun
      exact ⟨hA, fun _ => hK, fun h => h⟩
    · rw [hlast] at hrun
      simp only at hrun
      set w0 : Wv.Wave := { w with removal_stack := w.removal_stack.dropLast } with hw0
      have hA0 : Wv.WInvA C os w0 :=
        Wv.WInvA_of_eq C os w w0 rfl (List.dropLast_sublist _) rfl hA
      have hK0 : Wv.WInvK os w0 := hK
      obtain ⟨pA, pK, pC⟩ := Wv.processOffsets_spec l2 weights C os hn
        (List.range C.offset_group.num_offsets) w0 vp.2 (w0.slots.ext.decode vp.1) hA0 hK0
      by_cases hok : (Wv.processOffsets l2 weights C (List.range C.offset_group.num_offsets)
          w0 vp.2 (w0.slots.ext.decode vp.1)).1 = true
      · rw [if_pos hok] at hrun
        obtain ⟨iA, iK, iC⟩ := ih _ b w' pA (pK hok) hrun
        exact ⟨iA, iK, fun h => iC (pC (Wv.CInv_of_eq w w0 rfl rfl h))⟩
      · rw [if_neg hok] at hrun
        simp only [Option.some.injEq, Prod.mk.injEq] at hrun
        obtain ⟨rfl, rfl⟩ := hrun
        refine ⟨pA, fun h => Bool.noConfusion h, ?_⟩
        intro h
        exact pC (Wv.CInv_of_eq w w0 rfl rfl h)

theorem Wv.new_spec (l2 : ℚ → ℚ) (weights : ℕ → ℕ) (C : PatternConstraints)
    (os : Point) (hn : C.num_patterns < 65536) :
    Wv.WInvA C os (Wv.Wave.new l2 weights C os) ∧
    Wv.WInvK os (Wv.Wave.new l2 weights C os) ∧
    (2 ≤ C.num_patterns → Wv.CInv (Wv.Wave.new l2 weights C os)) := by
  refine ⟨⟨rfl, List.Sublist.refl _, List.nodup_nil, ?_, ?_⟩, ?_, ?_⟩
  · intro e he
    exact absurd he (by simp [Wv.Wave.new])
  · intro c _
    constructor
    · show C.num_patterns = (Finset.range C.num_patterns).card
      rw [Finset.card_range]
    · show Finset.range C.num_patterns ⊆ Finset.range C.num_patterns
      exact Finset.Subset.refl _
  · intro c _ p hp o
    show C.get_initial_support p o ≤ 0
    rw [PatternConstraints.get_initial_support]
    have hpn : ¬ p < C.num_patterns := by
      intro h
      exact hp (by show p ∈ Finset.range C.num_patterns; simpa using h)
    rw [if_neg (fun hand => hpn hand.1)]
  · intro h2
    show (0 : ℕ) = Wv.countCollapsed (Wv.Wave.new l2 weights C os)
    rw [Wv.countCollapsed]
    symm
    rw [List.countP_eq_zero]
    intro c _
    simp only [decide_eq_true_eq]
    intro hle
    show False
    have : (Finset.range C.num_patterns).card ≤ 1 := hle
    rw [Finset.card_range] at this
    omega

theorem Wv.reach_spec (l2 : ℚ → ℚ) (weights : ℕ → ℕ) (C : PatternConstraints)
    (os : Point) (hn : C.num_patterns < 65536) :
    ∀ w b, Wv.Reach l2 weights C os w b →
      Wv.WInvA C os w ∧ (b = true → Wv.WInvK os w) ∧
      (2 ≤ C.num_patterns → Wv.CInv w) := by
  intro w b hreach
  induction hreach with
  | init =>
    obtain ⟨hA, hK, hC⟩ := Wv.new_spec l2 weights C os hn
    exact ⟨hA, fun _ => hK, hC⟩
  | step w slot q fuel b w' hre hslot hq hprop ih =>
    obtain ⟨hA, hK, hC⟩ := ih
    have hslot' : (⟨os⟩ : Extent).contains slot = true := by
      rw [← hA.1]
      exact hslot
    obtain ⟨cA, cK, cC⟩ := Wv.collapse_slot_spec l2 weights C os w slot q hn hA hslot' hq
    obtain ⟨pA, pK, pC⟩ := Wv.propagate_spec l2 weights C os hn fuel _ b w'
      cA (cK (hK rfl)) hprop
    exact ⟨pA, pK, fun h2 => pC (cC (hC h2))⟩

theorem nodup_pairs_length_bound (l : List (ℕ × ℕ)) (V n : ℕ)
    (hnd : l.Nodup) (hmem : ∀ e ∈ l, e.1 < V ∧ e.2 < n) :
    l.length ≤ V * n := by
  classical
  set f : ℕ × ℕ → ℕ := fun e => e.1 * n + e.2 with hf
  have hinj : ∀ e ∈ l, ∀ e' ∈ l, f e = f e' → e = e' := by
    intro e he e' he' heq
    have h1 := (hmem e he).2
    have h2 := (hmem e' he').2
    have d1 := Nat.divmod_pack e.2 n e.1 h1
    have d2 := Nat.divmod_pack e'.2 n e'.1 h2
    have hx2 : e.2 = e'.2 := by
      rw [← d1.1, ← d2.1]
      simp only [hf] at heq
      rw [heq]
    have hx1 : e.1 = e'.1 := by
      rw [← d1.2, ← d2.2]
      simp only [hf] at heq
      rw [heq]
    exact Prod.ext hx1 hx2
  have hndm : (l.map f).Nodup := hnd.map_on hinj
  have hsub : (l.map f).toFinset ⊆ Finset.range (V * n) := by
    intro x hx
    rw [List.mem_toFinset, List.mem_map] at hx
    obtain ⟨e, he, rfl⟩ := hx
    rw [Finset.mem_range]
    obtain ⟨h1, h2⟩ := hmem e he
    calc f e < e.1 * n + n := by simp only [hf]; omega
      _ = (e.1 + 1) * n := by ring
      _ ≤ V * n := Nat.mul_le_mul_right n (by omega)
  have hcard := Finset.card_le_card hsub
  rw [List.toFinset_card_of_nodup hndm, List.length_map, Finset.card_range] at hcard
  exact hcard

/-- C6: in every reachable wave state, the push history of the removal
stack is duplicate-free (each (slot id, pattern) pair is pushed at most
once, since a removed pattern's support row is zeroed and never triggers
again), so the stack length never exceeds `totalCells * numPatterns`. -/
theorem c6_removal_stack_bound (l2 : ℚ → ℚ) (weights : ℕ → ℕ)
    (C : PatternConstraints) (output_size : Point)
    (hn : C.num_patterns < 65536)
    (w : Wv.Wave) (b : Bool) (hre : Wv.Reach l2 weights C output_size w b) :
    w.pushLog.Nodup ∧
      w.removal_stack.length ≤ (⟨output_size⟩ : Extent).volume * C.num_patterns := by
  obtain ⟨hA, _, _⟩ := Wv.reach_spec l2 weights C output_size hn w b hre
  obtain ⟨hext, hsub, hnd, hlog, _⟩ := hA
  refine ⟨hnd, ?_⟩
  have h1 : w.removal_stack.length ≤ w.pushLog.length := hsub.length_le
  have h2 : w.pushLog.length ≤ (⟨output_size⟩ : Extent).volume * C.num_patterns := by
    apply nodup_pairs_length_bound _ _ _ hnd
    intro e he
    obtain ⟨c, hc, he1, _, he2⟩ := hlog e he
    exact ⟨he1 ▸ Extent.encode_lt _ c hc, he2⟩
  omega

theorem c6_removal_stack_bound_witness :
    cTwo.num_patterns < 65536 ∧
      ((Wv.Wave.new l2triv wOne cTwo onesPt).pushLog.Nodup ∧
        (Wv.Wave.new l2triv wOne cTwo onesPt).removal_stack.length ≤
          (⟨onesPt⟩ : Extent).volume * cTwo.num_patterns) :=
  ⟨by decide,
    c6_removal_stack_bound l2triv wOne cTwo onesPt (by decide) _ true Wv.Reach.init⟩

/-- C5 counterexample: with a single pattern, the freshly constructed wave
(a reachable state) has `collapsed_count = 0` while every one of its cells
already has a possible set of size 1, so the claimed equality fails for
that number of patterns. -/
theorem c5_collapsed_count_counterexample :
    Wv.Reach l2triv wOne cOne onesPt (Wv.Wave.new l2triv wOne cOne onesPt) true ∧
      (Wv.Wave.new l2triv wOne cOne onesPt).collapsed_count = 0 ∧
      Wv.countCollapsed (Wv.Wave.new l2triv wOne cOne onesPt) = 1 :=
  ⟨Wv.Reach.init, rfl, by decide⟩

/-- C5 (amended): with at least two patterns, in every reachable wave
state `collapsed_count` equals the number of cells whose possible set has
size at most 1, and `determined()` holds iff `collapsed_count` equals the
total number of cells. -/
theorem c5_collapsed_count_amended (l2 : ℚ → ℚ) (weights : ℕ → ℕ)
    (C : PatternConstraints) (output_size : Point)
    (hn : C.num_patterns < 65536) (h2 : 2 ≤ C.num_patterns)
    (w : Wv.Wave) (b : Bool) (hre : Wv.Reach l2 weights C output_size w b) :
    w.collapsed_count = Wv.countCollapsed w ∧
      (Wv.Wave.determined w = true ↔ w.collapsed_count = Wv.Wave.num_slots w) := by
  obtain ⟨_, _, hC⟩ := Wv.reach_spec l2 weights C output_size hn w b hre
  refine ⟨hC h2, ?_⟩
  rw [Wv.Wave.determined]
  exact beq_iff_eq

theorem Gn.propagate_monotone (l2 : ℚ → ℚ) (G : PatternGroup) :
    ∀ (f f' : ℕ) (w : Gn.Wave) (wl : List Point) (r : Bool × Gn.Wave),
      f ≤ f' → Gn.propagate_constraints l2 G f w wl = some r →
      Gn.propagate_constraints l2 G f' w wl = some r := by
  intro f
  induction f with
  | zero =>
    intro f' w wl r _ h
    exact absurd h (by rw [Gn.propagate_constraints]; simp)
  | succ f ih =>
    intro f' w wl r hle h
    obtain ⟨f'', rfl⟩ : ∃ f'', f' = f'' + 1 := ⟨f' - 1, by omega⟩
    rw [Gn.propagate_constraints] at h ⊢
    rcases hlast : wl.getLast? with _ | v
    · rw [hlast] at h
      exact h
    · rw [hlast] at h
      simp only at h ⊢
      rcases hst : (Gn.visitOffsets l2 G (List.range G.constraints.offset_group.num_offsets)
          w wl.dropLast v).1 with _ | _
      · simp only [hst, Bool.false_eq_true, if_false] at h ⊢
        exact h
      · simp only [hst, if_true] at h ⊢
        exact ih f'' _ _ r (by omega) h

theorem Gn.update_monotone (l2 : ℚ → ℚ) (G : PatternGroup) (fuel fuel' : ℕ)
    (g : Gn.Generator) (r : Gn.UpdateResult × Gn.Generator) (hle : fuel ≤ fuel')
    (h : Gn.update l2 G fuel g = some r) : Gn.update l2 G fuel' g = some r := by
  rw [Gn.update] at h ⊢
  rcases h1 : Gn.choose_lowest_entropy_slot g.wave g.rng with _ | se
  · rw [h1] at h
    exact absurd h (by simp)
  · rw [h1] at h
    obtain ⟨⟨slot, e⟩, r1⟩ := se
    simp only at h ⊢
    rcases h2 : G.sample_pattern (g.wave.slots.f slot) r1 with _ | pr
    · rw [h2] at h
      exact absurd h (by simp)
    · rw [h2] at h
      obtain ⟨pattern, r2⟩ := pr
      simp only at h ⊢
      rcases h3 : Gn.propagate_constraints l2 G fuel
          (Gn.collapse_slot l2 G g.wave slot pattern) [slot] with _ | bw
      · rw [h3] at h
        exact absurd h (by simp)
      · rw [h3] at h
        rw [Gn.propagate_monotone l2 G fuel fuel' _ _ bw hle h3]
        exact h

theorem Gn.runLoop_monotone (l2 : ℚ → ℚ) (G : PatternGroup) :
    ∀ (n n' fuel fuel' : ℕ) (g : Gn.Generator) (r : ℕ × Gn.UpdateResult × Gn.Generator),
      n ≤ n' → fuel ≤ fuel' → Gn.runLoop l2 G n fuel g = some r →
      Gn.runLoop l2 G n' fuel' g = some r := by
  intro n
  induction n with
  | zero =>
    intro n' fuel fuel' g r _ _ h
    exact absurd h (by rw [Gn.runLoop]; simp)
  | succ n ih =>
    intro n' fuel fuel' g r hn hf h
    obtain ⟨n'', rfl⟩ : ∃ n'', n' = n'' + 1 := ⟨n' - 1, by omega⟩
    rw [Gn.runLoop] at h ⊢
    rcases h1 : Gn.update l2 G fuel g with _ | rg
    · rw [h1] at h
      exact absurd h (by simp)
    · rw [h1] at h
      rw [Gn.update_monotone l2 G fuel fuel' g rg hf h1]
      obtain ⟨res, g'⟩ := rg
      rcases res with _ | _ | _
      · exact h
      · simp only at h ⊢
        rcases h2 : Gn.runLoop l2 G n fuel g' with _ | kr
        · rw [h2] at h
          exact absurd h (by simp)
        · rw [h2] at h
          rw [ih n'' fuel fuel' g' kr (by omega) hf h2]
          exact h
      · exact h

/-- C2: determinism of a complete run.  The pipeline is a function of the
input grid, tile and shape size, offset group, output extent and seed
stream; two complete runs (any loop bounds and propagation fuels) return
the same step count, terminal status and generator, hence the same
serialized output grid. -/
theorem c2_determinism {T : Type} [DecidableEq T] (input : LatGrid T)
    (tile_size shape_size : Point) (g : OffsetGroup) (output_size : Point)
    (stream : ℕ → ℚ) (l2 : ℚ → ℚ) (n1 fuel1 n2 fuel2 : ℕ)
    (r1 r2 : ℕ × Gn.UpdateResult × Gn.Generator)
    (h1 : wfcRun input tile_size shape_size g output_size stream l2 n1 fuel1 = some r1)
    (h2 : wfcRun input tile_size shape_size g output_size stream l2 n2 fuel2 = some r2) :
    r1 = r2 ∧ observableOut (some r1) = observableOut (some r2) := by
  rw [wfcRun] at h1 h2
  rcases hp : process_patterns_in_lattice input tile_size shape_size g with e | Gs
  · rw [hp] at h1
    exact absurd h1 (by simp)
  · rw [hp] at h1 h2
    simp only at h1 h2
    have e1 := Gn.runLoop_monotone l2 Gs.1 n1 (max n1 n2) fuel1 (max fuel1 fuel2)
      (Gn.Generator.new stream l2 Gs.1 output_size) r1 (le_max_left _ _) (le_max_left _ _) h1
    have e2 := Gn.runLoop_monotone l2 Gs.1 n2 (max n1 n2) fuel2 (max fuel1 fuel2)
      (Gn.Generator.new stream l2 Gs.1 output_size) r2 (le_max_right _ _) (le_max_right _ _) h2
    have : r1 = r2 := by
      rw [e1] at e2
      exact Option.some.injEq _ _ ▸ e2
    exact ⟨this, by rw [this]⟩

/-- C2 witness: the one-cell pipeline completes with loop bound 1 and
propagation fuel 2, and again with bound 2 and fuel 3, with equal results. -/
theorem c2_determinism_witness :
    wfcRun unitInput onesPt onesPt ⟨edge_2d_offsets⟩ onesPt (fun _ => 0) l2triv 1 2
        = some unitRun ∧
      wfcRun unitInput onesPt onesPt ⟨edge_2d_offsets⟩ onesPt (fun _ => 0) l2triv 2 3
        = some unitRun ∧
      (unitRun = unitRun ∧ observableOut (some unitRun) = observableOut (some unitRun)) := by
  have h1 : wfcRun unitInput onesPt onesPt ⟨edge_2d_offsets⟩ onesPt (fun _ => 0) l2triv 1 2
      = some unitRun := by rfl
  have h2 : wfcRun unitInput onesPt onesPt ⟨edge_2d_offsets⟩ onesPt (fun _ => 0) l2triv 2 3
      = some unitRun := by rfl
  exact ⟨h1, h2,
    c2_determinism unitInput onesPt onesPt ⟨edge_2d_offsets⟩ onesPt (fun _ => 0) l2triv
      1 2 2 3 unitRun unitRun h1 h2⟩

theorem fadd_fin (a b : ℚ) : F32.fadd (.fin a) (.fin b) = .fin (a + b) := rfl

theorem fsub_fin (a b : ℚ) : F32.fsub (.fin a) (.fin b) = .fin (a - b) := rfl

theorem fmul_fin (a b : ℚ) : F32.fmul (.fin a) (.fin b) = .fin (a * b) := rfl

theorem fadd_inf_fin (b : ℚ) : F32.fadd .inf (.fin b) = .inf := rfl

theorem flog2_fin (l2 : ℚ → ℚ) (a : ℚ) :
    F32.flog2 l2 (.fin a) = if 0 < a then .fin (l2 a) else if a = 0 then .ninf else .nan := rfl

theorem fdiv_fin (a b : ℚ) :
    F32.fdiv (.fin a) (.fin b) =
      if b = 0 then (if a = 0 then .nan else if 0 < a then .inf else .ninf)
      else .fin (a / b) := rfl

theorem Gn.sample_pattern_mem (G : PatternGroup) (possible : Finset ℕ) (r : Rng)
    (p : ℕ) (r' : Rng) (h : G.sample_pattern possible r = some (p, r')) :
    p ∈ possible := by
  rw [PatternGroup.sample_pattern] at h
  by_cases hc : ascList possible = [] ∨ ((ascList possible).map G.weights).sum = 0
  · rw [if_pos hc] at h
    exact absurd h (by simp)
  · rw [if_neg hc] at h
    simp only [Option.some.injEq, Prod.mk.injEq] at h
    have hne : ascList possible ≠ [] := fun he => hc (Or.inl he)
    have hwne : (ascList possible).map G.weights ≠ [] := by
      intro he
      exact hne (List.map_eq_nil_iff.mp he)
    have hlt := weightedChoice_lt ((ascList possible).map G.weights) (r.next.1) hwne
    rw [List.length_map] at hlt
    have : (ascList possible).getD
        (weightedChoice ((ascList possible).map G.weights) r.next.1) 0 ∈ ascList possible := by
      rw [List.getD_eq_getElem _ _ hlt]
      exact List.getElem_mem _
    rw [h.1] at this
    exact (mem_ascList _ _).mp this

theorem list_map_sum_update (l : List Point) (f : Point → ℕ) (s : Point) (v : ℕ)
    (hnd : l.Nodup) (hs : s ∈ l) :
    (l.map (updFn f s v)).sum + f s = (l.map f).sum + v := by
  induction l with
  | nil => exact absurd hs (by simp)
  | cons a rest ih =>
    rcases List.mem_cons.mp hs with rfl | hsr
    · have hrest : rest.map (updFn f s v) = rest.map f := by
        apply List.map_congr_left
        intro x hx
        exact updFn_other f s x v (fun h => (List.nodup_cons.mp hnd).1 (h ▸ hx))
      rw [List.map_cons, List.map_cons, hrest, updFn_same]
      simp only [List.sum_cons]
      omega
    · have ha : a ≠ s := fun h => (List.nodup_cons.mp hnd).1 (h ▸ hsr)
      rw [List.map_cons, List.map_cons, updFn_other f s a v ha]
      have := ih (List.nodup_cons.mp hnd).2 hsr
      simp only [List.sum_cons]
      omega

theorem list_countP_lt {α : Type} (l : List α) (p q : α → Bool)
    (hpq : ∀ x ∈ l, p x = true → q x = true)
    (s : α) (hs : s ∈ l) (hqs : q s = true) (hps : p s = false) :
    l.countP p < l.countP q := by
  induction l with
  | nil => exact absurd hs (by simp)
  | cons a rest ih =>
    rw [List.countP_cons, List.countP_cons]
    have hmono : rest.countP p ≤ rest.countP q := by
      apply List.countP_mono_left
      intro x hx hpx
      exact hpq x (List.mem_cons_of_mem _ hx) hpx
    rcases List.mem_cons.mp hs with rfl | hsr
    · rw [hps, hqs]
      simp only [Bool.false_eq_true, if_false, if_true]
      omega
    · have h1 : (if p a = true then 1 else 0) ≤ (if q a = true then 1 else 0) := by
        by_cases hpa : p a = true
        · rw [if_pos hpa, if_pos (hpq a (List.mem_cons_self _ _) hpa)]
        · rw [if_neg hpa]
          split <;> omega
      have := ih (fun x hx hpx => hpq x (List.mem_cons_of_mem _ hx) hpx) hsr
      omega

theorem list_sum_ge_length (l : List ℕ) (h : ∀ x ∈ l, 1 ≤ x) : l.length ≤ l.sum := by
  induction l with
  | nil => simp
  | cons a rest ih =>
    simp only [List.length_cons, List.sum_cons]
    have := h a (List.mem_cons_self _ _)
    have := ih (fun x hx => h x (List.mem_cons_of_mem _ hx))
    omega

theorem list_sum_eq_length_iff (l : List ℕ) (h : ∀ x ∈ l, 1 ≤ x) :
    l.sum = l.length ↔ ∀ x ∈ l, x = 1 := by
  induction l with
  | nil => simp
  | cons a rest ih =>
    simp only [List.length_cons, List.sum_cons, List.mem_cons]
    have ha := h a (List.mem_cons_self _ _)
    have hrest := list_sum_ge_length rest (fun x hx => h x (List.mem_cons_of_mem _ hx))
    constructor
    · intro he
      have ha1 : a = 1 := by omega
      have : rest.sum = rest.length := by omega
      have := (ih (fun x hx => h x (List.mem_cons_of_mem _ hx))).mp this
      intro x hx
      rcases hx with rfl | hx
      · exact ha1
      · exact this x hx
    · intro hall
      have ha1 : a = 1 := hall a (Or.inl rfl)
      have : rest.sum = rest.length :=
        (ih (fun x hx => h x (List.mem_cons_of_mem _ hx))).mpr
          (fun x hx => hall x (Or.inr hx))
      omega

theorem list_le_sum_of_mem (l : List Point) (f : Point → ℕ) (s : Point) (hs : s ∈ l) :
    f s ≤ (l.map f).sum := by
  induction l with
  | nil => exact absurd hs (by simp)
  | cons a rest ih =>
    rw [List.map_cons, List.sum_cons]
    rcases List.mem_cons.mp hs with rfl | hsr
    · omega
    · have := ih hsr
      omega

theorem accumEntropy_go (l2 : ℚ → ℚ) (weights : ℕ → ℕ) :
    ∀ (pats : List ℕ) (a b : ℚ), (∀ p ∈ pats, 1 ≤ weights p) →
      pats.foldl
        (fun acc p =>
          let w : F32 := .fin (weights p)
          (F32.fadd acc.1 w, F32.fadd acc.2 (F32.fmul w (F32.flog2 l2 w))))
        (.fin a, .fin b) =
      (.fin (a + (pats.map (fun p => ((weights p : ℚ)))).sum),
       .fin (b + (pats.map (fun p => ((weights p : ℚ) * l2 (weights p)))).sum)) := by
  intro pats
  induction pats with
  | nil =>
    intro a b _
    simp
  | cons p rest ih =>
    intro a b h
    have hp : (0 : ℚ) < (weights p : ℚ) := by
      have := h p (List.mem_cons_self _ _)
      exact_mod_cast Nat.lt_of_lt_of_le Nat.zero_lt_one this
    rw [List.foldl_cons]
    show List.foldl _
      (F32.fadd (.fin a) (.fin (weights p)),
       F32.fadd (.fin b) (F32.fmul (.fin (weights p)) (F32.flog2 l2 (.fin (weights p))))) rest = _
    rw [flog2_fin, if_pos hp, fmul_fin, fadd_fin, fadd_fin]
    rw [ih (a + (weights p : ℚ)) (b + (weights p : ℚ) * l2 (weights p))
      (fun x hx => h x (List.mem_cons_of_mem _ hx))]
    simp only [List.map_cons, List.sum_cons, Prod.mk.injEq, F32.fin.injEq]
    constructor <;> ring

theorem accumEntropy_sum (l2 : ℚ → ℚ) (weights : ℕ → ℕ) (S : Finset ℕ)
    (h : ∀ p ∈ S, 1 ≤ weights p) :
    accumEntropy l2 weights (ascList S) =
      (.fin (S.sum (fun p => (weights p : ℚ))),
       .fin (S.sum (fun p => (weights p : ℚ) * l2 (weights p)))) := by
  rw [accumEntropy, accumEntropy_go l2 weights (ascList S) 0 0
    (fun p hp => h p ((mem_ascList S p).mp hp))]
  rw [ascList_map_sum, ascList_map_sum]
  norm_num

theorem sum_weights_pos (weights : ℕ → ℕ) (S : Finset ℕ)
    (h : ∀ p ∈ S, 1 ≤ weights p) (hne : S.Nonempty) :
    0 < S.sum (fun p => (weights p : ℚ)) := by
  obtain ⟨x, hx⟩ := hne
  have h1 : (1 : ℚ) ≤ (weights x : ℚ) := by exact_mod_cast h x hx
  have : (weights x : ℚ) ≤ S.sum (fun p => (weights p : ℚ)) := by
    apply Finset.single_le_sum _ hx
    intro p _
    positivity
  linarith

theorem entropyF_fin (l2 : ℚ → ℚ) (a b : ℚ) (ha : 0 < a) :
    entropyF l2 (.fin a) (.fin b) = .fin (l2 a - b / a) := by
  rw [entropyF, flog2_fin, if_pos ha, fdiv_fin, if_neg (ne_of_gt ha), fsub_fin]

theorem slot_entropy_fin (l2 : ℚ → ℚ) (weights : ℕ → ℕ) (S : Finset ℕ)
    (h2 : 2 ≤ S.card) (hw : ∀ p ∈ S, 1 ≤ weights p) :
    slot_entropy l2 weights S =
      ⟨.fin (S.sum fun p => (weights p : ℚ)),
       .fin (S.sum fun p => (weights p : ℚ) * l2 (weights p)),
       .fin (l2 (S.sum fun p => (weights p : ℚ)) -
         (S.sum fun p => (weights p : ℚ) * l2 (weights p)) /
           (S.sum fun p => (weights p : ℚ)))⟩ := by
  rw [slot_entropy, if_neg (by omega)]
  have hne : S.Nonempty := Finset.card_pos.mp (by omega)
  rw [accumEntropy_sum l2 weights S hw]
  show SlotEntropyCache.mk (F32.fin (S.sum fun p => (weights p : ℚ)))
      (F32.fin (S.sum fun p => (weights p : ℚ) * l2 (weights p)))
      (entropyF l2 (F32.fin (S.sum fun p => (weights p : ℚ)))
        (F32.fin (S.sum fun p => (weights p : ℚ) * l2 (weights p)))) = _
  rw [entropyF_fin l2 _ _ (sum_weights_pos weights S hw hne)]

theorem lower_entropy_exact (l2 : ℚ → ℚ) (G : PatternGroup) (S : Finset ℕ) (p : ℕ)
    (hp : p ∈ S) (h3 : 3 ≤ S.card) (hw : ∀ q ∈ S, 1 ≤ G.weights q) :
    Gn.lower_entropy l2 G (slot_entropy l2 G.weights S) p =
      slot_entropy l2 G.weights (S.erase p) := by
  have hce : (S.erase p).card = S.card - 1 := Finset.card_erase_of_mem hp
  have hwe : ∀ q ∈ S.erase p, 1 ≤ G.weights q := fun q hq => hw q (Finset.mem_of_mem_erase hq)
  rw [slot_entropy_fin l2 G.weights S (by omega) hw,
    slot_entropy_fin l2 G.weights (S.erase p) (by omega) hwe]
  have hsum1 : (S.erase p).sum (fun q => (G.weights q : ℚ)) + (G.weights p : ℚ) =
      S.sum (fun q => (G.weights q : ℚ)) := Finset.sum_erase_add S _ hp
  have hsum2 : (S.erase p).sum (fun q => (G.weights q : ℚ) * l2 (G.weights q)) +
      (G.weights p : ℚ) * l2 (G.weights p) =
      S.sum (fun q => (G.weights q : ℚ) * l2 (G.weights q)) := Finset.sum_erase_add S _ hp
  have hwp : (0 : ℚ) < (G.weights p : ℚ) := by
    have := hw p hp
    exact_mod_cast Nat.lt_of_lt_of_le Nat.zero_lt_one this
  show SlotEntropyCache.mk
      (F32.fsub (.fin (S.sum fun q => (G.weights q : ℚ))) (.fin (G.weights p)))
      (F32.fsub (.fin (S.sum fun q => (G.weights q : ℚ) * l2 (G.weights q)))
        (F32.fmul (.fin (G.weights p)) (F32.flog2 l2 (.fin (G.weights p)))))
      (entropyF l2
        (F32.fsub (.fin (S.sum fun q => (G.weights q : ℚ))) (.fin (G.weights p)))
        (F32.fsub (.fin (S.sum fun q => (G.weights q : ℚ) * l2 (G.weights q)))
          (F32.fmul (.fin (G.weights p)) (F32.flog2 l2 (.fin (G.weights p)))))) = _
  rw [flog2_fin, if_pos hwp, fmul_fin, fsub_fin, fsub_fin]
  have e1 : S.sum (fun q => (G.weights q : ℚ)) - (G.weights p : ℚ) =
      (S.erase p).sum (fun q => (G.weights q : ℚ)) := by linarith
  have e2 : S.sum (fun q => (G.weights q : ℚ) * l2 (G.weights q)) -
      (G.weights p : ℚ) * l2 (G.weights p) =
      (S.erase p).sum (fun q => (G.weights q : ℚ) * l2 (G.weights q)) := by linarith
  rw [e1, e2]
  have hposE : 0 < (S.erase p).sum (fun q => (G.weights q : ℚ)) :=
    sum_weights_pos G.weights (S.erase p) hwe (Finset.card_pos.mp (by omega))
  rw [entropyF_fin l2 _ _ hposE]

theorem updFn_collapse {T : Type} (f : Point → T) (p : Point) (a b : T) :
    updFn (updFn f p a) p b = updFn f p b := by
  funext q
  by_cases h : q = p <;> simp [updFn, h]

theorem Gn.remove_pattern_fields (l2 : ℚ → ℚ) (G : PatternGroup) (w : Gn.Wave)
    (s : Point) (p : ℕ) :
    (Gn.remove_pattern l2 G w s p).slots.ext = w.slots.ext ∧
    (Gn.remove_pattern l2 G w s p).entropy_cache.ext = w.entropy_cache.ext ∧
    (Gn.remove_pattern l2 G w s p).slots.f = updFn w.slots.f s ((w.slots.f s).erase p) ∧
    (Gn.remove_pattern l2 G w s p).entropy_cache.f =
      updFn w.entropy_cache.f s
        (if ((w.slots.f s).erase p).card = 1 then maxEntropyCache
         else Gn.lower_entropy l2 G (w.entropy_cache.f s) p) ∧
    (Gn.remove_pattern l2 G w s p).remaining_pattern_count
      = w.remaining_pattern_count - 1 :=
  ⟨rfl, rfl, rfl, rfl, rfl⟩

theorem Gn.removeFold_slots (l2 : ℚ → ℚ) (G : PatternGroup) (s : Point) :
    ∀ (L : List ℕ) (w : Gn.Wave), L.Nodup → (∀ q ∈ L, q ∈ w.slots.f s) →
      L.length ≤ w.remaining_pattern_count →
      (L.foldl (fun w q => Gn.remove_pattern l2 G w s q) w).slots.ext = w.slots.ext ∧
      (L.foldl (fun w q => Gn.remove_pattern l2 G w s q) w).entropy_cache.ext
        = w.entropy_cache.ext ∧
      (L.foldl (fun w q => Gn.remove_pattern l2 G w s q) w).slots.f
        = updFn w.slots.f s (w.slots.f s \ L.toFinset) ∧
      (∀ c, c ≠ s → (L.foldl (fun w q => Gn.remove_pattern l2 G w s q) w).entropy_cache.f c
        = w.entropy_cache.f c) ∧
      (L.foldl (fun w q => Gn.remove_pattern l2 G w s q) w).remaining_pattern_count + L.length
        = w.remaining_pattern_count := by
  intro L
  induction L with
  | nil =>
    intro w _ _ _
    refine ⟨rfl, rfl, ?_, fun _ _ => rfl, rfl⟩
    funext c
    by_cases h : c = s <;> simp [updFn, h]
  | cons q rest ih =>
    intro w hnd hsub hrem
    obtain ⟨e1, e2, e3, e4, e5⟩ := Gn.remove_pattern_fields l2 G w s q
    set w1 := Gn.remove_pattern l2 G w s q with hw1
    have hq : q ∈ w.slots.f s := hsub q (List.mem_cons_self _ _)
    have h1s : w1.slots.f s = (w.slots.f s).erase q := by
      rw [e3, updFn_same]
    have hsub' : ∀ x ∈ rest, x ∈ w1.slots.f s := by
      intro x hx
      rw [h1s, Finset.mem_erase]
      exact ⟨fun h => (List.nodup_cons.mp hnd).1 (h ▸ hx),
        hsub x (List.mem_cons_of_mem _ hx)⟩
    have hrem1 : 1 ≤ w.remaining_pattern_count := by
      have := hrem
      simp only [List.length_cons] at this
      omega
    have hrem' : rest.length ≤ w1.remaining_pattern_count := by
      rw [e5]
      simp only [List.length_cons] at hrem
      omega
    obtain ⟨i1, i2, i3, i4, i5⟩ := ih w1 (List.nodup_cons.mp hnd).2 hsub' hrem'
    rw [List.foldl_cons]
    refine ⟨i1.trans e1, i2.trans e2, ?_, ?_, ?_⟩
    · have hset : (w.slots.f s).erase q \ rest.toFinset
          = w.slots.f s \ (q :: rest).toFinset := by
        ext x
        simp only [Finset.mem_sdiff, Finset.mem_erase, List.toFinset_cons,
          Finset.mem_insert, List.mem_toFinset]
        tauto
      rw [i3, h1s, e3, updFn_collapse, hset]
    · intro c hc
      rw [i4 c hc, e4, updFn_other _ _ _ _ hc]
    · show (List.foldl (fun w q => Gn.remove_pattern l2 G w s q) w1 rest).remaining_pattern_count
          + (q :: rest).length = w.remaining_pattern_count
      rw [e5] at i5
      simp only [List.length_cons]
      omega

theorem Gn.removeFold_cache (l2 : ℚ → ℚ) (G : PatternGroup) (s : Point) :
    ∀ (L : List ℕ) (w : Gn.Wave), L.Nodup → (∀ q ∈ L, q ∈ w.slots.f s) →
      (∀ q ∈ w.slots.f s, 1 ≤ G.weights q) →
      w.entropy_cache.f s = slot_entropy l2 G.weights (w.slots.f s) →
      (w.slots.f s \ L.toFinset).Nonempty →
      (L.foldl (fun w q => Gn.remove_pattern l2 G w s q) w).entropy_cache.f s =
        slot_entropy l2 G.weights (w.slots.f s \ L.toFinset) := by
  intro L
  induction L with
  | nil =>
    intro w _ _ _ hcache _
    simp only [List.toFinset_nil, Finset.sdiff_empty]
    exact hcache
  | cons q rest ih =>
    intro w hnd hsub hw hcache hne
    obtain ⟨e1, e2, e3, e4, e5⟩ := Gn.remove_pattern_fields l2 G w s q
    set w1 := Gn.remove_pattern l2 G w s q with hw1
    have hq : q ∈ w.slots.f s := hsub q (List.mem_cons_self _ _)
    have h1s : w1.slots.f s = (w.slots.f s).erase q := by
      rw [e3, updFn_same]
    have hsetEq : w1.slots.f s \ rest.toFinset = w.slots.f s \ (q :: rest).toFinset := by
      rw [h1s]
      ext x
      simp only [Finset.mem_sdiff, Finset.mem_erase, List.toFinset_cons,
        Finset.mem_insert, List.mem_toFinset]
      tauto
    have hne' : (w1.slots.f s \ rest.toFinset).Nonempty := by
      rw [hsetEq]
      exact hne
    have hsub' : ∀ x ∈ rest, x ∈ w1.slots.f s := by
      intro x hx
      rw [h1s, Finset.mem_erase]
      exact ⟨fun h => (List.nodup_cons.mp hnd).1 (h ▸ hx),
        hsub x (List.mem_cons_of_mem _ hx)⟩
    have hw' : ∀ x ∈ w1.slots.f s, 1 ≤ G.weights x := by
      intro x hx
      rw [h1s] at hx
      exact hw x (Finset.mem_of_mem_erase hx)
    have hcache' : w1.entropy_cache.f s = slot_entropy l2 G.weights (w1.slots.f s) := by
      rw [e4, updFn_same, h1s]
      by_cases hcard : ((w.slots.f s).erase q).card = 1
      · rw [if_pos hcard, slot_entropy, if_pos hcard]
      · rw [if_neg hcard]
        have hne1 : ((w.slots.f s).erase q).Nonempty := by
          obtain ⟨x, hx⟩ := hne'
          rw [h1s] at hx
          exact ⟨x, (Finset.mem_sdiff.mp hx).1⟩
        have hcard2 : 2 ≤ ((w.slots.f s).erase q).card := by
          have := Finset.card_pos.mpr hne1
          omega
        have hcard3 : 3 ≤ (w.slots.f s).card := by
          have := Finset.card_erase_of_mem hq
          have := Finset.card_pos.mpr ⟨q, hq⟩
          omega
        rw [hcache]
        exact lower_entropy_exact l2 G (w.slots.f s) q hq hcard3 hw
    rw [List.foldl_cons, ← hsetEq]
    exact ih w1 (List.nodup_cons.mp hnd).2 hsub' hw' hcache' hne'

theorem Gn.collapseFold_spec (l2 : ℚ → ℚ) (G : PatternGroup) (w : Gn.Wave)
    (slot : Point) (q : ℕ) (hq : q ∈ w.slots.f slot)
    (hw : ∀ x ∈ w.slots.f slot, 1 ≤ G.weights x)
    (hcache : w.entropy_cache.f slot = slot_entropy l2 G.weights (w.slots.f slot))
    (hrem : (w.slots.f slot).card ≤ w.remaining_pattern_count + 1) :
    (Gn.collapse_slot l2 G w slot q).slots.ext = w.slots.ext ∧
    (Gn.collapse_slot l2 G w slot q).entropy_cache.ext = w.entropy_cache.ext ∧
    (Gn.collapse_slot l2 G w slot q).slots.f = updFn w.slots.f slot {q} ∧
    (∀ c, c ≠ slot →
      (Gn.collapse_slot l2 G w slot q).entropy_cache.f c = w.entropy_cache.f c) ∧
    (Gn.collapse_slot l2 G w slot q).entropy_cache.f slot
      = slot_entropy l2 G.weights {q} ∧
    (Gn.collapse_slot l2 G w slot q).remaining_pattern_count + (w.slots.f slot).card
      = w.remaining_pattern_count + 1 := by
  have hunfold : Gn.collapse_slot l2 G w slot q
      = ((ascList (w.slots.f slot)).filter (fun p => p ≠ q)).foldl
          (fun w p => Gn.remove_pattern l2 G w slot p) w := rfl
  set L := (ascList (w.slots.f slot)).filter (fun p => p ≠ q) with hLdef
  have hnd : L.Nodup := (ascList_nodup _).filter _
  have hLmem : ∀ x, x ∈ L ↔ (x ∈ w.slots.f slot ∧ x ≠ q) := by
    intro x
    rw [hLdef, List.mem_filter, mem_ascList]
    simp
  have hsub : ∀ x ∈ L, x ∈ w.slots.f slot := fun x hx => ((hLmem x).mp hx).1
  have hLfs : L.toFinset = (w.slots.f slot).erase q := by
    ext x
    rw [List.mem_toFinset, hLmem, Finset.mem_erase]
    tauto
  have hlen : L.length = (w.slots.f slot).card - 1 := by
    rw [← List.toFinset_card_of_nodup hnd, hLfs, Finset.card_erase_of_mem hq]
  have hcardpos : 1 ≤ (w.slots.f slot).card := Finset.card_pos.mpr ⟨q, hq⟩
  have hrem' : L.length ≤ w.remaining_pattern_count := by omega
  have hdiff : w.slots.f slot \ L.toFinset = {q} := by
    rw [hLfs]
    ext x
    simp only [Finset.mem_sdiff, Finset.mem_erase, Finset.mem_singleton]
    constructor
    · intro hx
      by_contra hxq
      exact hx.2 ⟨hxq, hx.1⟩
    · intro hx
      subst hx
      exact ⟨hq, fun h => h.1 rfl⟩
  obtain ⟨s1, s2, s3, s4, s5⟩ := Gn.removeFold_slots l2 G slot L w hnd hsub hrem'
  have hcac := Gn.removeFold_cache l2 G slot L w hnd hsub hw hcache
    (hdiff ▸ Finset.singleton_nonempty q)
  rw [hunfold]
  refine ⟨s1, s2, ?_, s4, ?_, ?_⟩
  · rw [s3, hdiff]
  · rw [hcac, hdiff]
  · omega

theorem Gn.rip_spec (l2 : ℚ → ℚ) (G : PatternGroup) (w : Gn.Wave)
    (visit os : Point) (k : ℕ)
    (hw : ∀ x ∈ w.slots.f os, 1 ≤ G.weights x)
    (hcache : w.entropy_cache.f os = slot_entropy l2 G.weights (w.slots.f os))
    (hrem : (w.slots.f os).card ≤ w.remaining_pattern_count) :
    (Gn.remove_impossible_patterns l2 G w visit os k).1.slots.ext = w.slots.ext ∧
    (Gn.remove_impossible_patterns l2 G w visit os k).1.entropy_cache.ext
      = w.entropy_cache.ext ∧
    (∀ c, c ≠ os →
      (Gn.remove_impossible_patterns l2 G w visit os k).1.slots.f c = w.slots.f c) ∧
    (∀ c, c ≠ os →
      (Gn.remove_impossible_patterns l2 G w visit os k).1.entropy_cache.f c
        = w.entropy_cache.f c) ∧
    (∀ x, x ∈ (Gn.remove_impossible_patterns l2 G w visit os k).1.slots.f os ↔
      (x ∈ w.slots.f os ∧ ∃ p ∈ w.slots.f visit, G.compatible k p x = true)) ∧
    (Gn.remove_impossible_patterns l2 G w visit os k).1.remaining_pattern_count
        + (w.slots.f os).card
      = w.remaining_pattern_count
        + ((Gn.remove_impossible_patterns l2 G w visit os k).1.slots.f os).card ∧
    ((Gn.remove_impossible_patterns l2 G w visit os k).2.1 = true ↔
      ((Gn.remove_impossible_patterns l2 G w visit os k).1.slots.f os).Nonempty) ∧
    ((Gn.remove_impossible_patterns l2 G w visit os k).2.1 = true →
      (Gn.remove_impossible_patterns l2 G w visit os k).1.entropy_cache.f os
        = slot_entropy l2 G.weights
            ((Gn.remove_impossible_patterns l2 G w visit os k).1.slots.f os)) := by
  set L := (ascList (w.slots.f os)).filter
    (fun q => !decide (∃ p ∈ w.slots.f visit, G.compatible k p q = true)) with hLdef
  have hr1 : (Gn.remove_impossible_patterns l2 G w visit os k).1
      = L.foldl (fun w q => Gn.remove_pattern l2 G w os q) w := rfl
  have hr21 : (Gn.remove_impossible_patterns l2 G w visit os k).2.1
      = decide ((L.foldl (fun w q => Gn.remove_pattern l2 G w os q) w).slots.f os).Nonempty :=
    rfl
  have hnd : L.Nodup := (ascList_nodup _).filter _
  have hLmem : ∀ x, x ∈ L ↔
      (x ∈ w.slots.f os ∧ ¬ ∃ p ∈ w.slots.f visit, G.compatible k p x = true) := by
    intro x
    rw [hLdef, List.mem_filter, mem_ascList]
    simp
  have hsub : ∀ x ∈ L, x ∈ w.slots.f os := fun x hx => ((hLmem x).mp hx).1
  have hfs : L.toFinset ⊆ w.slots.f os := by
    intro x hx
    exact hsub x (List.mem_toFinset.mp hx)
  have hlenL : L.length = L.toFinset.card := (List.toFinset_card_of_nodup hnd).symm
  have hlen : L.length ≤ (w.slots.f os).card := by
    rw [hlenL]
    exact Finset.card_le_card hfs
  have hrem' : L.length ≤ w.remaining_pattern_count := le_trans hlen hrem
  obtain ⟨s1, s2, s3, s4, s5⟩ := Gn.removeFold_slots l2 G os L w hnd hsub hrem'
  have hmemS : ∀ x, x ∈ w.slots.f os \ L.toFinset ↔
      (x ∈ w.slots.f os ∧ ∃ p ∈ w.slots.f visit, G.compatible k p x = true) := by
    intro x
    rw [Finset.mem_sdiff, List.mem_toFinset, hLmem]
    constructor
    · intro hx
      refine ⟨hx.1, ?_⟩
      by_contra hno
      exact hx.2 ⟨hx.1, hno⟩
    · intro hx
      exact ⟨hx.1, fun h => h.2 hx.2⟩
  have hSos : (L.foldl (fun w q => Gn.remove_pattern l2 G w os q) w).slots.f os
      = w.slots.f os \ L.toFinset := by
    rw [s3, updFn_same]
  have hcardS : (w.slots.f os \ L.toFinset).card = (w.slots.f os).card - L.length := by
    rw [Finset.card_sdiff hfs, hlenL]
  refine ⟨hr1 ▸ s1, hr1 ▸ s2, ?_, ?_, ?_, ?_, ?_, ?_⟩
  · intro c hc
    rw [hr1, s3, updFn_other _ _ _ _ hc]
  · intro c hc
    rw [hr1, s4 c hc]
  · intro x
    rw [hr1, hSos]
    exact hmemS x
  · rw [hr1, hSos, hcardS]
    omega
  · rw [hr21, hr1]
    exact decide_eq_true_iff
  · intro hne
    rw [hr21] at hne
    have hne' : ((L.foldl (fun w q => Gn.remove_pattern l2 G w os q) w).slots.f os).Nonempty :=
      of_decide_eq_true hne
    rw [hSos] at hne'
    rw [hr1, hSos]
    exact Gn.removeFold_cache l2 G os L w hnd hsub hw hcache hne'

theorem Gn.gInv_new (l2 : ℚ → ℚ) (G : PatternGroup) (os : Point)
    (h1 : 1 ≤ G.num_patterns) : Gn.GInv l2 G os (Gn.Wave.new l2 G os) := by
  refine ⟨rfl, rfl, ?_, ?_⟩
  · intro c _
    exact ⟨⟨0, Finset.mem_range.mpr h1⟩, Finset.Subset.refl _, rfl⟩
  · show (⟨os⟩ : Extent).volume * G.num_patterns
      = ((⟨os⟩ : Extent).pointList.map (fun _ => (Finset.range G.num_patterns).card)).sum
    rw [Finset.card_range, List.map_const', List.sum_replicate, smul_eq_mul,
      Extent.length_pointList]

theorem Gn.collapsed_le (os : Point) (w : Gn.Wave) (he : w.slots.ext = ⟨os⟩) :
    Gn.collapsedCells w ≤ (⟨os⟩ : Extent).volume := by
  rw [Gn.collapsedCells, he, ← Extent.length_pointList]
  exact List.countP_le_length _

theorem Gn.det_iff (l2 : ℚ → ℚ) (G : PatternGroup) (os : Point) (w : Gn.Wave)
    (hI : Gn.GInv l2 G os w) :
    Gn.Wave.determined w = true ↔ Gn.collapsedCells w = (⟨os⟩ : Extent).volume := by
  obtain ⟨he, hce, hcell, hrem⟩ := hI
  have hxs1 : ∀ x ∈ (⟨os⟩ : Extent).pointList.map (fun c => (w.slots.f c).card), 1 ≤ x := by
    intro x hx
    rw [List.mem_map] at hx
    obtain ⟨c, hc, rfl⟩ := hx
    exact Finset.card_pos.mpr (hcell c ((Extent.mem_pointList _ _).mp hc)).1
  have hlen : ((⟨os⟩ : Extent).pointList.map (fun c => (w.slots.f c).card)).length
      = (⟨os⟩ : Extent).volume := by
    rw [List.length_map, Extent.length_pointList]
  rw [Gn.Wave.determined, beq_iff_eq, hrem, he, Gn.collapsedCells, he]
  constructor
  · intro hsum
    have hall := (list_sum_eq_length_iff _ hxs1).mp (by rw [hlen, hsum])
    have : ∀ c ∈ (⟨os⟩ : Extent).pointList, (fun c => decide ((w.slots.f c).card ≤ 1)) c
        = true := by
      intro c hc
      have := hall ((w.slots.f c).card) (List.mem_map.mpr ⟨c, hc, rfl⟩)
      simp only [decide_eq_true_eq]
      omega
    rw [List.countP_eq_length.mpr this, Extent.length_pointList]
  · intro hcnt
    have hcnt' : ((⟨os⟩ : Extent).pointList.countP
        (fun c => decide ((w.slots.f c).card ≤ 1)))
        = (⟨os⟩ : Extent).pointList.length := by
      rw [hcnt, Extent.length_pointList]
    have hall := List.countP_eq_length.mp hcnt'
    rw [← hlen]
    apply (list_sum_eq_length_iff _ hxs1).mpr
    intro x hx
    rw [List.mem_map] at hx
    obtain ⟨c, hc, rfl⟩ := hx
    have h1 : 1 ≤ (w.slots.f c).card :=
      Finset.card_pos.mpr (hcell c ((Extent.mem_pointList _ _).mp hc)).1
    have h2 := hall c hc
    simp only [decide_eq_true_eq] at h2
    omega

theorem Gn.visitOffsets_GInv (l2 : ℚ → ℚ) (G : PatternGroup) (os : Point)
    (hwts : ∀ p, p < G.num_patterns → 1 ≤ G.weights p) :
    ∀ (ks : List ℕ) (w : Gn.Wave) (wl : List Point) (visit : Point),
      Gn.GInv l2 G os w →
      (Gn.visitOffsets l2 G ks w wl visit).1 = true →
      Gn.GInv l2 G os (Gn.visitOffsets l2 G ks w wl visit).2.1 ∧
        Gn.shrinks w (Gn.visitOffsets l2 G ks w wl visit).2.1 := by
  intro ks
  induction ks with
  | nil =>
    intro w wl visit hI _
    exact ⟨hI, fun c => Finset.Subset.refl _⟩
  | cons k ks ih =>
    intro w wl visit hI hb
    obtain ⟨he, hce, hcell, hrem⟩ := hI
    rw [Gn.visitOffsets] at hb ⊢
    by_cases hin : w.slots.ext.contains (visit + G.constraints.offset_group.offsetAt k) = true
    · rw [if_pos hin] at hb ⊢
      set v := visit + G.constraints.offset_group.offsetAt k with hv
      have hinv : (⟨os⟩ : Extent).contains v = true := by
        rw [← he]
        exact hin
      obtain ⟨hne0, hsubr, hcac⟩ := hcell v hinv
      have hwv : ∀ x ∈ w.slots.f v, 1 ≤ G.weights x := by
        intro x hx
        exact hwts x (Finset.mem_range.mp (hsubr hx))
      have hcard_le : (w.slots.f v).card ≤ w.remaining_pattern_count := by
        rw [hrem]
        exact list_le_sum_of_mem (⟨os⟩ : Extent).pointList (fun c => (w.slots.f c).card) v
          ((Extent.mem_pointList _ _).mpr hinv)
      obtain ⟨r1, r2, r3, r4, r5, r6, r7, r8⟩ := Gn.rip_spec l2 G w visit v k hwv hcac hcard_le
      by_cases hany : (Gn.remove_impossible_patterns l2 G w visit v k).2.1 = true
      · rw [if_pos hany] at hb ⊢
        set w1 := (Gn.remove_impossible_patterns l2 G w visit v k).1 with hw1
        have hshrink1 : Gn.shrinks w w1 := by
          intro c
          by_cases hc : c = v
          · subst hc
            intro x hx
            exact ((r5 x).mp hx).1
          · rw [r3 c hc]
        have hI1 : Gn.GInv l2 G os w1 := by
          refine ⟨r1.trans he, r2.trans hce, ?_, ?_⟩
          · intro c hc
            by_cases hcv : c = v
            · subst hcv
              refine ⟨(r7.mp hany), ?_, r8 hany⟩
              exact Finset.Subset.trans (hshrink1 v) (hcell v hc).2.1
            · rw [r3 c hcv, r4 c hcv]
              exact hcell c hc
          · have hmapeq : (⟨os⟩ : Extent).pointList.map (fun c => (w1.slots.f c).card)
                = (⟨os⟩ : Extent).pointList.map
                    (updFn (fun c => (w.slots.f c).card) v ((w1.slots.f v).card)) := by
              apply List.map_congr_left
              intro c _
              by_cases hcv : c = v
              · subst hcv
                rw [updFn_same]
              · rw [updFn_other _ _ _ _ hcv, r3 c hcv]
            have hupd := list_map_sum_update (⟨os⟩ : Extent).pointList
              (fun c => (w.slots.f c).card) v ((w1.slots.f v).card)
              (Extent.pointList_nodup _) ((Extent.mem_pointList _ _).mpr hinv)
            have hfv : (fun c => (w.slots.f c).card) v = (w.slots.f v).card := rfl
            rw [hfv] at hupd
            show w1.remaining_pattern_count
              = ((⟨os⟩ : Extent).pointList.map (fun c => (w1.slots.f c).card)).sum
            rw [hmapeq]
            omega
        obtain ⟨ihI, ihsh⟩ := ih w1 (if (Gn.remove_impossible_patterns l2 G w visit v k).2.2
            = true then wlInsert v wl else wl) visit hI1 hb
        refine ⟨ihI, ?_⟩
        intro c
        exact Finset.Subset.trans (ihsh c) (hshrink1 c)
      · rw [if_neg hany] at hb
        exact absurd hb (by simp)
    · rw [if_neg hin] at hb ⊢
      exact ih w wl visit ⟨he, hce, hcell, hrem⟩ hb

theorem Gn.propagate_GInv (l2 : ℚ → ℚ) (G : PatternGroup) (os : Point)
    (hwts : ∀ p, p < G.num_patterns → 1 ≤ G.weights p) :
    ∀ (fuel : ℕ) (w : Gn.Wave) (wl : List Point) (b : Bool) (w' : Gn.Wave),
      Gn.GInv l2 G os w →
      Gn.propagate_constraints l2 G fuel w wl = some (b, w') →
      b = true → Gn.GInv l2 G os w' ∧ Gn.shrinks w w' := by
  intro fuel
  induction fuel with
  | zero =>
    intro w wl b w' _ h _
    exact absurd h (by rw [Gn.propagate_constraints]; simp)
  | succ fuel ih =>
    intro w wl b w' hI h hb
    rw [Gn.propagate_constraints] at h
    rcases hlast : wl.getLast? with _ | v
    · rw [hlast] at h
      simp only [Option.some.injEq, Prod.mk.injEq] at h
      obtain ⟨rfl, rfl⟩ := h
      exact ⟨hI, fun c => Finset.Subset.refl _⟩
    · rw [hlast] at h
      simp only at h
      by_cases hst : (Gn.visitOffsets l2 G (List.range G.constraints.offset_group.num_offsets)
          w wl.dropLast v).1 = true
      · rw [if_pos hst] at h
        obtain ⟨hI1, hsh1⟩ := Gn.visitOffsets_GInv l2 G os hwts
          (List.range G.constraints.offset_group.num_offsets) w wl.dropLast v hI hst
        obtain ⟨ihI, ihsh⟩ := ih _ _ b w' hI1 h hb
        exact ⟨ihI, fun c => Finset.Subset.trans (ihsh c) (hsh1 c)⟩
      · rw [if_neg hst] at h
        simp only [Option.some.injEq, Prod.mk.injEq] at h
        obtain ⟨rfl, rfl⟩ := h
        exact absurd hb (by simp)

theorem Gn.minByGo_spec :
    ∀ (l : List (Point × F32)) (best : Point × F32),
      (best.2 = F32.inf ∨ ∃ x, best.2 = F32.fin x) →
      (∀ c ∈ l, c.2 = F32.inf ∨ ∃ x, c.2 = F32.fin x) →
      ∃ res, Gn.minByGo best l = some res ∧ (res = best ∨ res ∈ l) ∧
        (((∃ x, best.2 = F32.fin x) ∨ ∃ c ∈ l, ∃ x, c.2 = F32.fin x) →
          ∃ x, res.2 = F32.fin x) := by
  intro l
  induction l with
  | nil =>
    intro best hb _
    refine ⟨best, rfl, Or.inl rfl, ?_⟩
    intro h
    rcases h with h | ⟨c, hc, _⟩
    · exact h
    · exact absurd hc (by simp)
  | cons c rest ih =>
    intro best hb hl
    have hc := hl c (List.mem_cons_self _ _)
    have hlr : ∀ e ∈ rest, e.2 = F32.inf ∨ ∃ x, e.2 = F32.fin x :=
      fun e he => hl e (List.mem_cons_of_mem _ he)
    rcases hb with hbinf | ⟨xb, hbfin⟩
    · rcases hc with hcinf | ⟨xc, hcfin⟩
      · -- both infinite: comparator says eq, keep best
        have hcmp : F32.fcmp best.2 c.2 = some .eq := by
          rw [hbinf, hcinf]
          rfl
        rw [Gn.minByGo, hcmp]
        obtain ⟨res, h1, h2, h3⟩ := ih best (Or.inl hbinf) hlr
        refine ⟨res, h1, ?_, ?_⟩
        · rcases h2 with h2 | h2
          · exact Or.inl h2
          · exact Or.inr (List.mem_cons_of_mem _ h2)
        · intro h
          apply h3
          rcases h with h | ⟨e, he, hex⟩
          · exact Or.inl h
          · rcases List.mem_cons.mp he with rfl | he'
            · obtain ⟨x, hx⟩ := hex
              rw [hcinf] at hx
              exact absurd hx (by simp)
            · exact Or.inr ⟨e, he', hex⟩
      · -- best infinite, candidate finite: switch to candidate
        have hcmp : F32.fcmp best.2 c.2 = some .gt := by
          rw [hbinf, hcfin]
          rfl
        rw [Gn.minByGo, hcmp]
        obtain ⟨res, h1, h2, h3⟩ := ih c (Or.inr ⟨xc, hcfin⟩) hlr
        refine ⟨res, h1, ?_, ?_⟩
        · rcases h2 with h2 | h2
          · exact Or.inr (h2 ▸ List.mem_cons_self _ _)
          · exact Or.inr (List.mem_cons_of_mem _ h2)
        · intro _
          exact h3 (Or.inl ⟨xc, hcfin⟩)
    · rcases hc with hcinf | ⟨xc, hcfin⟩
      · -- best finite, candidate infinite: keep best
        have hcmp : F32.fcmp best.2 c.2 = some .lt := by
          rw [hbfin, hcinf]
          rfl
        rw [Gn.minByGo, hcmp]
        obtain ⟨res, h1, h2, h3⟩ := ih best (Or.inr ⟨xb, hbfin⟩) hlr
        refine ⟨res, h1, ?_, fun _ => h3 (Or.inl ⟨xb, hbfin⟩)⟩
        rcases h2 with h2 | h2
        · exact Or.inl h2
        · exact Or.inr (List.mem_cons_of_mem _ h2)
      · -- both finite
        have hcmp : F32.fcmp best.2 c.2 = some (compare xb xc) := by
          rw [hbfin, hcfin]
          rfl
        rcases hord : compare xb xc with _ | _ | _
        · rw [Gn.minByGo, hcmp, hord]
          obtain ⟨res, h1, h2, h3⟩ := ih best (Or.inr ⟨xb, hbfin⟩) hlr
          refine ⟨res, h1, ?_, fun _ => h3 (Or.inl ⟨xb, hbfin⟩)⟩
          rcases h2 with h2 | h2
          · exact Or.inl h2
          · exact Or.inr (List.mem_cons_of_mem _ h2)
        · rw [Gn.minByGo, hcmp, hord]
          obtain ⟨res, h1, h2, h3⟩ := ih best (Or.inr ⟨xb, hbfin⟩) hlr
          refine ⟨res, h1, ?_, fun _ => h3 (Or.inl ⟨xb, hbfin⟩)⟩
          rcases h2 with h2 | h2
          · exact Or.inl h2
          · exact Or.inr (List.mem_cons_of_mem _ h2)
        · rw [Gn.minByGo, hcmp, hord]
          obtain ⟨res, h1, h2, h3⟩ := ih c (Or.inr ⟨xc, hcfin⟩) hlr
          refine ⟨res, h1, ?_, fun _ => h3 (Or.inl ⟨xc, hcfin⟩)⟩
          rcases h2 with h2 | h2
          · exact Or.inr (h2 ▸ List.mem_cons_self _ _)
          · exact Or.inr (List.mem_cons_of_mem _ h2)

theorem Gn.scanEntropies_go (w : Gn.Wave) :
    ∀ (pts : List Point) (acc : List (Point × F32)) (r : Rng),
      (pts.foldl
        (fun acc s =>
          let p := acc.2.next
          (acc.1 ++ [(s, F32.fadd (w.entropy_cache.f s).entropy
            (F32.fmul (.fin (1 / 1000)) (.fin p.1)))], p.2))
        (acc, r)).1.map Prod.fst = acc.map Prod.fst ++ pts ∧
      ∀ e ∈ (pts.foldl
        (fun acc s =>
          let p := acc.2.next
          (acc.1 ++ [(s, F32.fadd (w.entropy_cache.f s).entropy
            (F32.fmul (.fin (1 / 1000)) (.fin p.1)))], p.2))
        (acc, r)).1, e ∈ acc ∨
          ∃ x : ℚ, e.2 = F32.fadd (w.entropy_cache.f e.1).entropy
            (F32.fmul (.fin (1 / 1000)) (.fin x)) := by
  intro pts
  induction pts with
  | nil =>
    intro acc r
    exact ⟨by simp, fun e he => Or.inl he⟩
  | cons s rest ih =>
    intro acc r
    rw [List.foldl_cons]
    obtain ⟨ih1, ih2⟩ := ih (acc ++ [(s, F32.fadd (w.entropy_cache.f s).entropy
      (F32.fmul (.fin (1 / 1000)) (.fin (r.next.1))))]) r.next.2
    constructor
    · rw [ih1]
      simp
    · intro e he
      rcases ih2 e he with hmem | hfin
      · rcases List.mem_append.mp hmem with h | h
        · exact Or.inl h
        · right
          have : e = (s, F32.fadd (w.entropy_cache.f s).entropy
              (F32.fmul (.fin (1 / 1000)) (.fin (r.next.1)))) := by
            simpa using h
          subst this
          exact ⟨r.next.1, rfl⟩
      · exact Or.inr hfin

theorem Gn.choose_spec (l2 : ℚ → ℚ) (G : PatternGroup) (os : Point) (w : Gn.Wave)
    (r : Rng) (hI : Gn.GInv l2 G os w)
    (hwts : ∀ p, p < G.num_patterns → 1 ≤ G.weights p)
    (slot : Point) (e : F32) (r' : Rng)
    (h : Gn.choose_lowest_entropy_slot w r = some ((slot, e), r')) :
    (⟨os⟩ : Extent).contains slot = true ∧
    ((∃ c0, (⟨os⟩ : Extent).contains c0 = true ∧ 2 ≤ (w.slots.f c0).card) →
      2 ≤ (w.slots.f slot).card) ∧
    1 ≤ (⟨os⟩ : Extent).volume := by
  obtain ⟨he, hce, hcell, hrem⟩ := hI
  rw [Gn.choose_lowest_entropy_slot] at h
  set cands := (Gn.scanEntropies w r).1 with hcands
  have hscan : cands.map Prod.fst = w.entropy_cache.ext.pointList ∧
      ∀ e ∈ cands, ∃ x : ℚ, e.2 = F32.fadd (w.entropy_cache.f e.1).entropy
        (F32.fmul (.fin (1 / 1000)) (.fin x)) := by
    obtain ⟨h1, h2⟩ := Gn.scanEntropies_go w w.entropy_cache.ext.pointList [] r
    constructor
    · have h1' := h1
      simp only [List.map_nil, List.nil_append] at h1'
      exact h1'
    · intro e he'
      rcases h2 e he' with hmem | hfin
      · exact absurd hmem (by simp)
      · exact hfin
  have hmemP : ∀ c ∈ cands, (⟨os⟩ : Extent).contains c.1 = true := by
    intro c hc
    have : c.1 ∈ cands.map Prod.fst := List.mem_map.mpr ⟨c, hc, rfl⟩
    rw [hscan.1, hce] at this
    exact (Extent.mem_pointList _ _).mp this
  have hclass : ∀ c ∈ cands, (c.2 = F32.inf ∧ (w.slots.f c.1).card = 1) ∨
      (∃ x, c.2 = F32.fin x) ∧ 2 ≤ (w.slots.f c.1).card := by
    intro c hc
    obtain ⟨x, hx⟩ := hscan.2 c hc
    have hcont := hmemP c hc
    obtain ⟨hne0, hsubr, hcac⟩ := hcell c.1 hcont
    have hwc : ∀ q ∈ w.slots.f c.1, 1 ≤ G.weights q :=
      fun q hq => hwts q (Finset.mem_range.mp (hsubr hq))
    have hcard1 : 1 ≤ (w.slots.f c.1).card := Finset.card_pos.mpr hne0
    by_cases hcard : (w.slots.f c.1).card = 1
    · left
      refine ⟨?_, hcard⟩
      rw [hx, hcac, slot_entropy, if_pos hcard]
      rw [fmul_fin]
      rfl
    · right
      refine ⟨?_, by omega⟩
      rw [hx, hcac, slot_entropy_fin l2 G.weights _ (by omega) hwc]
      rw [fmul_fin, fadd_fin]
      exact ⟨_, rfl⟩
  rcases hcl : cands with _ | ⟨c0, crest⟩
  · rw [hcl] at h
    exact absurd h (by rw [Gn.minByF]; simp)
  · rw [hcl] at h
    rw [Gn.minByF] at h
    have hc0 := hclass c0 (hcl ▸ List.mem_cons_self _ _)
    have hcrest : ∀ c ∈ crest, c.2 = F32.inf ∨ ∃ x, c.2 = F32.fin x := by
      intro c hc
      rcases hclass c (hcl ▸ List.mem_cons_of_mem _ hc) with ⟨h1, _⟩ | ⟨h1, _⟩
      · exact Or.inl h1
      · exact Or.inr h1
    have hc0' : c0.2 = F32.inf ∨ ∃ x, c0.2 = F32.fin x := by
      rcases hc0 with ⟨h1, _⟩ | ⟨h1, _⟩
      · exact Or.inl h1
      · exact Or.inr h1
    obtain ⟨res, h1, h2, h3⟩ := Gn.minByGo_spec crest c0 hc0' hcrest
    rw [h1] at h
    simp only [Option.some.injEq, Prod.mk.injEq] at h
    obtain ⟨rfl, _⟩ := h
    have hresmem : (slot, e) ∈ cands := by
      rw [hcl]
      rcases h2 with h2 | h2
      · rw [h2]
        exact List.mem_cons_self _ _
      · exact List.mem_cons_of_mem _ h2
    have hcont : (⟨os⟩ : Extent).contains slot = true := hmemP (slot, e) hresmem
    refine ⟨hcont, ?_, ?_⟩
    · intro ⟨cc, hcc, hcc2⟩
      -- there is a finite candidate, so the minimum is finite
      have hccP : cc ∈ w.entropy_cache.ext.pointList := by
        rw [hce]
        exact (Extent.mem_pointList _ _).mpr hcc
      have : cc ∈ cands.map Prod.fst := by
        rw [hscan.1]
        exact hccP
      obtain ⟨ec, hec, hec1⟩ := List.mem_map.mp this
      have hecfin : ∃ x, ec.2 = F32.fin x := by
        rcases hclass ec hec with ⟨_, hcard⟩ | ⟨h1, _⟩
        · rw [hec1] at hcard
          omega
        · exact h1
      have hresfin : ∃ x, (slot, e).2 = F32.fin x := by
        apply h3
        rw [hcl] at hec
        rcases List.mem_cons.mp hec with rfl | hec'
        · rcases hecfin with ⟨x, hx⟩
          exact Or.inl ⟨x, hx⟩
        · exact Or.inr ⟨ec, hec', hecfin⟩
      rcases hclass (slot, e) hresmem with ⟨hinf, _⟩ | ⟨_, hcard⟩
      · obtain ⟨x, hx⟩ := hresfin
        rw [hinf] at hx
        exact absurd hx (by simp)
      · exact hcard
    · have h0 : cands.map Prod.fst ≠ [] := by
        rw [hcl]
        simp
      rw [hscan.1, hce] at h0
      have hlen : (⟨os⟩ : Extent).pointList.length ≠ 0 := by
        intro hl
        exact h0 (List.eq_nil_of_length_eq_zero hl)
      rw [Extent.length_pointList] at hlen
      omega

theorem Gn.update_spec (l2 : ℚ → ℚ) (G : PatternGroup) (os : Point)
    (hwts : ∀ p, p < G.num_patterns → 1 ≤ G.weights p)
    (g : Gn.Generator) (fuel : ℕ) (res : Gn.UpdateResult) (g' : Gn.Generator)
    (hI : Gn.GInv l2 G os g.wave)
    (h : Gn.update l2 G fuel g = some (res, g')) :
    (res = .Success ∨ res = .Continue →
      Gn.GInv l2 G os g'.wave ∧ Gn.shrinks g.wave g'.wave) ∧
    (res = .Success → Gn.Wave.determined g'.wave = true) ∧
    (res = .Continue → Gn.Wave.determined g'.wave = false ∧
      Gn.collapsedCells g.wave < Gn.collapsedCells g'.wave) ∧
    1 ≤ (⟨os⟩ : Extent).volume := by
  rw [Gn.update] at h
  rcases h1 : Gn.choose_lowest_entropy_slot g.wave g.rng with _ | se
  · rw [h1] at h
    exact absurd h (by simp)
  · rw [h1] at h
    obtain ⟨⟨slot, e⟩, r1⟩ := se
    simp only at h
    obtain ⟨hslot, himp, hvol⟩ := Gn.choose_spec l2 G os g.wave g.rng hI hwts slot e r1 h1
    rcases h2 : G.sample_pattern (g.wave.slots.f slot) r1 with _ | pr
    · rw [h2] at h
      exact absurd h (by simp)
    · rw [h2] at h
      obtain ⟨pattern, r2⟩ := pr
      simp only at h
      have hpmem : pattern ∈ g.wave.slots.f slot :=
        Gn.sample_pattern_mem G _ r1 pattern r2 h2
      obtain ⟨he, hce, hcell, hrem⟩ := hI
      obtain ⟨hne0, hsubr, hcac⟩ := hcell slot hslot
      have hwsl : ∀ x ∈ g.wave.slots.f slot, 1 ≤ G.weights x :=
        fun x hx => hwts x (Finset.mem_range.mp (hsubr hx))
      have hcard_le : (g.wave.slots.f slot).card ≤ g.wave.remaining_pattern_count := by
        rw [hrem]
        exact list_le_sum_of_mem (⟨os⟩ : Extent).pointList (fun c => (g.wave.slots.f c).card)
          slot ((Extent.mem_pointList _ _).mpr hslot)
      obtain ⟨c1, c2, c3, c4, c5, c6⟩ := Gn.collapseFold_spec l2 G g.wave slot pattern
        hpmem hwsl hcac (by omega)
      set w1 := Gn.collapse_slot l2 G g.wave slot pattern with hw1
      have h1slot : w1.slots.f slot = {pattern} := by
        rw [c3, updFn_same]
      have hshrink1 : Gn.shrinks g.wave w1 := by
        intro c
        by_cases hc : c = slot
        · subst hc
          rw [h1slot]
          exact Finset.singleton_subset_iff.mpr hpmem
        · rw [c3, updFn_other _ _ _ _ hc]
      have hI1 : Gn.GInv l2 G os w1 := by
        refine ⟨c1.trans he, c2.trans hce, ?_, ?_⟩
        · intro c hc
          by_cases hcs : c = slot
          · subst hcs
            rw [h1slot, c5]
            exact ⟨Finset.singleton_nonempty _,
              Finset.singleton_subset_iff.mpr (hsubr hpmem), rfl⟩
          · rw [c3, updFn_other _ _ _ _ hcs, c4 c hcs]
            exact hcell c hc
        · have hmapeq : (⟨os⟩ : Extent).pointList.map (fun c => (w1.slots.f c).card)
              = (⟨os⟩ : Extent).pointList.map
                  (updFn (fun c => (g.wave.slots.f c).card) slot 1) := by
            apply List.map_congr_left
            intro c _
            by_cases hcs : c = slot
            · subst hcs
              rw [updFn_same, h1slot, Finset.card_singleton]
            · rw [updFn_other _ _ _ _ hcs, c3, updFn_other _ _ _ _ hcs]
          have hupd := list_map_sum_update (⟨os⟩ : Extent).pointList
            (fun c => (g.wave.slots.f c).card) slot 1
            (Extent.pointList_nodup _) ((Extent.mem_pointList _ _).mpr hslot)
          have hfv : (fun c => (g.wave.slots.f c).card) slot
              = (g.wave.slots.f slot).card := rfl
          rw [hfv] at hupd
          show w1.remaining_pattern_count
            = ((⟨os⟩ : Extent).pointList.map (fun c => (w1.slots.f c).card)).sum
          rw [hmapeq]
          omega
      rcases h3 : Gn.propagate_constraints l2 G fuel w1 [slot] with _ | bw
      · rw [h3] at h
        exact absurd h (by simp)
      · rw [h3] at h
        obtain ⟨ok, w2⟩ := bw
        simp only at h
        rcases ok with _ | _
        · simp only [Bool.not_false, if_true, Option.some.injEq, Prod.mk.injEq] at h
          obtain ⟨rfl, rfl⟩ := h
          refine ⟨?_, ?_, ?_, hvol⟩
          · intro hsc
            rcases hsc with hsc | hsc <;> exact absurd hsc (by simp)
          · intro hsc
            exact absurd hsc (by simp)
          · intro hsc
            exact absurd hsc (by simp)
        · obtain ⟨hI2, hsh2⟩ := Gn.propagate_GInv l2 G os hwts fuel w1 [slot] true w2 hI1 h3 rfl
          have hshTot : Gn.shrinks g.wave w2 :=
            fun c => Finset.Subset.trans (hsh2 c) (hshrink1 c)
          simp only [Bool.not_true, Bool.false_eq_true, if_false] at h
          rcases hdet : Gn.Wave.determined w2 with _ | _
          · rw [hdet] at h
            simp only [Bool.false_eq_true, if_false, Option.some.injEq, Prod.mk.injEq] at h
            obtain ⟨rfl, rfl⟩ := h
            refine ⟨?_, ?_, ?_, hvol⟩
            · intro _
              exact ⟨hI2, hshTot⟩
            · intro hsc
              exact absurd hsc (by simp)
            · intro _
              refine ⟨hdet, ?_⟩
              -- pre-state is not yet determined, so the chosen slot has two or
              -- more possible patterns and collapsing it strictly increases
              -- the collapsed count
              have hdetg : Gn.Wave.determined g.wave = false := by
                rcases hd : Gn.Wave.determined g.wave with _ | _
                · rfl
                · exfalso
                  have hv0 := (Gn.det_iff l2 G os g.wave ⟨he, hce, hcell, hrem⟩).mp hd
                  have hmono : Gn.collapsedCells g.wave ≤ Gn.collapsedCells w2 := by
                    rw [Gn.collapsedCells, Gn.collapsedCells, he, hI2.1]
                    apply List.countP_mono_left
                    intro c _ hc
                    simp only [decide_eq_true_eq] at hc ⊢
                    have := Finset.card_le_card (hshTot c)
                    omega
                  have hle2 := Gn.collapsed_le os w2 hI2.1
                  have hv2 : Gn.collapsedCells w2 = (⟨os⟩ : Extent).volume := by omega
                  have := (Gn.det_iff l2 G os w2 hI2).mpr hv2
                  rw [this] at hdet
                  exact Bool.noConfusion hdet
              have hex : ∃ c0, (⟨os⟩ : Extent).contains c0 = true ∧
                  2 ≤ (g.wave.slots.f c0).card := by
                by_contra hno
                push_neg at hno
                have hall : ∀ c ∈ (⟨os⟩ : Extent).pointList,
                    (fun c => decide ((g.wave.slots.f c).card ≤ 1)) c = true := by
                  intro c hc
                  have := hno c ((Extent.mem_pointList _ _).mp hc)
                  simp only [decide_eq_true_eq]
                  omega
                have hv := List.countP_eq_length.mpr hall
                have : Gn.collapsedCells g.wave = (⟨os⟩ : Extent).volume := by
                  rw [Gn.collapsedCells, he, hv, Extent.length_pointList]
                have := (Gn.det_iff l2 G os g.wave ⟨he, hce, hcell, hrem⟩).mpr this
                rw [this] at hdetg
                exact Bool.noConfusion hdetg
              have hcard2 : 2 ≤ (g.wave.slots.f slot).card := himp hex
              rw [Gn.collapsedCells, Gn.collapsedCells, he, hI2.1]
              refine list_countP_lt _ _ _ ?_ slot
                ((Extent.mem_pointList _ _).mpr hslot) ?_ ?_
              · intro c _ hc
                simp only [decide_eq_true_eq] at hc ⊢
                have := Finset.card_le_card (hshTot c)
                omega
              · simp only [decide_eq_true_eq]
                have hs2 : w2.slots.f slot ⊆ {pattern} := h1slot ▸ hsh2 slot
                have := Finset.card_le_card hs2
                rw [Finset.card_singleton] at this
                omega
              · simp only [decide_eq_false_iff_not]
                omega
          · rw [hdet] at h
            simp only [if_true, Option.some.injEq, Prod.mk.injEq] at h
            obtain ⟨rfl, rfl⟩ := h
            refine ⟨?_, ?_, ?_, hvol⟩
            · intro _
              exact ⟨hI2, hshTot⟩
            · intro _
              exact hdet
            · intro hsc
              exact absurd hsc (by simp)

theorem Gn.runLoop_bound (l2 : ℚ → ℚ) (G : PatternGroup) (os : Point)
    (hwts : ∀ p, p < G.num_patterns → 1 ≤ G.weights p) :
    ∀ (n fuel : ℕ) (g : Gn.Generator) (k : ℕ) (res : Gn.UpdateResult) (g2 : Gn.Generator),
      Gn.GInv l2 G os g.wave →
      Gn.runLoop l2 G n fuel g = some (k, res, g2) →
      k ≤ (⟨os⟩ : Extent).volume ∧
      (Gn.Wave.determined g.wave = false →
        k + Gn.collapsedCells g.wave ≤ (⟨os⟩ : Extent).volume) := by
  intro n
  induction n with
  | zero =>
    intro fuel g k res g2 _ h
    exact absurd h (by rw [Gn.runLoop]; simp)
  | succ n ih =>
    intro fuel g k res g2 hI h
    rw [Gn.runLoop] at h
    rcases h1 : Gn.update l2 G fuel g with _ | rg
    · rw [h1] at h
      exact absurd h (by simp)
    · rw [h1] at h
      obtain ⟨res0, g'⟩ := rg
      obtain ⟨hSC, hS, hC, hvol⟩ := Gn.update_spec l2 G os hwts g fuel res0 g' hI h1
      have hterm : Gn.Wave.determined g.wave = false →
          Gn.collapsedCells g.wave < (⟨os⟩ : Extent).volume := by
        intro hnd
        have hne := Gn.det_iff l2 G os g.wave hI
        have hle := Gn.collapsed_le os g.wave hI.1
        have : Gn.collapsedCells g.wave ≠ (⟨os⟩ : Extent).volume := by
          intro hv
          rw [hne.mpr hv] at hnd
          exact Bool.noConfusion hnd
        omega
      rcases res0 with _ | _ | _
      · simp only [Option.some.injEq, Prod.mk.injEq] at h
        obtain ⟨rfl, rfl, rfl⟩ := h
        refine ⟨by omega, ?_⟩
        intro hnd
        have := hterm hnd
        omega
      · simp only at h
        rcases h2 : Gn.runLoop l2 G n fuel g' with _ | kr
        · rw [h2] at h
          exact absurd h (by simp)
        · rw [h2] at h
          obtain ⟨k', res', g2'⟩ := kr
          simp only [Option.some.injEq, Prod.mk.injEq] at h
          obtain ⟨rfl, rfl, rfl⟩ := h
          obtain ⟨hdet', hlt⟩ := hC rfl
          obtain ⟨hI', _⟩ := hSC (Or.inr rfl)
          obtain ⟨ihk, ihc⟩ := ih fuel g' k' res' g2' hI' h2
          have hc' := ihc hdet'
          exact ⟨by omega, fun _ => by omega⟩
      · simp only [Option.some.injEq, Prod.mk.injEq] at h
        obtain ⟨rfl, rfl, rfl⟩ := h
        refine ⟨by omega, ?_⟩
        intro hnd
        have := hterm hnd
        omega

/-- C3: from every wave state satisfying the structural invariant
(established at construction and preserved by every step), `update` either
returns a terminal `Success` or `Failure`, or returns `Continue` and
strictly increases the number of collapsed cells; consequently the driver
loop completes in at most `totalCells` calls to `update`. -/
theorem c3_termination (l2 : ℚ → ℚ) (G : PatternGroup) (output_size : Point)
    (hwts : ∀ p, p < G.num_patterns → 1 ≤ G.weights p)
    (g : Gn.Generator) (hI : Gn.GInv l2 G output_size g.wave) :
    (∀ fuel res g', Gn.update l2 G fuel g = some (res, g') →
      res = .Success ∨ res = .Failure ∨
        (res = .Continue ∧ Gn.collapsedCells g.wave < Gn.collapsedCells g'.wave)) ∧
    (∀ n fuel k res g2, Gn.runLoop l2 G n fuel g = some (k, res, g2) →
      k ≤ (⟨output_size⟩ : Extent).volume) := by
  constructor
  · intro fuel res g' h
    obtain ⟨_, _, hC, _⟩ := Gn.update_spec l2 G output_size hwts g fuel res g' hI h
    rcases res with _ | _ | _
    · exact Or.inl rfl
    · exact Or.inr (Or.inr ⟨rfl, (hC rfl).2⟩)
    · exact Or.inr (Or.inl rfl)
  · intro n fuel k res g2 h
    exact (Gn.runLoop_bound l2 G output_size hwts n fuel g k res g2 hI h).1

/-- C3 witness: the two-pattern one-cell generator satisfies the
hypotheses, so every step from its fresh state is terminal or strictly
collapsing and every completed loop takes at most one step. -/
theorem c3_termination_witness :
    (∀ p, p < gTwo.num_patterns → 1 ≤ gTwo.weights p) ∧
    Gn.GInv l2triv gTwo onesPt (Gn.Generator.new (fun _ => 0) l2triv gTwo onesPt).wave ∧
    ((∀ fuel res g', Gn.update l2triv gTwo fuel
        (Gn.Generator.new (fun _ => 0) l2triv gTwo onesPt) = some (res, g') →
      res = .Success ∨ res = .Failure ∨
        (res = .Continue ∧
          Gn.collapsedCells (Gn.Generator.new (fun _ => 0) l2triv gTwo onesPt).wave
            < Gn.collapsedCells g'.wave)) ∧
     (∀ n fuel k res g2, Gn.runLoop l2triv gTwo n fuel
        (Gn.Generator.new (fun _ => 0) l2triv gTwo onesPt) = some (k, res, g2) →
      k ≤ (⟨onesPt⟩ : Extent).volume)) := by
  have hwts : ∀ p, p < gTwo.num_patterns → 1 ≤ gTwo.weights p := fun p _ => le_refl 1
  have hI : Gn.GInv l2triv gTwo onesPt
      (Gn.Generator.new (fun _ => 0) l2triv gTwo onesPt).wave :=
    Gn.gInv_new l2triv gTwo onesPt (by decide)
  exact ⟨hwts, hI, c3_termination l2triv gTwo onesPt hwts
    (Gn.Generator.new (fun _ => 0) l2triv gTwo onesPt) hI⟩

theorem wlInsert_mem (p : Point) :
    ∀ (wl : List Point) (u : Point), u ∈ wlInsert p wl ↔ u = p ∨ u ∈ wl := by
  intro wl
  induction wl with
  | nil =>
    intro u
    simp [wlInsert]
  | cons q rest ih =>
    intro u
    rw [wlInsert]
    by_cases h1 : p = q
    · rw [if_pos h1]
      subst h1
      simp only [List.mem_cons]
      tauto
    · rw [if_neg h1]
      by_cases h2 : ptLtB p q = true
      · rw [if_pos h2]
        simp only [List.mem_cons]
      · rw [if_neg h2]
        simp only [List.mem_cons, ih]
        tauto

theorem getLast?_decomp {α : Type} :
    ∀ (l : List α) (a : α), l.getLast? = some a → l = l.dropLast ++ [a] := by
  intro l
  induction l with
  | nil =>
    intro a h
    exact absurd h (by simp)
  | cons x xs ih =>
    intro a h
    rcases xs with _ | ⟨y, ys⟩
    · simp only [List.getLast?_singleton, Option.some.injEq] at h
      subst h
      rfl
    · rw [List.getLast?_cons_cons] at h
      have := ih a h
      rw [List.dropLast_cons₂]
      conv_lhs => rw [this]
      rfl

theorem getLast?_none {α : Type} (l : List α) (h : l.getLast? = none) : l = [] := by
  rcases l with _ | ⟨x, xs⟩
  · rfl
  · exfalso
    rcases xs with _ | ⟨y, ys⟩
    · simp at h
    · rw [List.getLast?_cons_cons] at h
      have : (y :: ys).getLast? = some ((y :: ys).getLast (by simp)) :=
        List.getLast?_eq_getLast _ _
    
      rw [this] at h
      exact Option.noConfusion h

theorem Gn.EdgeOK_shrink (G : PatternGroup) (w w' : Gn.Wave) (u : Point) (k : ℕ)
    (hu : w'.slots.f u = w.slots.f u)
    (ht : w'.slots.f (u + G.constraints.offset_group.offsetAt k) ⊆
      w.slots.f (u + G.constraints.offset_group.offsetAt k))
    (h : Gn.EdgeOK G w u k) : Gn.EdgeOK G w' u k := by
  intro q hq
  obtain ⟨p, hp, hc⟩ := h q (ht hq)
  exact ⟨p, hu ▸ hp, hc⟩

theorem Gn.rip_unchanged (l2 : ℚ → ℚ) (G : PatternGroup) (w : Gn.Wave)
    (visit os : Point) (k : ℕ)
    (h : (Gn.remove_impossible_patterns l2 G w visit os k).2.2 = false) :
    (Gn.remove_impossible_patterns l2 G w visit os k).1 = w := by
  have h22 : (Gn.remove_impossible_patterns l2 G w visit os k).2.2
      = decide ((ascList (w.slots.f os)).filter
        (fun q => !decide (∃ p ∈ w.slots.f visit, G.compatible k p q = true)) ≠ []) := rfl
  rw [h22] at h
  have hnil : (ascList (w.slots.f os)).filter
      (fun q => !decide (∃ p ∈ w.slots.f visit, G.compatible k p q = true)) = [] := by
    have := of_decide_eq_false h
    exact not_not.mp (fun hne => this hne)
  have h1 : (Gn.remove_impossible_patterns l2 G w visit os k).1
      = ((ascList (w.slots.f os)).filter
        (fun q => !decide (∃ p ∈ w.slots.f visit, G.compatible k p q = true))).foldl
          (fun w q => Gn.remove_pattern l2 G w os q) w := rfl
  rw [h1, hnil]
  rfl

theorem Gn.collapse_GInv (l2 : ℚ → ℚ) (G : PatternGroup) (os : Point)
    (hwts : ∀ p, p < G.num_patterns → 1 ≤ G.weights p)
    (w : Gn.Wave) (slot : Point) (pattern : ℕ)
    (hI : Gn.GInv l2 G os w)
    (hslot : (⟨os⟩ : Extent).contains slot = true)
    (hpmem : pattern ∈ w.slots.f slot) :
    Gn.GInv l2 G os (Gn.collapse_slot l2 G w slot pattern) ∧
    Gn.shrinks w (Gn.collapse_slot l2 G w slot pattern) ∧
    (Gn.collapse_slot l2 G w slot pattern).slots.f slot = {pattern} ∧
    (∀ c, c ≠ slot → (Gn.collapse_slot l2 G w slot pattern).slots.f c = w.slots.f c) := by
  obtain ⟨he, hce, hcell, hrem⟩ := hI
  obtain ⟨hne0, hsubr, hcac⟩ := hcell slot hslot
  have hwsl : ∀ x ∈ w.slots.f slot, 1 ≤ G.weights x :=
    fun x hx => hwts x (Finset.mem_range.mp (hsubr hx))
  have hcard_le : (w.slots.f slot).card ≤ w.remaining_pattern_count := by
    rw [hrem]
    exact list_le_sum_of_mem (⟨os⟩ : Extent).pointList (fun c => (w.slots.f c).card)
      slot ((Extent.mem_pointList _ _).mpr hslot)
  obtain ⟨c1, c2, c3, c4, c5, c6⟩ := Gn.collapseFold_spec l2 G w slot pattern
    hpmem hwsl hcac (by omega)
  set w1 := Gn.collapse_slot l2 G w slot pattern with hw1
  have h1slot : w1.slots.f slot = {pattern} := by
    rw [c3, updFn_same]
  have hother : ∀ c, c ≠ slot → w1.slots.f c = w.slots.f c := by
    intro c hc
    rw [c3, updFn_other _ _ _ _ hc]
  have hshrink1 : Gn.shrinks w w1 := by
    intro c
    by_cases hc : c = slot
    · subst hc
      rw [h1slot]
      exact Finset.singleton_subset_iff.mpr hpmem
    · rw [hother c hc]
  refine ⟨⟨c1.trans he, c2.trans hce, ?_, ?_⟩, hshrink1, h1slot, hother⟩
  · intro c hc
    by_cases hcs : c = slot
    · subst hcs
      rw [h1slot, c5]
      exact ⟨Finset.singleton_nonempty _,
        Finset.singleton_subset_iff.mpr (hsubr hpmem), rfl⟩
    · rw [hother c hcs, c4 c hcs]
      exact hcell c hc
  · have hmapeq : (⟨os⟩ : Extent).pointList.map (fun c => (w1.slots.f c).card)
        = (⟨os⟩ : Extent).pointList.map
            (updFn (fun c => (w.slots.f c).card) slot 1) := by
      apply List.map_congr_left
      intro c _
      by_cases hcs : c = slot
      · subst hcs
        rw [updFn_same, h1slot, Finset.card_singleton]
      · rw [updFn_other _ _ _ _ hcs, hother c hcs]
    have hupd := list_map_sum_update (⟨os⟩ : Extent).pointList
      (fun c => (w.slots.f c).card) slot 1
      (Extent.pointList_nodup _) ((Extent.mem_pointList _ _).mpr hslot)
    have hfv : (fun c => (w.slots.f c).card) slot = (w.slots.f slot).card := rfl
    rw [hfv] at hupd
    show w1.remaining_pattern_count
      = ((⟨os⟩ : Extent).pointList.map (fun c => (w1.slots.f c).card)).sum
    rw [hmapeq]
    omega

theorem Gn.AC_new (l2 : ℚ → ℚ) (G : PatternGroup) (os : Point)
    (hsupp : ∀ k, k < G.constraints.offset_group.num_offsets →
      ∀ q, q < G.num_patterns → ∃ p, p < G.num_patterns ∧ G.compatible k p q = true) :
    Gn.AC G os (Gn.Wave.new l2 G os) := by
  intro u _ k hk _
  right
  intro q hq
  obtain ⟨p, hp, hc⟩ := hsupp k hk q (Finset.mem_range.mp hq)
  exact ⟨p, Finset.mem_range.mpr hp, hc⟩

theorem Gn.det_all_one (l2 : ℚ → ℚ) (G : PatternGroup) (os : Point) (w : Gn.Wave)
    (hI : Gn.GInv l2 G os w) (hdet : Gn.Wave.determined w = true) :
    ∀ c, (⟨os⟩ : Extent).contains c = true → (w.slots.f c).card = 1 := by
  intro c hc
  have hv := (Gn.det_iff l2 G os w hI).mp hdet
  obtain ⟨he, hce, hcell, hrem⟩ := hI
  have hcnt : ((⟨os⟩ : Extent).pointList.countP
      (fun c => decide ((w.slots.f c).card ≤ 1)))
      = (⟨os⟩ : Extent).pointList.length := by
    rw [Gn.collapsedCells, he] at hv
    rw [hv, Extent.length_pointList]
  have hall := List.countP_eq_length.mp hcnt c ((Extent.mem_pointList _ _).mpr hc)
  simp only [decide_eq_true_eq] at hall
  have h1 : 1 ≤ (w.slots.f c).card := Finset.card_pos.mpr (hcell c hc).1
  omega

theorem Gn.visitOffsets_ACI (l2 : ℚ → ℚ) (G : PatternGroup) (os : Point)
    (hwts : ∀ p, p < G.num_patterns → 1 ≤ G.weights p) :
    ∀ (ks : List ℕ) (w : Gn.Wave) (wl : List Point) (visit : Point),
      Gn.GInv l2 G os w →
      (∀ u, (⟨os⟩ : Extent).contains u = true →
        ∀ k, k < G.constraints.offset_group.num_offsets →
          (⟨os⟩ : Extent).contains (u + G.constraints.offset_group.offsetAt k) = true →
          u ∈ wl ∨ Gn.EdgeOK G w u k ∨ (u = visit ∧ k ∈ ks)) →
      (Gn.visitOffsets l2 G ks w wl visit).1 = true →
      Gn.ACI G os (Gn.visitOffsets l2 G ks w wl visit).2.1
        (Gn.visitOffsets l2 G ks w wl visit).2.2 := by
  intro ks
  induction ks with
  | nil =>
    intro w wl visit _ hH _
    intro u hu k hk ht
    rcases hH u hu k hk ht with h | h | h
    · exact Or.inl h
    · exact Or.inr h
    · exact absurd h.2 (by simp)
  | cons k ks ih =>
    intro w wl visit hI hH hb
    obtain ⟨he, hce, hcell, hrem⟩ := hI
    rw [Gn.visitOffsets] at hb ⊢
    by_cases hin : w.slots.ext.contains (visit + G.constraints.offset_group.offsetAt k) = true
    · rw [if_pos hin] at hb ⊢
      set v := visit + G.constraints.offset_group.offsetAt k with hv
      have hinv : (⟨os⟩ : Extent).contains v = true := by
        rw [← he]
        exact hin
      obtain ⟨hne0, hsubr, hcac⟩ := hcell v hinv
      have hwv : ∀ x ∈ w.slots.f v, 1 ≤ G.weights x := by
        intro x hx
        exact hwts x (Finset.mem_range.mp (hsubr hx))
      have hcard_le : (w.slots.f v).card ≤ w.remaining_pattern_count := by
        rw [hrem]
        exact list_le_sum_of_mem (⟨os⟩ : Extent).pointList (fun c => (w.slots.f c).card) v
          ((Extent.mem_pointList _ _).mpr hinv)
      obtain ⟨r1, r2, r3, r4, r5, r6, r7, r8⟩ := Gn.rip_spec l2 G w visit v k hwv hcac hcard_le
      by_cases hany : (Gn.remove_impossible_patterns l2 G w visit v k).2.1 = true
      · rw [if_pos hany] at hb ⊢
        set w1 := (Gn.remove_impossible_patterns l2 G w visit v k).1 with hw1
        have hshrink1 : Gn.shrinks w w1 := by
          intro c
          by_cases hc : c = v
          · subst hc
            intro x hx
            exact ((r5 x).mp hx).1
          · rw [r3 c hc]
        have hI1 : Gn.GInv l2 G os w1 := by
          refine ⟨r1.trans he, r2.trans hce, ?_, ?_⟩
          · intro c hc
            by_cases hcv : c = v
            · subst hcv
              refine ⟨(r7.mp hany), ?_, r8 hany⟩
              exact Finset.Subset.trans (hshrink1 v) (hcell v hc).2.1
            · rw [r3 c hcv, r4 c hcv]
              exact hcell c hc
          · have hmapeq : (⟨os⟩ : Extent).pointList.map (fun c => (w1.slots.f c).card)
                = (⟨os⟩ : Extent).pointList.map
                    (updFn (fun c => (w.slots.f c).card) v ((w1.slots.f v).card)) := by
              apply List.map_congr_left
              intro c _
              by_cases hcv : c = v
              · subst hcv
                rw [updFn_same]
              · rw [updFn_other _ _ _ _ hcv, r3 c hcv]
            have hupd := list_map_sum_update (⟨os⟩ : Extent).pointList
              (fun c => (w.slots.f c).card) v ((w1.slots.f v).card)
              (Extent.pointList_nodup _) ((Extent.mem_pointList _ _).mpr hinv)
            have hfv : (fun c => (w.slots.f c).card) v = (w.slots.f v).card := rfl
            rw [hfv] at hupd
            show w1.remaining_pattern_count
              = ((⟨os⟩ : Extent).pointList.map (fun c => (w1.slots.f c).card)).sum
            rw [hmapeq]
            omega
        have hH1 : ∀ u, (⟨os⟩ : Extent).contains u = true →
            ∀ k', k' < G.constraints.offset_group.num_offsets →
              (⟨os⟩ : Extent).contains
                (u + G.constraints.offset_group.offsetAt k') = true →
              u ∈ (if (Gn.remove_impossible_patterns l2 G w visit v k).2.2 = true
                  then wlInsert v wl else wl) ∨
                Gn.EdgeOK G w1 u k' ∨ (u = visit ∧ k' ∈ ks) := by
          intro u hu k' hk' ht'
          rcases hch : (Gn.remove_impossible_patterns l2 G w visit v k).2.2 with _ | _
          · -- nothing changed at the visited neighbor: the wave is unchanged
            have hw1w : w1 = w := Gn.rip_unchanged l2 G w visit v k hch
            rw [if_neg (by simp)]
            rcases hH u hu k' hk' ht' with h | h | ⟨rfl, hkk⟩
            · exact Or.inl h
            · exact Or.inr (Or.inl (hw1w ▸ h))
            · rcases List.mem_cons.mp hkk with rfl | hkk'
              · refine Or.inr (Or.inl ?_)
                rw [hw1w]
                intro q hq
                have := (r5 q).mp (hw1w ▸ hq)
                exact this.2
              · exact Or.inr (Or.inr ⟨rfl, hkk'⟩)
          · rw [if_pos rfl]
            rcases hH u hu k' hk' ht' with h | h | ⟨rfl, hkk⟩
            · exact Or.inl ((wlInsert_mem v wl u).mpr (Or.inr h))
            · by_cases huv : u = v
              · exact Or.inl ((wlInsert_mem v wl u).mpr (Or.inl huv))
              · refine Or.inr (Or.inl ?_)
                apply Gn.EdgeOK_shrink G w w1 u k' (r3 u huv) _ h
                exact hshrink1 _
            · rcases List.mem_cons.mp hkk with rfl | hkk'
              · by_cases hvv : u = v
                · exact Or.inl ((wlInsert_mem v wl u).mpr (Or.inl hvv))
                · refine Or.inr (Or.inl ?_)
                  intro q hq
                  obtain ⟨hqS, p, hp, hc⟩ := (r5 q).mp hq
                  exact ⟨p, (r3 u hvv) ▸ hp, hc⟩
              · exact Or.inr (Or.inr ⟨rfl, hkk'⟩)
        exact ih w1 _ visit hI1 hH1 hb
      · rw [if_neg hany] at hb
        exact absurd hb (by simp)
    · rw [if_neg hin] at hb ⊢
      have hH' : ∀ u, (⟨os⟩ : Extent).contains u = true →
          ∀ k', k' < G.constraints.offset_group.num_offsets →
            (⟨os⟩ : Extent).contains
              (u + G.constraints.offset_group.offsetAt k') = true →
            u ∈ wl ∨ Gn.EdgeOK G w u k' ∨ (u = visit ∧ k' ∈ ks) := by
        intro u hu k' hk' ht'
        rcases hH u hu k' hk' ht' with h | h | ⟨rfl, hkk⟩
        · exact Or.inl h
        · exact Or.inr (Or.inl h)
        · rcases List.mem_cons.mp hkk with rfl | hkk'
          · exfalso
            apply hin
            rw [he]
            exact ht'
          · exact Or.inr (Or.inr ⟨rfl, hkk'⟩)
      exact ih w wl visit ⟨he, hce, hcell, hrem⟩ hH' hb

theorem Gn.propagate_ACI (l2 : ℚ → ℚ) (G : PatternGroup) (os : Point)
    (hwts : ∀ p, p < G.num_patterns → 1 ≤ G.weights p) :
    ∀ (fuel : ℕ) (w : Gn.Wave) (wl : List Point) (b : Bool) (w' : Gn.Wave),
      Gn.GInv l2 G os w → Gn.ACI G os w wl →
      Gn.propagate_constraints l2 G fuel w wl = some (b, w') →
      b = true → Gn.AC G os w' := by
  intro fuel
  induction fuel with
  | zero =>
    intro w wl b w' _ _ h _
    exact absurd h (by rw [Gn.propagate_constraints]; simp)
  | succ fuel ih =>
    intro w wl b w' hI hACI h hb
    rw [Gn.propagate_constraints] at h
    rcases hlast : wl.getLast? with _ | v
    · rw [hlast] at h
      simp only [Option.some.injEq, Prod.mk.injEq] at h
      obtain ⟨rfl, rfl⟩ := h
      have hwl : wl = [] := getLast?_none wl hlast
      rw [hwl] at hACI
      exact hACI
    · rw [hlast] at h
      simp only at h
      have hdecomp : wl = wl.dropLast ++ [v] := getLast?_decomp wl v hlast
      have hH : ∀ u, (⟨os⟩ : Extent).contains u = true →
          ∀ k, k < G.constraints.offset_group.num_offsets →
            (⟨os⟩ : Extent).contains
              (u + G.constraints.offset_group.offsetAt k) = true →
            u ∈ wl.dropLast ∨ Gn.EdgeOK G w u k ∨
              (u = v ∧ k ∈ List.range G.constraints.offset_group.num_offsets) := by
        intro u hu k hk ht
        rcases hACI u hu k hk ht with hmem | hok
        · rw [hdecomp] at hmem
          rcases List.mem_append.mp hmem with hmem | hmem
          · exact Or.inl hmem
          · have : u = v := by simpa using hmem
            exact Or.inr (Or.inr ⟨this, List.mem_range.mpr hk⟩)
        · exact Or.inr (Or.inl hok)
      by_cases hst : (Gn.visitOffsets l2 G (List.range G.constraints.offset_group.num_offsets)
          w wl.dropLast v).1 = true
      · rw [if_pos hst] at h
        have hACI1 := Gn.visitOffsets_ACI l2 G os hwts
          (List.range G.constraints.offset_group.num_offsets) w wl.dropLast v hI hH hst
        obtain ⟨hI1, _⟩ := Gn.visitOffsets_GInv l2 G os hwts
          (List.range G.constraints.offset_group.num_offsets) w wl.dropLast v hI hst
        exact ih _ _ b w' hI1 hACI1 h hb
      · rw [if_neg hst] at h
        simp only [Option.some.injEq, Prod.mk.injEq] at h
        obtain ⟨rfl, rfl⟩ := h
        exact absurd hb (by simp)

theorem Gn.update_AC (l2 : ℚ → ℚ) (G : PatternGroup) (os : Point)
    (hwts : ∀ p, p < G.num_patterns → 1 ≤ G.weights p)
    (g : Gn.Generator) (fuel : ℕ) (res : Gn.UpdateResult) (g' : Gn.Generator)
    (hI : Gn.GInv l2 G os g.wave) (hAC : Gn.AC G os g.wave)
    (h : Gn.update l2 G fuel g = some (res, g'))
    (hok : res = .Success ∨ res = .Continue) :
    Gn.AC G os g'.wave := by
  rw [Gn.update] at h
  rcases h1 : Gn.choose_lowest_entropy_slot g.wave g.rng with _ | se
  · rw [h1] at h
    exact absurd h (by simp)
  · rw [h1] at h
    obtain ⟨⟨slot, e⟩, r1⟩ := se
    simp only at h
    obtain ⟨hslot, _, _⟩ := Gn.choose_spec l2 G os g.wave g.rng hI hwts slot e r1 h1
    rcases h2 : G.sample_pattern (g.wave.slots.f slot) r1 with _ | pr
    · rw [h2] at h
      exact absurd h (by simp)
    · rw [h2] at h
      obtain ⟨pattern, r2⟩ := pr
      simp only at h
      have hpmem : pattern ∈ g.wave.slots.f slot :=
        Gn.sample_pattern_mem G _ r1 pattern r2 h2
      obtain ⟨hI1, hsh1, hsl1, hoth1⟩ := Gn.collapse_GInv l2 G os hwts g.wave slot pattern
        hI hslot hpmem
      set w1 := Gn.collapse_slot l2 G g.wave slot pattern with hw1
      have hACI1 : Gn.ACI G os w1 [slot] := by
        intro u hu k hk ht
        by_cases hus : u = slot
        · exact Or.inl (by rw [hus]; exact List.mem_cons_self _ _)
        · right
          rcases hAC u hu k hk ht with habs | hok'
          · exact absurd habs (by simp)
          · exact Gn.EdgeOK_shrink G g.wave w1 u k (hoth1 u hus) (hsh1 _) hok'
      rcases h3 : Gn.propagate_constraints l2 G fuel w1 [slot] with _ | bw
      · rw [h3] at h
        exact absurd h (by simp)
      · rw [h3] at h
        obtain ⟨ok, w2⟩ := bw
        simp only at h
        rcases ok with _ | _
        · simp only [Bool.not_false, if_true, Option.some.injEq, Prod.mk.injEq] at h
          obtain ⟨rfl, rfl⟩ := h
          rcases hok with hok | hok <;> exact absurd hok (by simp)
        · have hAC2 : Gn.AC G os w2 :=
            Gn.propagate_ACI l2 G os hwts fuel w1 [slot] true w2 hI1 hACI1 h3 rfl
          simp only [Bool.not_true, Bool.false_eq_true, if_false] at h
          rcases hdet : Gn.Wave.determined w2 with _ | _
          · rw [hdet] at h
            simp only [Bool.false_eq_true, if_false, Option.some.injEq, Prod.mk.injEq] at h
            obtain ⟨rfl, rfl⟩ := h
            exact hAC2
          · rw [hdet] at h
            simp only [if_true, Option.some.injEq, Prod.mk.injEq] at h
            obtain ⟨rfl, rfl⟩ := h
            exact hAC2

theorem Gn.runLoop_success (l2 : ℚ → ℚ) (G : PatternGroup) (os : Point)
    (hwts : ∀ p, p < G.num_patterns → 1 ≤ G.weights p) :
    ∀ (n fuel : ℕ) (g : Gn.Generator) (k : ℕ) (g2 : Gn.Generator),
      Gn.GInv l2 G os g.wave → Gn.AC G os g.wave →
      Gn.runLoop l2 G n fuel g = some (k, .Success, g2) →
      Gn.GInv l2 G os g2.wave ∧ Gn.AC G os g2.wave ∧
        Gn.Wave.determined g2.wave = true := by
  intro n
  induction n with
  | zero =>
    intro fuel g k g2 _ _ h
    exact absurd h (by rw [Gn.runLoop]; simp)
  | succ n ih =>
    intro fuel g k g2 hI hAC h
    rw [Gn.runLoop] at h
    rcases h1 : Gn.update l2 G fuel g with _ | rg
    · rw [h1] at h
      exact absurd h (by simp)
    · rw [h1] at h
      obtain ⟨res0, g'⟩ := rg
      obtain ⟨hSC, hS, _, _⟩ := Gn.update_spec l2 G os hwts g fuel res0 g' hI h1
      rcases res0 with _ | _ | _
      · simp only [Option.some.injEq, Prod.mk.injEq] at h
        obtain ⟨_, _, rfl⟩ := h
        exact ⟨(hSC (Or.inl rfl)).1,
          Gn.update_AC l2 G os hwts g fuel _ g' hI hAC h1 (Or.inl rfl), hS rfl⟩
      · simp only at h
        rcases h2 : Gn.runLoop l2 G n fuel g' with _ | kr
        · rw [h2] at h
          exact absurd h (by simp)
        · rw [h2] at h
          obtain ⟨k', res', g2'⟩ := kr
          simp only [Option.some.injEq, Prod.mk.injEq] at h
          obtain ⟨_, rfl, rfl⟩ := h
          exact ih fuel g' k' g2' (hSC (Or.inr rfl)).1
            (Gn.update_AC l2 G os hwts g fuel _ g' hI hAC h1 (Or.inr rfl)) h2
      · simp only [Option.some.injEq, Prod.mk.injEq] at h
        obtain ⟨_, habs, _⟩ := h
        exact absurd habs (by simp)

/-- C1: when the collapse loop started from a fresh generator returns
`Success`, the extracted grid of per-slot patterns satisfies assignment
validity: every in-extent pair of neighbors at every offset carries
compatible patterns.  Hypotheses: positive weights for in-range patterns,
at least one pattern, and every pattern supported at every offset (the
arc-consistency seed provided by extraction, whose constraints come from
actually adjacent occurrences). -/
theorem c1_result_validity (l2 : ℚ → ℚ) (G : PatternGroup) (output_size : Point)
    (stream : ℕ → ℚ)
    (hwts : ∀ p, p < G.num_patterns → 1 ≤ G.weights p)
    (h1 : 1 ≤ G.num_patterns)
    (hsupp : ∀ k, k < G.constraints.offset_group.num_offsets →
      ∀ q, q < G.num_patterns → ∃ p, p < G.num_patterns ∧ G.compatible k p q = true)
    (n fuel k : ℕ) (g2 : Gn.Generator)
    (hrun : Gn.runLoop l2 G n fuel (Gn.Generator.new stream l2 G output_size)
      = some (k, .Success, g2)) :
    ∃ A, Gn.Generator.result g2 = some A ∧
      G.constraints.assignment_is_valid A = true := by
  have hInew : Gn.GInv l2 G output_size
      (Gn.Generator.new stream l2 G output_size).wave :=
    Gn.gInv_new l2 G output_size h1
  have hACnew : Gn.AC G output_size (Gn.Generator.new stream l2 G output_size).wave :=
    Gn.AC_new l2 G output_size hsupp
  obtain ⟨hI2, hAC2, hdet2⟩ := Gn.runLoop_success l2 G output_size hwts n fuel
    (Gn.Generator.new stream l2 G output_size) k g2 hInew hACnew hrun
  have hone := Gn.det_all_one l2 G output_size g2.wave hI2 hdet2
  have he2 : g2.wave.slots.ext = ⟨output_size⟩ := hI2.1
  have hcond : g2.wave.slots.ext.pointList.all
      (fun p => decide (g2.wave.slots.f p).Nonempty) = true := by
    rw [List.all_eq_true]
    intro p hp
    rw [he2] at hp
    have := hone p ((Extent.mem_pointList _ _).mp hp)
    exact decide_eq_true (Finset.card_pos.mp (by omega))
  refine ⟨⟨g2.wave.slots.ext, fun p => (ascList (g2.wave.slots.f p)).headD 0⟩, ?_, ?_⟩
  · rw [Gn.Generator.result, if_pos hcond]
  · rw [PatternConstraints.assignment_is_valid, List.all_eq_true]
    intro p hp
    rw [List.all_eq_true]
    intro k' hk'
    have hk'lt : k' < G.constraints.offset_group.num_offsets := List.mem_range.mp hk'
    show (!((g2.wave.slots.ext).contains
        (p + G.constraints.offset_group.offsetAt k')) ||
      G.constraints.are_compatible
        ((ascList (g2.wave.slots.f p)).headD 0)
        ((ascList (g2.wave.slots.f
          (p + G.constraints.offset_group.offsetAt k'))).headD 0) k') = true
    rw [he2]
    set v := p + G.constraints.offset_group.offsetAt k' with hv
    rcases hvc : (⟨output_size⟩ : Extent).contains v with _ | _
    · rfl
    · have hpc : (⟨output_size⟩ : Extent).contains p = true := by
        rw [he2] at hp
        exact (Extent.mem_pointList _ _).mp hp
      obtain ⟨a, ha⟩ := Finset.card_eq_one.mp (hone p hpc)
      obtain ⟨b, hb⟩ := Finset.card_eq_one.mp (hone v hvc)
      have hEdge : Gn.EdgeOK G g2.wave p k' := by
        rcases hAC2 p hpc k' hk'lt hvc with habs | hok
        · exact absurd habs (by simp)
        · exact hok
      obtain ⟨x, hx, hcomp⟩ := hEdge b (by rw [← hv, hb]; exact Finset.mem_singleton_self b)
      rw [ha, Finset.mem_singleton] at hx
      subst hx
      have hfa : (ascList (g2.wave.slots.f p)).headD 0 = x := by
        rw [ha, ascList_singleton]
        rfl
      have hfb : (ascList (g2.wave.slots.f v)).headD 0 = b := by
        rw [hb, ascList_singleton]
        rfl
      rw [hfa, hfb]
      have : G.constraints.are_compatible x b k' = true := hcomp
      rw [this]
      rfl

/-- C1 witness: the two-pattern one-cell generator completes with
`Success` in one step and its extracted one-cell grid is valid. -/
theorem c1_result_validity_witness :
    (∀ p, p < gTwo.num_patterns → 1 ≤ gTwo.weights p) ∧
    1 ≤ gTwo.num_patterns ∧
    (∀ k, k < gTwo.constraints.offset_group.num_offsets →
      ∀ q, q < gTwo.num_patterns →
        ∃ p, p < gTwo.num_patterns ∧ gTwo.compatible k p q = true) ∧
    Gn.runLoop l2triv gTwo 1 2 (Gn.Generator.new (fun _ => 0) l2triv gTwo onesPt)
      = some (gTwoRun.1, .Success, gTwoRun.2.2) ∧
    (∃ A, Gn.Generator.result gTwoRun.2.2 = some A ∧
      gTwo.constraints.assignment_is_valid A = true) := by
  have hwts : ∀ p, p < gTwo.num_patterns → 1 ≤ gTwo.weights p := fun p _ => le_refl 1
  have hsupp : ∀ k, k < gTwo.constraints.offset_group.num_offsets →
      ∀ q, q < gTwo.num_patterns →
        ∃ p, p < gTwo.num_patterns ∧ gTwo.compatible k p q = true :=
    fun k hk => absurd hk (Nat.not_lt_zero k)
  have hrun : Gn.runLoop l2triv gTwo 1 2 (Gn.Generator.new (fun _ => 0) l2triv gTwo onesPt)
      = some (gTwoRun.1, .Success, gTwoRun.2.2) := by rfl
  exact ⟨hwts, by decide, hsupp, hrun,
    c1_result_validity l2triv gTwo onesPt (fun _ => 0) hwts (by decide) hsupp
      1 2 gTwoRun.1 gTwoRun.2.2 hrun⟩

/-- C5 witness: the amended invariant evaluated on the fresh two-pattern
one-cell wave. -/
theorem c5_collapsed_count_amended_witness :
    cTwo.num_patterns < 65536 ∧ 2 ≤ cTwo.num_patterns ∧
    ((Wv.Wave.new l2triv wOne cTwo onesPt).collapsed_count
        = Wv.countCollapsed (Wv.Wave.new l2triv wOne cTwo onesPt) ∧
      (Wv.Wave.determined (Wv.Wave.new l2triv wOne cTwo onesPt) = true ↔
        (Wv.Wave.new l2triv wOne cTwo onesPt).collapsed_count
          = Wv.Wave.num_slots (Wv.Wave.new l2triv wOne cTwo onesPt))) :=
  ⟨by decide, by decide,
    c5_collapsed_count_amended l2triv wOne cTwo onesPt (by decide) (by decide) _ true
      Wv.Reach.init⟩
